import Mathlib

/-!
# multicluster-global-hub: status bundles, their handlers and statistics

A shallow embedding of the parts of the repository that the verified
properties talk about.

* `manager/pkg/statussyncer/syncers/local_replicated_policy_event_syncer.go`
  (the handler of local replicated policy event bundles),
* `agent/pkg/status/controller/generic/bundle_entry.go` (outgoing entries),
* `pkg/statistics/statistics.go`, `pkg/statistics/bundle_metrics.go`,
* `operator/pkg/utils/utils.go` (list, subscription and alert helpers),
* `operator/pkg/config/multiclusterglobalhub_config.go` (annotation flags and
  image overrides).

Go pointers into shared mutable objects are modelled by explicit references
into a store that is passed around; the database and the gorm library are
modelled as an explicit table plus a description of how the storage behaves.
-/

namespace GlobalHub

/-! ## Local replicated policy events: data -/

/-- The fields of `base.ReplicatedPolicyEvent` that the handler reads.
`CreatedAt` (a `time.Time`) is an instant, `Count` a Go `int`. -/
structure ReplicatedPolicyEvent where
  EventName : String
  PolicyID : String
  ClusterID : String
  Message : String
  Reason : String
  Count : Int
  Compliance : String
  CreatedAt : Int
  deriving DecidableEq

/-- One element of `bundle.GetObjects()` (a Go `[]interface{}`): the type
assertion `object.(*base.ReplicatedPolicyEvent)` succeeds on `policyEvent`
and fails on anything else. -/
inductive BundleObject where
  | policyEvent (e : ReplicatedPolicyEvent)
  | other (typeName : String)
  deriving DecidableEq

/-- What the handler uses of a `bundle.ManagerBundle`: `GetLeafHubName()` and
`GetObjects()`. -/
structure ManagerBundle where
  LeafHubName : String
  Objects : List BundleObject
  deriving DecidableEq

/-- `models.BaseLocalPolicyEvent`. `Source` is a nullable column that the
handler always leaves nil. -/
structure BaseLocalPolicyEvent where
  EventName : String
  PolicyID : String
  Message : String
  Reason : String
  LeafHubName : String
  Source : Option String
  Count : Int
  Compliance : String
  CreatedAt : Int
  deriving DecidableEq

/-- `models.LocalClusterPolicyEvent`: the embedded base event plus the cluster. -/
structure LocalClusterPolicyEvent where
  BaseLocalPolicyEvent : BaseLocalPolicyEvent
  ClusterID : String
  deriving DecidableEq

/-- The local policy event table: the stored rows, oldest first. -/
abbrev EventTable := List LocalClusterPolicyEvent

/-- The columns named in the handler's `clause.OnConflict`:
`event_name`, `count`, `created_at`. -/
def conflictKey (r : LocalClusterPolicyEvent) : String × Int × Int :=
  (r.BaseLocalPolicyEvent.EventName, r.BaseLocalPolicyEvent.Count, r.BaseLocalPolicyEvent.CreatedAt)

/-- Whether the table already stores a row with the conflict key `k`. -/
def hasKey (t : EventTable) (k : String × Int × Int) : Bool :=
  t.any (fun s => decide (conflictKey s = k))

/-- One row of an `INSERT ... ON CONFLICT (event_name, count, created_at) DO NOTHING`:
the row is skipped when a stored row (or an earlier row of the same statement,
which is stored by then) has the same key, and appended otherwise. -/
def insertIgnore (t : EventTable) (r : LocalClusterPolicyEvent) : EventTable :=
  if hasKey t (conflictKey r) then t else t ++ [r]

/-- One insert statement carrying the rows of one batch. -/
def execInsert (t : EventTable) (rows : List LocalClusterPolicyEvent) : EventTable :=
  rows.foldl insertIgnore t

/-! ## The gorm calls of the handler -/

/-- How the storage behaves during one handler call: the error, if any, that
the `i`-th insert statement of the call reports, and gorm's
`SkipDefaultTransaction` setting of the connection (`database.GetGorm()`). -/
structure Storage where
  stmtError : Nat → Option String
  SkipDefaultTransaction : Bool

/-- A storage on which no statement fails. -/
def Storage.healthy : Storage := ⟨fun _ => none, false⟩

/-- The slices `rows[i:min(i+batchSize, len)]` for `i = 0, batchSize, ...` of
gorm's `CreateInBatches` loop; `fuel` bounds the number of iterations. -/
def batchesAux {α : Type} (batchSize : Nat) : Nat → List α → List (List α)
  | 0, _ => []
  | fuel + 1, rows =>
    if rows.isEmpty then []
    else rows.take batchSize :: batchesAux batchSize fuel (rows.drop batchSize)

/-- The batches of `CreateInBatches(rows, batchSize)`. -/
def batches {α : Type} (batchSize : Nat) (rows : List α) : List (List α) :=
  batchesAux batchSize rows.length rows

/-- The statements of one `CreateInBatches` call, in order: statement `i` is
the insert of the next batch; the first statement that reports an error stops
the loop and its error is returned. -/
def runBatches (g : Storage) : Nat → EventTable → List (List LocalClusterPolicyEvent) →
    Option String × EventTable
  | _, t, [] => (none, t)
  | i, t, b :: bs =>
    match g.stmtError i with
    | some e => (some e, t)
    | none => runBatches g (i + 1) (execInsert t b) bs

/-- The call `db.Clauses(OnConflict{..., DoNothing: true}).CreateInBatches(rows, batchSize)`.
gorm wraps the loop in a transaction unless `SkipDefaultTransaction` is set or
all rows fit in one batch; a transaction that fails is rolled back. -/
def CreateInBatches (g : Storage) (t : EventTable) (rows : List LocalClusterPolicyEvent)
    (batchSize : Nat) : Option String × EventTable :=
  let r := runBatches g 0 t (batches batchSize rows)
  if g.SkipDefaultTransaction || decide (rows.length ≤ batchSize) then r
  else
    match r.1 with
    | some e => (some e, t)
    | none => r

/-! ## The handler -/

/-- The error value `fmt.Errorf("failed handling leaf hub LocalPolicyStatusEvent bundle - %w", err)`:
a message wrapping the storage error. -/
structure WrappedError where
  message : String
  cause : String
  deriving DecidableEq

/-- The rows the handler builds in its loop over `bundle.GetObjects()`;
objects that are not replicated policy events are skipped.
`getDatabaseCompliance` is `common.GetDatabaseCompliance`. -/
def buildRows (getDatabaseCompliance : String → String) (leafHubName : String) :
    List BundleObject → List LocalClusterPolicyEvent
  | [] => []
  | BundleObject.other _ :: rest => buildRows getDatabaseCompliance leafHubName rest
  | BundleObject.policyEvent e :: rest =>
    { BaseLocalPolicyEvent :=
        { EventName := e.EventName
          PolicyID := e.PolicyID
          Message := e.Message
          Reason := e.Reason
          LeafHubName := leafHubName
          Source := none
          Count := e.Count
          Compliance := getDatabaseCompliance e.Compliance
          CreatedAt := e.CreatedAt }
      ClusterID := e.ClusterID } :: buildRows getDatabaseCompliance leafHubName rest

/-- The method `handleLocalObjectsBundle`: the returned error (`none` is Go's
nil) and the table after the call. -/
def handleLocalObjectsBundle (getDatabaseCompliance : String → String) (g : Storage)
    (db : EventTable) (bundle : ManagerBundle) : Option WrappedError × EventTable :=
  if bundle.Objects.length = 0 then (none, db)
  else
    let leafHubName := bundle.LeafHubName
    let batchUpsertLocalPolicyEvents := buildRows getDatabaseCompliance leafHubName bundle.Objects
    match CreateInBatches g db batchUpsertLocalPolicyEvents 100 with
    | (some err, db') =>
      (some ⟨"failed handling leaf hub LocalPolicyStatusEvent bundle - " ++ err, err⟩, db')
    | (none, db') => (none, db')

/-- The number of stored rows with conflict key `k`. -/
def countKey (t : EventTable) (k : String × Int × Int) : Nat :=
  (t.filter (fun s => decide (conflictKey s = k))).length

/-- No two stored rows share a conflict key (the unique index behind the
`ON CONFLICT` clause). -/
def KeysUnique (t : EventTable) : Prop :=
  (t.map conflictKey).Nodup

/-- A replicated policy event used in the concrete scenarios. -/
def sampleEvent (name message : String) (count createdAt : Int) : ReplicatedPolicyEvent :=
  { EventName := name
    PolicyID := "policy-1"
    ClusterID := "cluster-1"
    Message := message
    Reason := "PolicyStatusSync"
    Count := count
    Compliance := "Compliant"
    CreatedAt := createdAt }

/-- The stored row that the handler builds from `sampleEvent` for leaf hub
`leaf` when the compliance is stored as it is. -/
def sampleRow (leaf name message : String) (count createdAt : Int) : LocalClusterPolicyEvent :=
  { BaseLocalPolicyEvent :=
      { EventName := name
        PolicyID := "policy-1"
        Message := message
        Reason := "PolicyStatusSync"
        LeafHubName := leaf
        Source := none
        Count := count
        Compliance := "Compliant"
        CreatedAt := createdAt }
    ClusterID := "cluster-1" }

/-! ## Outgoing bundle entries (agent side, `bundle_entry.go`)

`metadata.BundleVersion` and the bundle interfaces are declared in package
`pkg/bundle`, outside `bundle_entry.go`, so the version type `V` is a parameter. A live bundle is a
mutable Go object shared through the interface value; here it lives in a
store of bundles and an entry holds a reference into that store. The
predicate closure `func() bool` reads ambient state of type `W`. -/

/-- A reference to a live bundle object. -/
abbrev BundleRef := Nat

/-- A live agent bundle: its internal version (what `GetVersion()` points to)
and its objects. -/
structure AgentBundle (V : Type) where
  version : V
  objects : List String

/-- The live bundles of the agent, by reference. -/
abbrev BundleStore (V : Type) := BundleRef → AgentBundle V

/-- The struct `BundleEntry`. `lastSentBundleVersion` is a version value, not a
pointer ("so it does not point to the bundle's internal version"). -/
structure BundleEntry (V W : Type) where
  transportBundleKey : String
  bundle : BundleRef
  bundlePredicate : W → Bool
  lastSentBundleVersion : V

/-- The struct `SharedBundleEntry`, over a `bundle.BaseAgentBundle`. -/
structure SharedBundleEntry (V W : Type) where
  transportBundleKey : String
  bundle : BundleRef
  bundlePredicate : W → Bool
  lastSentBundleVersion : V

/-- The call `bundle.GetVersion()` followed by the dereference `*`: the value of
the live bundle's version in the current store. -/
def GetVersion {V : Type} (store : BundleStore V) (bundle : BundleRef) : V :=
  (store bundle).version

/-- The constructor `NewBundleEntry`, called while the live bundles are `store`. -/
def NewBundleEntry {V W : Type} (store : BundleStore V) (transportBundleKey : String)
    (bundle : BundleRef) (bundlePredicate : W → Bool) : BundleEntry V W :=
  { transportBundleKey := transportBundleKey
    bundle := bundle
    bundlePredicate := bundlePredicate
    lastSentBundleVersion := GetVersion store bundle }

/-- The constructor `NewSharedBundleEntry`, called while the live bundles are `store`. -/
def NewSharedBundleEntry {V W : Type} (store : BundleStore V) (transportBundleKey : String)
    (baseAgentBundle : BundleRef) (bundlePredicate : W → Bool) : SharedBundleEntry V W :=
  { transportBundleKey := transportBundleKey
    bundle := baseAgentBundle
    bundlePredicate := bundlePredicate
    lastSentBundleVersion := GetVersion store baseAgentBundle }

/-- A later mutation of a live bundle: the bundle behind `bundle` gets the
version `v` (its objects stay); every other bundle is untouched. -/
def setVersion {V : Type} (store : BundleStore V) (bundle : BundleRef) (v : V) : BundleStore V :=
  fun r => if r = bundle then { store r with version := v } else store r

/-- Modelled from the spec: the version comparison `NewerThan` of the Version
Comparator (a method of `metadata.BundleVersion`, package `pkg/bundle/metadata`,
which is missing from the embedded sources): versions are
"an opaque, totally-ordered value" and the comparison "returns a strict
order; equal versions compare equal". -/
def NewerThan {V : Type} [LinearOrder V] (v other : V) : Bool :=
  decide (other < v)

/-- Modelled from the spec: the operation `TryGetOutgoing()` of the Outgoing
Bundle Gate (the method of `BundleEntry` that decides what to send, which is
missing from the embedded sources): it "returns the
current bundle only if (eligibility predicate is true) AND (current version
NewerThan last-sent-version snapshot). Returns 'nothing to send' otherwise."
`none` is "nothing to send"; `w` is the ambient state the predicate reads and
`store` holds the live bundles at the time of the call. -/
def TryGetOutgoing {V W : Type} [LinearOrder V] (w : W) (store : BundleStore V)
    (entry : BundleEntry V W) : Option (AgentBundle V) :=
  if entry.bundlePredicate w && NewerThan (GetVersion store entry.bundle) entry.lastSentBundleVersion
  then some (store entry.bundle)
  else none

/-! ## Statistics (`pkg/statistics`)

`conflationUnitMetrics` and `genericMetrics` are declared in other files of
the package; here they carry the fields that `statistics.go` and
`bundle_metrics.go` read. Counters are Go `int64`/`int` values. The logger
and the mutex carry no data. -/

/-- The type `genericMetrics`: the fields read by `Statistics.run`. -/
structure genericMetrics where
  successes : Int
  failures : Int
  totalDuration : Int
  deriving DecidableEq

/-- The type `conflationUnitMetrics`: the map `startTimestamps` set up by
`newBundleMetrics` and the fields read by `Statistics.run`. -/
structure conflationUnitMetrics where
  startTimestamps : List (String × Int)
  successes : Int
  failures : Int
  totalDuration : Int
  deriving DecidableEq

/-- The struct `bundleMetrics`. -/
structure bundleMetrics where
  conflationUnit : conflationUnitMetrics
  database : genericMetrics
  totalReceived : Int
  deriving DecidableEq

/-- The function `newBundleMetrics`: an empty `startTimestamps` map, everything
else zero. -/
def newBundleMetrics : bundleMetrics :=
  { conflationUnit := { startTimestamps := [], successes := 0, failures := 0, totalDuration := 0 }
    database := { successes := 0, failures := 0, totalDuration := 0 }
    totalReceived := 0 }

/-- The struct `Statistics`. The Go map `bundleMetrics` is a list of
(bundle type, metrics) pairs with at most one pair per bundle type. -/
structure Statistics where
  numOfAvailableDBWorkers : Int
  conflationReadyQueueSize : Int
  numOfConflationUnits : Int
  bundleMetrics : List (String × bundleMetrics)
  logInterval : String
  deriving DecidableEq

/-- The map assignment `m[key] = value`. -/
def mapSet {β : Type} (m : List (String × β)) (key : String) (value : β) : List (String × β) :=
  match m with
  | [] => [(key, value)]
  | (k, v) :: rest => if k = key then (key, value) :: rest else (k, v) :: mapSet rest key value

/-- The map lookup `value, ok := m[key]`. -/
def mapGet {β : Type} (m : List (String × β)) (key : String) : Option β :=
  match m with
  | [] => none
  | (k, v) :: rest => if k = key then some v else mapGet rest key

/-- The struct `StatisticsConfig`. -/
structure StatisticsConfig where
  LogInterval : String
  deriving DecidableEq

/-- The constructor `NewStatistics`. -/
def NewStatistics (statisticsConfig : StatisticsConfig) (bundleTypes : List String) : Statistics :=
  { numOfAvailableDBWorkers := 0
    conflationReadyQueueSize := 0
    numOfConflationUnits := 0
    bundleMetrics := bundleTypes.foldl (fun m bundleType => mapSet m bundleType newBundleMetrics) []
    logInterval := statisticsConfig.LogInterval }

/-- Go's `time.Duration.Seconds()` on a duration of `d` nanoseconds:
`sec := d / Second; nsec := d % Second; float64(sec) + float64(nsec)/1e9`,
with Go's truncating division. The value is taken as an exact rational;
`float64` rounding moves neither a positive nor a negative value across zero,
so the comparison with zero in `run` is the same. -/
def Seconds (d : Int) : ℚ :=
  ((Int.tdiv d 1000000000 : Int) : ℚ) + ((Int.tmod d 1000000000 : Int) : ℚ) / 1000000000

/-- Which case of the `select` in `Statistics.run` fires next. -/
inductive RunSignal where
  | ctxDone
  | tick
  deriving DecidableEq

/-- The numbers of one statistics dump: `CU`, `CUQueue`, `idleDBW`, `success`
and `fail` of the logged line. The averages (floating point, and dependent
on Go's map iteration order) and the per-type text are left out. -/
structure Snapshot where
  numOfConflationUnits : Int
  conflationReadyQueueSize : Int
  numOfAvailableDBWorkers : Int
  success : Int
  fail : Int
  deriving DecidableEq

/-- What `Statistics.run` does to the outside: it creates a ticker, stops it,
or logs a dump. -/
inductive RunEffect where
  | newTicker (duration : Int)
  | tickerStop
  | logSnapshot (snapshot : Snapshot)
  deriving DecidableEq

/-- The value of a Go `int64` expression whose exact result is `x`: two's
complement wrap-around into the range from -2^63 to 2^63 - 1. -/
def wrapInt64 (x : Int) : Int :=
  (x + 9223372036854775808) % 18446744073709551616 - 9223372036854775808

/-- The body of the `case <-ticker.C` branch: the sums over all bundle types. -/
def dumpStatistics (s : Statistics) : Snapshot :=
  { numOfConflationUnits := s.numOfConflationUnits
    conflationReadyQueueSize := s.conflationReadyQueueSize
    numOfAvailableDBWorkers := s.numOfAvailableDBWorkers
    success := wrapInt64 (s.bundleMetrics.map (fun p => p.2.totalReceived)).sum
    fail := wrapInt64
      (s.bundleMetrics.map (fun p => p.2.conflationUnit.failures + p.2.database.failures)).sum }

/-- The `for { select { ... } }` loop of `Statistics.run` on the signals that
arrive: a cancelled context stops the ticker and ends the loop, a tick logs a
dump. When the signals run out the loop is still waiting. -/
def runLoop (s : Statistics) : List RunSignal → List RunEffect
  | [] => []
  | RunSignal.ctxDone :: _ => [RunEffect.tickerStop]
  | RunSignal.tick :: rest => RunEffect.logSnapshot (dumpStatistics s) :: runLoop s rest

/-- The method `Statistics.run(ctx, duration)`: its effects on the signals that
arrive after the call, and the statistics it leaves (it only reads them). -/
def Statistics.run (s : Statistics) (duration : Int) (signals : List RunSignal) :
    List RunEffect × Statistics :=
  if Seconds duration ≤ 0 then ([], s)
  else (RunEffect.newTicker duration :: runLoop s signals, s)

/-- The methods of `conflationUnitMetrics` and `genericMetrics` that
`statistics.go` calls; they are declared in other files of the package and
are taken as given: `conflationUnit.start(leafHubName)`,
`conflationUnit.stop(leafHubName, err)` and `database.add(duration, err)`. -/
structure MetricsMethods where
  start : conflationUnitMetrics → String → conflationUnitMetrics
  stop : conflationUnitMetrics → String → Option String → conflationUnitMetrics
  add : genericMetrics → Int → Option String → genericMetrics

/-- The method `IncrementNumberOfReceivedBundles`. `GetBundleType` is
`bundle.GetBundleType`. The map holds pointers, one fresh `bundleMetrics` per
bundle type, so the increment through the pointer changes the entry of that
bundle type. -/
def Statistics.IncrementNumberOfReceivedBundles (GetBundleType : ManagerBundle → String)
    (s : Statistics) (b : ManagerBundle) : Statistics :=
  match mapGet s.bundleMetrics (GetBundleType b) with
  | none => s
  | some m =>
    let updated : GlobalHub.bundleMetrics := { m with totalReceived := wrapInt64 (m.totalReceived + 1) }
    { s with bundleMetrics := mapSet s.bundleMetrics (GetBundleType b) updated }

/-- The method `StartConflationUnitMetrics`. -/
def Statistics.StartConflationUnitMetrics (ops : MetricsMethods)
    (GetBundleType : ManagerBundle → String) (s : Statistics) (b : ManagerBundle) : Statistics :=
  match mapGet s.bundleMetrics (GetBundleType b) with
  | none => s
  | some m =>
    let updated : GlobalHub.bundleMetrics := { m with conflationUnit := ops.start m.conflationUnit b.LeafHubName }
    { s with bundleMetrics := mapSet s.bundleMetrics (GetBundleType b) updated }

/-- The method `StopConflationUnitMetrics`; `err` is the Go error, `none` for nil. -/
def Statistics.StopConflationUnitMetrics (ops : MetricsMethods)
    (GetBundleType : ManagerBundle → String) (s : Statistics) (b : ManagerBundle)
    (err : Option String) : Statistics :=
  match mapGet s.bundleMetrics (GetBundleType b) with
  | none => s
  | some m =>
    let updated : GlobalHub.bundleMetrics := { m with conflationUnit := ops.stop m.conflationUnit b.LeafHubName err }
    { s with bundleMetrics := mapSet s.bundleMetrics (GetBundleType b) updated }

/-- The method `AddDatabaseMetrics`; `duration` is a `time.Duration`. -/
def Statistics.AddDatabaseMetrics (ops : MetricsMethods)
    (GetBundleType : ManagerBundle → String) (s : Statistics) (b : ManagerBundle)
    (duration : Int) (err : Option String) : Statistics :=
  match mapGet s.bundleMetrics (GetBundleType b) with
  | none => s
  | some m =>
    let updated : GlobalHub.bundleMetrics := { m with database := ops.add m.database duration err }
    { s with bundleMetrics := mapSet s.bundleMetrics (GetBundleType b) updated }

/-- The statistics after `n` calls of `IncrementNumberOfReceivedBundles` with
the bundle `b`. -/
def incrementTimes (GetBundleType : ManagerBundle → String) (b : ManagerBundle) :
    Nat → Statistics → Statistics
  | 0, s => s
  | n + 1, s =>
    incrementTimes GetBundleType b n (s.IncrementNumberOfReceivedBundles GetBundleType b)

/-! ## Conflation slots and the dispatcher (manager side)

The conflation unit, the conflation manager and the worker pool are code of
package `pkg/conflator`, of which the embedded sources hold only the
registration call in the syncer. They are modelled from the spec (sections 3, 4.4
to 4.6, 5 and 7). Each operation is one atomic step, as the spec's locks make
it ("all synchronization is via locks protecting shared mutable structures"). -/

/-- Modelled from the spec: a bundle as the conflation unit sees it, "a
versioned unit of state reported by a source for one bundle-type": its version
and its content. -/
structure VersionedBundle (V C : Type) where
  version : V
  content : C
  deriving DecidableEq

/-- Modelled from the spec: the state of a Conflation Slot, "state ∈ {Empty,
Pending, InFlight} and at most one buffered bundle"; while a handler runs,
an arriving bundle is "buffered separately" in a "single extra pending slot". -/
inductive SlotState (V C : Type) where
  | Empty
  | Pending (buffered : VersionedBundle V C)
  | InFlight (running : VersionedBundle V C) (waiting : Option (VersionedBundle V C))
  deriving DecidableEq

/-- Modelled from the spec: a Conflation Slot, the cell of one (source,
bundle-type) pair: its state and the bundle most recently handed to the
handler, which carries the "applied" version of the rule "a version not newer
than the buffered/applied one is silently discarded". -/
structure ConflationSlot (V C : Type) where
  state : SlotState V C
  applied : Option (VersionedBundle V C)
  deriving DecidableEq

/-- Modelled from the spec: a slot as created on demand: Empty, nothing applied. -/
def ConflationSlot.init {V C : Type} : ConflationSlot V C :=
  { state := SlotState.Empty, applied := none }

/-- Modelled from the spec: the bundle that waits in the slot, if any: the
buffered bundle of a Pending slot, the separately buffered one of an InFlight
slot. -/
def ConflationSlot.buffered {V C : Type} (s : ConflationSlot V C) :
    Option (VersionedBundle V C) :=
  match s.state with
  | SlotState.Empty => none
  | SlotState.Pending b => some b
  | SlotState.InFlight _ w => w

/-- Modelled from the spec: whether the arriving bundle is "not newer than
the ... applied" version (section 7, StaleVersionError). -/
def ConflationSlot.staleForApplied {V C : Type} [LinearOrder V] (s : ConflationSlot V C)
    (b : VersionedBundle V C) : Bool :=
  match s.applied with
  | none => false
  | some a => !NewerThan b.version a.version

/-- Modelled from the spec: `Insert(b)` of section 4.4. A bundle not newer
than the applied version is discarded (section 7). Otherwise: Empty →
Pending with `b`; Pending: "if b2.Version NewerThan buffered.Version, replace
buffer (stay Pending); else discard b2"; InFlight: "buffered separately ...
repeating the same newer/stale replace rule against anything already waiting". -/
def ConflationSlot.Insert {V C : Type} [LinearOrder V] (s : ConflationSlot V C)
    (b : VersionedBundle V C) : ConflationSlot V C :=
  if s.staleForApplied b then s
  else
    match s.state with
    | SlotState.Empty => { s with state := SlotState.Pending b }
    | SlotState.Pending cur =>
      if NewerThan b.version cur.version then { s with state := SlotState.Pending b } else s
    | SlotState.InFlight run none => { s with state := SlotState.InFlight run (some b) }
    | SlotState.InFlight run (some w) =>
      if NewerThan b.version w.version then { s with state := SlotState.InFlight run (some b) }
      else s

/-- Modelled from the spec: `Select()` of section 4.4: Pending → InFlight,
"buffer handed to caller"; the handed bundle becomes the applied one. On a
slot that is not Pending nothing is handed out and nothing changes. -/
def ConflationSlot.Select {V C : Type} (s : ConflationSlot V C) :
    ConflationSlot V C × Option (VersionedBundle V C) :=
  match s.state with
  | SlotState.Pending b => ({ state := SlotState.InFlight b none, applied := some b }, some b)
  | _ => (s, none)

/-- Modelled from the spec: `Complete(ok)` of section 4.4: "if a bundle was
queued behind the in-flight one, transition to Pending with that bundle
current; else transition to Empty", whether the handler succeeded or not. -/
def ConflationSlot.Complete {V C : Type} (s : ConflationSlot V C) (_ok : Bool) :
    ConflationSlot V C :=
  match s.state with
  | SlotState.InFlight _ (some w) => { s with state := SlotState.Pending w }
  | SlotState.InFlight _ none => { s with state := SlotState.Empty }
  | _ => s

/-- Modelled from the spec: what can happen to one slot: a bundle is
delivered, the dispatcher selects the slot, the handler call ends. -/
inductive SlotEvent (V C : Type) where
  | Insert (b : VersionedBundle V C)
  | Select
  | Complete (ok : Bool)
  deriving DecidableEq

/-- Modelled from the spec: one event on a slot: the slot afterwards and the
bundle handed to the handler, if the event starts a handler call. -/
def slotStep {V C : Type} [LinearOrder V] (s : ConflationSlot V C) :
    SlotEvent V C → ConflationSlot V C × Option (VersionedBundle V C)
  | SlotEvent.Insert b => (s.Insert b, none)
  | SlotEvent.Select => s.Select
  | SlotEvent.Complete ok => (s.Complete ok, none)

/-- The slot after a sequence of events. -/
def runSlot {V C : Type} [LinearOrder V] (s : ConflationSlot V C) :
    List (SlotEvent V C) → ConflationSlot V C
  | [] => s
  | ev :: evs => runSlot (slotStep s ev).1 evs

/-- The bundles handed to the handler during a sequence of events, in order. -/
def handled {V C : Type} [LinearOrder V] (s : ConflationSlot V C) :
    List (SlotEvent V C) → List (VersionedBundle V C)
  | [] => []
  | ev :: evs => (slotStep s ev).2.toList ++ handled (slotStep s ev).1 evs

/-- The bundles delivered by a sequence of events, in order of arrival. -/
def inserted {V C : Type} : List (SlotEvent V C) → List (VersionedBundle V C)
  | [] => []
  | SlotEvent.Insert b :: evs => b :: inserted evs
  | _ :: evs => inserted evs

/-- The events that let the dispatcher finish whatever work a slot holds:
end the running call, then twice select and complete. -/
def drainEvents {V C : Type} : List (SlotEvent V C) :=
  [SlotEvent.Complete true, SlotEvent.Select, SlotEvent.Complete true,
   SlotEvent.Select, SlotEvent.Complete true]

/-- The newer of the best bundle so far and the next delivered bundle; on
equal versions the earlier one stays. -/
def better {V C : Type} [LinearOrder V] (cur : Option (VersionedBundle V C))
    (b : VersionedBundle V C) : Option (VersionedBundle V C) :=
  match cur with
  | none => some b
  | some c => if NewerThan b.version c.version then some b else some c

/-- The first bundle of a sequence that carries the maximum version of the
sequence (`none` for the empty sequence). -/
def newest {V C : Type} [LinearOrder V] (bs : List (VersionedBundle V C)) :
    Option (VersionedBundle V C) :=
  bs.foldl better none

/-- Modelled from the spec: what a worker of the pool is doing in its loop
"request NextReady(), ... Select() the slot, invoke the registered handler
..., then call Complete(ok)": waiting, holding the slot `NextReady` returned,
or running the handler on a bundle of slot `k`. -/
inductive WorkerState (K V C : Type) where
  | Idle
  | Chosen (k : K)
  | Running (k : K) (b : VersionedBundle V C)
  deriving DecidableEq

/-- Modelled from the spec: the dispatcher with its conflation manager: one
slot per (source, bundle-type) pair `k`, and a pool of `poolSize` workers,
numbered from 0. -/
structure Dispatcher (K V C : Type) where
  poolSize : Nat
  slots : K → ConflationSlot V C
  workers : Nat → WorkerState K V C

/-- Modelled from the spec: the dispatcher at start: every slot Empty, every
worker idle. -/
def Dispatcher.init {K V C : Type} (poolSize : Nat) : Dispatcher K V C :=
  { poolSize := poolSize, slots := fun _ => ConflationSlot.init, workers := fun _ => WorkerState.Idle }

/-- Modelled from the spec: the atomic steps of the system: `Route` inserts a
delivered bundle into the slot of its pair; an idle worker gets a Pending
slot from `NextReady` (which Pending slot it is, the priority rule decides;
here any may be named); the worker calls `Select` and starts the handler on
what it is handed; the worker's handler call ends and it calls `Complete`. -/
inductive DispatcherEvent (K V C : Type) where
  | Route (k : K) (b : VersionedBundle V C)
  | NextReady (w : Nat) (k : K)
  | Select (w : Nat)
  | Complete (w : Nat) (ok : Bool)

/-- Whether the slot is Pending. -/
def ConflationSlot.isPending {V C : Type} (s : ConflationSlot V C) : Bool :=
  match s.state with
  | SlotState.Pending _ => true
  | _ => false

/-- Modelled from the spec: one atomic step of the dispatcher: the state
afterwards and the handler invocation the step starts, if any. A step whose
worker is outside the pool or not at that point of its loop does nothing. -/
def Dispatcher.step {K V C : Type} [DecidableEq K] [LinearOrder V] (d : Dispatcher K V C) :
    DispatcherEvent K V C → Dispatcher K V C × Option (K × VersionedBundle V C)
  | DispatcherEvent.Route k b =>
    ({ d with slots := Function.update d.slots k ((d.slots k).Insert b) }, none)
  | DispatcherEvent.NextReady w k =>
    match d.workers w with
    | WorkerState.Idle =>
      if w < d.poolSize ∧ (d.slots k).isPending = true then
        ({ d with workers := Function.update d.workers w (WorkerState.Chosen k) }, none)
      else (d, none)
    | _ => (d, none)
  | DispatcherEvent.Select w =>
    match d.workers w with
    | WorkerState.Chosen k =>
      match (d.slots k).Select with
      | (s', some b) =>
        ({ d with slots := Function.update d.slots k s'
                  workers := Function.update d.workers w (WorkerState.Running k b) }, some (k, b))
      | (_, none) =>
        ({ d with workers := Function.update d.workers w WorkerState.Idle }, none)
    | _ => (d, none)
  | DispatcherEvent.Complete w ok =>
    match d.workers w with
    | WorkerState.Running k _ =>
      ({ d with slots := Function.update d.slots k ((d.slots k).Complete ok)
                workers := Function.update d.workers w WorkerState.Idle }, none)
    | _ => (d, none)

/-- The dispatcher after a sequence of steps. -/
def runDispatcher {K V C : Type} [DecidableEq K] [LinearOrder V] (d : Dispatcher K V C) :
    List (DispatcherEvent K V C) → Dispatcher K V C
  | [] => d
  | ev :: evs => runDispatcher (d.step ev).1 evs

/-- The handler invocations started during a sequence of steps, in order. -/
def invocations {K V C : Type} [DecidableEq K] [LinearOrder V] (d : Dispatcher K V C) :
    List (DispatcherEvent K V C) → List (K × VersionedBundle V C)
  | [] => []
  | ev :: evs => (d.step ev).2.toList ++ invocations (d.step ev).1 evs

/-- The versions the handler sees for the pair `k`, in order of invocation. -/
def versionsSeen {K V C : Type} [DecidableEq K] (k : K) (l : List (K × VersionedBundle V C)) :
    List V :=
  (l.filter (fun p => decide (p.1 = k))).map (fun p => p.2.version)

/-- The number of workers of the pool that are running the handler for pair `k`. -/
def activeCount {K V C : Type} [DecidableEq K] (d : Dispatcher K V C) (k : K) : Nat :=
  ((List.range d.poolSize).filter (fun w =>
    match d.workers w with
    | WorkerState.Running k' _ => decide (k' = k)
    | _ => false)).length

/-- The versions a slot holds are in order: what waits in the slot is newer
than what was handed to the handler, and while a handler runs, the bundle
it runs on is the applied one. -/
def SlotInv {V C : Type} [LinearOrder V] (s : ConflationSlot V C) : Prop :=
  match s.state with
  | SlotState.Empty => True
  | SlotState.Pending b => ∀ a, s.applied = some a → a.version < b.version
  | SlotState.InFlight run q => s.applied = some run ∧ ∀ w, q = some w → run.version < w.version

/-- The newest bundle a slot holds: the waiting one if there is one, else
the one handed to the handler last. -/
def top {V C : Type} (s : ConflationSlot V C) : Option (VersionedBundle V C) :=
  match s.state with
  | SlotState.Empty => s.applied
  | SlotState.Pending b => some b
  | SlotState.InFlight run none => some run
  | SlotState.InFlight _ (some w) => some w

/-- The dispatcher is consistent: every slot holds its versions in order, a
worker that runs the handler for a pair runs it on the bundle its slot has in
flight, and no two workers run the handler for the same pair. -/
def DispatcherInv {K V C : Type} [LinearOrder V] (d : Dispatcher K V C) : Prop :=
  (∀ k, SlotInv (d.slots k)) ∧
  (∀ w k b, d.workers w = WorkerState.Running k b →
    ∃ q, (d.slots k).state = SlotState.InFlight b q) ∧
  (∀ w₁ w₂ k b₁ b₂, d.workers w₁ = WorkerState.Running k b₁ →
    d.workers w₂ = WorkerState.Running k b₂ → w₁ = w₂)

/-! ## Operator utilities (`operator/pkg/utils/utils.go`)

Go slices of strings are lists; a function that builds its result in a fresh
slice and only reads its argument leaves the argument as it is. -/

/-- The function `Remove`: the loop appends to the fresh slice `result` every
element of `list` that differs from `s`. -/
def Remove (list : List String) (s : String) : List String :=
  list.foldl (fun result v => if v ≠ s then result ++ [v] else result) []

/-- The function `Contains`: the loop returns true at the first element equal
to `s`. -/
def Contains : List String → String → Bool
  | [], _ => false
  | v :: rest, s => if v = s then true else Contains rest s

/-- The loop of `RemoveDuplicates`: `encountered` is the map used as a set of
the strings seen so far, `result` the slice built so far. -/
def removeDuplicatesLoop (encountered result : List String) : List String → List String
  | [] => result
  | v :: rest =>
    if v ∈ encountered then removeDuplicatesLoop encountered result rest
    else removeDuplicatesLoop (v :: encountered) (result ++ [v]) rest

/-- The function `RemoveDuplicates`. -/
def RemoveDuplicates (elements : List String) : List String :=
  removeDuplicatesLoop [] [] elements

/-- The type `types.NamespacedName`. -/
structure NamespacedName where
  Name : String
  Namespace : String
  deriving DecidableEq

/-- The function `GetSubscriptionByName`. `Get` is the lookup `k8sClient.Get`
(the found object, or the error), `IsNotFound` is `errors.IsNotFound` and
`GetDefaultNamespace` the value of `utils.GetDefaultNamespace()`. The result
is the Go pair: `none` stands for nil. -/
def GetSubscriptionByName {Subscription Err : Type}
    (Get : NamespacedName → Except Err Subscription) (IsNotFound : Err → Bool)
    (GetDefaultNamespace : String) (name : String) : Option Subscription × Option Err :=
  match Get { Name := name, Namespace := GetDefaultNamespace } with
  | Except.error err => if IsNotFound err then (none, none) else (none, some err)
  | Except.ok found => (some found, none)

/-- A value of a decoded YAML mapping (a Go `interface{}`): a sequence
(`[]interface{}`) or anything else. -/
inductive YamlValue where
  | sequence (items : List YamlValue)
  | other (text : String)

/-- The statements `vArray, _ := v.([]interface{})` and `len(vArray)`: the length
of a sequence, 0 for a value that is not a sequence. -/
def lenOfArray : YamlValue → Int
  | YamlValue.sequence items => (items.length : Int)
  | YamlValue.other _ => 0

/-- The body of the `for k, v := range o1` loop of `GetAlertGPCcount` on one
entry; `counts` holds `groupCount`, `policyCount` and `contactCount`. -/
def countEntry (counts : Int × Int × Int) (entry : String × YamlValue) : Int × Int × Int :=
  if ¬ (entry.1 = "groups" ∨ entry.1 = "policies" ∨ entry.1 = "contactPoints") then counts
  else
    let groupCount := if entry.1 = "groups" then lenOfArray entry.2 else counts.1
    let policyCount := if entry.1 = "policies" then lenOfArray entry.2 else counts.2.1
    let contactCount := if entry.1 = "contactPoints" then lenOfArray entry.2 else counts.2.2
    (groupCount, policyCount, contactCount)

/-- The function `GetAlertGPCcount`. `Unmarshal` is `yaml.Unmarshal` into a
`map[string]interface{}`: the parse error, or the entries of the decoded
mapping in the order in which the `range` loop visits them (no entries when
the map stays nil). The result is `groupCount`, `policyCount`,
`contactCount` and the error (`none` for nil). -/
def GetAlertGPCcount (Unmarshal : String → Except String (List (String × YamlValue)))
    (a : String) : Int × Int × Int × Option String :=
  if a.length = 0 then (0, 0, 0, none)
  else
    match Unmarshal a with
    | Except.error err => (0, 0, 0, some err)
    | Except.ok o1 =>
      let counts := o1.foldl countEntry (0, 0, 0)
      (counts.1, counts.2.1, counts.2.2, none)

/-- The length of the sequence stored under `key` in a decoded mapping, 0 when
the key is absent or its value is not a sequence. -/
def sequenceLength (o1 : List (String × YamlValue)) (key : String) : Int :=
  match mapGet o1 key with
  | some v => lenOfArray v
  | none => 0

/-! ## Operator configuration (`operator/pkg/config/multiclusterglobalhub_config.go`)

The package variable `imageOverrides` is a Go map from image keys to image
references; it is passed to and returned by the functions that use it, as a
list of (key, reference) pairs with at most one pair per key. The constants
of package `operatorconstants` are declared in another package and are taken
as given. Go strings are compared and cut rune by rune; the separators that
occur ("=" and "/") are single bytes, so cutting at their rune index and at
their byte index gives the same strings. -/

/-- What the configuration functions read of a `MulticlusterGlobalHub`
instance: `GetAnnotations()`, a map that may be nil. -/
structure MulticlusterGlobalHub where
  Annotations : Option (List (String × String))

/-- The constants of package `operatorconstants` used by the configuration. -/
structure OperatorConstants where
  AnnotationMGHPause : String
  AnnotationMGHSkipAuth : String
  AnnotationMGHInstallCrunchyOperator : String
  AnnotationImageRepo : String
  MGHOperandImagePrefix : String

/-- The function `getAnnotation`: the empty string for a nil map and, as a Go
map lookup gives the zero value, for a key that is not set. -/
def getAnnotation (mgh : MulticlusterGlobalHub) (annotationKey : String) : String :=
  match mgh.Annotations with
  | none => ""
  | some annotations => (mapGet annotations annotationKey).getD ""

/-- Simple case folding of one rune to a representative: the ASCII capital
letters fold to their small letters, and the two other runes whose folding
reaches an ASCII letter, U+212A (Kelvin sign) and U+017F (long s), fold to
`k` and `s`. -/
def foldRune (c : Char) : Char :=
  if c = Char.ofNat 0x212A then 'k' else if c = Char.ofNat 0x17F then 's' else c.toLower

/-- Go's `strings.EqualFold`: equality rune by rune under Unicode simple case
folding. Folding is modelled by `foldRune`, which is exact whenever one of
the two strings is ASCII, as the literal "true" of the callers is. -/
def EqualFold (s t : String) : Bool :=
  decide (s.data.map foldRune = t.data.map foldRune)

/-- The function `IsPaused`. -/
def IsPaused (c : OperatorConstants) (mgh : MulticlusterGlobalHub) : Bool :=
  let isPausedVal := getAnnotation mgh c.AnnotationMGHPause
  if isPausedVal ≠ "" ∧ EqualFold isPausedVal "true" = true then true else false

/-- The function `SkipAuth`. -/
def SkipAuth (c : OperatorConstants) (mgh : MulticlusterGlobalHub) : Bool :=
  let toSkipAuth := getAnnotation mgh c.AnnotationMGHSkipAuth
  if toSkipAuth ≠ "" ∧ EqualFold toSkipAuth "true" = true then true else false

/-- The function `GetInstallCrunchyOperator`. -/
def GetInstallCrunchyOperator (c : OperatorConstants) (mgh : MulticlusterGlobalHub) : Bool :=
  let toInstallCrunchyOperator := getAnnotation mgh c.AnnotationMGHInstallCrunchyOperator
  if toInstallCrunchyOperator ≠ "" ∧ EqualFold toInstallCrunchyOperator "true" = true then true
  else false

/-- A Go run-time panic. -/
inductive GoPanic where
  | indexOutOfRange
  | sliceBoundsOutOfRange
  deriving DecidableEq

/-- The runes before the first `sep` and, when `sep` occurs, the runes after it. -/
def splitAtFirst (sep : Char) : List Char → List Char × Option (List Char)
  | [] => ([], none)
  | ch :: rest =>
    if ch = sep then ([], some rest)
    else (ch :: (splitAtFirst sep rest).1, (splitAtFirst sep rest).2)

/-- Go's `strings.SplitN(s, sep, 2)` for a one-byte separator: element 0, the
part before the first separator, and element 1, the part after it, which
exists only when `s` contains the separator. -/
def SplitN (s : String) (sep : Char) : String × Option String :=
  (String.mk (splitAtFirst sep s.data).1, (splitAtFirst sep s.data).2.map String.mk)

/-- Go's `strings.HasPrefix`. -/
def HasPrefix (s pre : String) : Bool :=
  pre.data.isPrefixOf s.data

/-- The scan of `strings.Replace(s, old, new, -1)` for a non-empty `old`: every
occurrence of `old`, found from left to right without overlap, is replaced
by `new`; `fuel` bounds the number of steps. -/
def replaceAux (old new : List Char) : Nat → List Char → List Char
  | 0, s => s
  | _ + 1, [] => []
  | fuel + 1, ch :: rest =>
    if old.isPrefixOf (ch :: rest) then
      new ++ replaceAux old new fuel ((ch :: rest).drop old.length)
    else ch :: replaceAux old new fuel rest

/-- Go's `strings.Replace(s, old, new, -1)`. For an empty `old`, Go inserts
`new` before every rune and at the end. -/
def Replace (s old new : String) : String :=
  if old.data = [] then String.mk (new.data ++ (s.data.map (fun ch => ch :: new.data)).flatten)
  else String.mk (replaceAux old.data new.data s.data.length s.data)

/-- The position of the last occurrence of `sep`, if there is one. -/
def lastIndexOf (sep : Char) : List Char → Option Nat
  | [] => none
  | ch :: rest =>
    match lastIndexOf sep rest with
    | some i => some (i + 1)
    | none => if ch = sep then some 0 else none

/-- Go's `strings.LastIndex(s, sep)` for a one-byte separator: -1 when `sep`
does not occur. -/
def LastIndex (s : String) (sep : Char) : Int :=
  match lastIndexOf sep s.data with
  | some i => (i : Int)
  | none => -1

/-- The slice expression `s[i:]`: a panic when `i` is negative or beyond the
length. -/
def sliceFrom (s : String) (i : Int) : Except GoPanic String :=
  if i < 0 ∨ (s.data.length : Int) < i then Except.error GoPanic.sliceBoundsOutOfRange
  else Except.ok (String.mk (s.data.drop i.toNat))

/-- The image key that `SetImageOverrides` derives from the name of an
environment variable: `strings.ToLower(strings.Replace(name, prefix, "", -1))`.
`toLower` is `strings.ToLower`. -/
def imageKeyOf (c : OperatorConstants) (toLower : String → String) (name : String) : String :=
  toLower (Replace name c.MGHOperandImagePrefix "")

/-- The body of the first loop of `SetImageOverrides` on one entry `env` of
`os.Environ()`. The read of `envKeyVal[1]` panics when the entry has no "=". -/
def overrideFromEnv (c : OperatorConstants) (toLower : String → String)
    (imageOverrides : List (String × String)) (env : String) :
    Except GoPanic (List (String × String)) :=
  let envKeyVal := SplitN env '='
  if HasPrefix envKeyVal.1 c.MGHOperandImagePrefix = true then
    let key := imageKeyOf c toLower envKeyVal.1
    match envKeyVal.2 with
    | none => Except.error GoPanic.indexOutOfRange
    | some value => Except.ok (mapSet imageOverrides key value)
  else Except.ok imageOverrides

/-- The first loop of `SetImageOverrides`, over the entries of `os.Environ()`. -/
def overrideFromEnviron (c : OperatorConstants) (toLower : String → String) :
    List String → List (String × String) → Except GoPanic (List (String × String))
  | [], imageOverrides => Except.ok imageOverrides
  | env :: rest, imageOverrides =>
    match overrideFromEnv c toLower imageOverrides env with
    | Except.error p => Except.error p
    | Except.ok updated => overrideFromEnviron c toLower rest updated

/-- The new reference of the second loop: `imageIndex := strings.LastIndex(imageRef, "/")`
and `fmt.Sprintf("%s%s", imageRepoOverride, imageRef[imageIndex:])`. -/
def overrideRepoOf (imageRepoOverride imageRef : String) : Except GoPanic String :=
  match sliceFrom imageRef (LastIndex imageRef '/') with
  | Except.error p => Except.error p
  | Except.ok tail => Except.ok (imageRepoOverride ++ tail)

/-- The second loop of `SetImageOverrides`: every entry of the map gets its
new reference; the loop assigns only to keys that exist. -/
def overrideImageRepo (imageRepoOverride : String) :
    List (String × String) → Except GoPanic (List (String × String))
  | [] => Except.ok []
  | (imageKey, imageRef) :: rest =>
    match overrideRepoOf imageRepoOverride imageRef with
    | Except.error p => Except.error p
    | Except.ok newRef =>
      match overrideImageRepo imageRepoOverride rest with
      | Except.error p => Except.error p
      | Except.ok rest' => Except.ok ((imageKey, newRef) :: rest')

/-- The function `SetImageOverrides`, with `environ` the value of `os.Environ()`
and `imageOverrides` the package variable before the call: a panic, or the
package variable after the call (the function then returns nil). -/
def SetImageOverrides (c : OperatorConstants) (toLower : String → String)
    (environ : List String) (mgh : MulticlusterGlobalHub)
    (imageOverrides : List (String × String)) : Except GoPanic (List (String × String)) :=
  match overrideFromEnviron c toLower environ imageOverrides with
  | Except.error p => Except.error p
  | Except.ok updated =>
    let imageRepoOverride := getAnnotation mgh c.AnnotationImageRepo
    if imageRepoOverride ≠ "" then overrideImageRepo imageRepoOverride updated
    else Except.ok updated

/-- The function `GetImage` on the package variable `imageOverrides`. -/
def GetImage (imageOverrides : List (String × String)) (componentName : String) : String :=
  (mapGet imageOverrides componentName).getD ""

/-- The initial value of the package variable `imageOverrides`. -/
def defaultImageOverrides : List (String × String) :=
  [("multicluster_global_hub_agent", "quay.io/stolostron/multicluster-global-hub-agent:latest"),
   ("multicluster_global_hub_manager", "quay.io/stolostron/multicluster-global-hub-manager:latest"),
   ("oauth_proxy", "quay.io/stolostron/origin-oauth-proxy:4.9"),
   ("grafana", "quay.io/stolostron/grafana:globalhub-1.0"),
   ("postgresql", "quay.io/stolostron/postgresql-13:1-101")]

/-- The part of an image reference from its last "/" on (the whole reference
when it has no "/"). -/
def fromLastSlash (imageRef : String) : String :=
  match lastIndexOf '/' imageRef.data with
  | some i => String.mk (imageRef.data.drop i)
  | none => imageRef

/-- The override that the environment holds for an image key: the value of
the last entry whose name carries the operand image prefix and gives this key. -/
def lastOverride (c : OperatorConstants) (toLower : String → String) :
    List String → String → Option String
  | [], _ => none
  | env :: rest, key =>
    match lastOverride c toLower rest key with
    | some value => some value
    | none =>
      if HasPrefix (SplitN env '=').1 c.MGHOperandImagePrefix = true ∧
          imageKeyOf c toLower (SplitN env '=').1 = key then (SplitN env '=').2
      else none

/-- The name of an environment variable with the leading operand image prefix
cut off. -/
def withoutLeadingPrefix (c : OperatorConstants) (name : String) : String :=
  String.mk (name.data.drop c.MGHOperandImagePrefix.data.length)

/-- ASCII lower-casing, which is what `strings.ToLower` does on ASCII names. -/
def asciiToLower (s : String) : String :=
  String.mk (s.data.map Char.toLower)

/-- Constants for the concrete scenarios: the operand image prefix is
`RELATED_IMAGE_`. -/
def sampleConstants : OperatorConstants :=
  { AnnotationMGHPause := "mgh-pause"
    AnnotationMGHSkipAuth := "mgh-skip-auth"
    AnnotationMGHInstallCrunchyOperator := "mgh-install-crunchy-operator"
    AnnotationImageRepo := "mgh-image-repository"
    MGHOperandImagePrefix := "RELATED_IMAGE_" }

/-- The table in which every image reference is replaced by the repository
`imageRepoOverride` followed by the part of the reference from its last "/" on. -/
def withRepo (imageRepoOverride : String) (imageOverrides : List (String × String)) :
    List (String × String) :=
  imageOverrides.map (fun p => (p.1, imageRepoOverride ++ fromLastSlash p.2))

/-- The error of the first statement that fails among the statements
`i, i+1, ..., i+n-1` of a handler call, if one of them fails. -/
def firstStatementError (g : Storage) : Nat → Nat → Option String
  | _, 0 => none
  | i, n + 1 =>
    match g.stmtError i with
    | some e => some e
    | none => firstStatementError g (i + 1) n

/-- The error value that the handler returns for the storage error `err`. -/
def wrapStorageError (err : String) : WrappedError :=
  ⟨"failed handling leaf hub LocalPolicyStatusEvent bundle - " ++ err, err⟩

/-- A storage on which every statement fails. -/
def Storage.broken : Storage := ⟨fun _ => some "connection refused", false⟩

/-! ## Starting the statistics (`Statistics.Start`) -/

/-- The parts of Go's `time.ParseDuration` that are taken as given: the loop
over the groups of number and unit (it uses floating point), which for the
original string and the string after the sign gives an error or the
magnitude `d` of the duration, at most 2^63; and the error value
`time: invalid duration` for an original string. -/
structure DurationGroups where
  parseGroups : String → String → Except String Nat
  invalid : String → String

/-- Go's `time.ParseDuration`: an optional sign is consumed; what is left is
zero when it is "0", invalid when it is empty, and otherwise parsed by the
loop over the groups; a magnitude above 2^63 - 1 is invalid for a duration
that is not negative. -/
def ParseDuration (p : DurationGroups) (orig : String) : Except String Int :=
  let signed : Bool × String :=
    match orig.data with
    | '-' :: rest => (true, String.mk rest)
    | '+' :: rest => (false, String.mk rest)
    | _ => (false, orig)
  if signed.2 = "0" then Except.ok 0
  else if signed.2 = "" then Except.error (p.invalid orig)
  else
    match p.parseGroups orig signed.2 with
    | Except.error err => Except.error err
    | Except.ok d =>
      if signed.1 = true then Except.ok (wrapInt64 (-(d : Int)))
      else if d > 9223372036854775807 then Except.error (p.invalid orig)
      else Except.ok (d : Int)

/-- What a call of `Statistics.Start` amounts to on the signals that arrive
after the call: whether it has returned and with which error (`none` while it
is still blocked, `some none` for a return of nil), the effects of the
snapshot loop it started, and the statistics. -/
structure StartOutcome where
  returned : Option (Option String)
  effects : List RunEffect
  statistics : Statistics

/-- The method `Statistics.Start(ctx)`: a parse error is returned before
anything is started; otherwise `run` is started as a goroutine and the call
blocks on `<-ctx.Done()`, returning nil once the context is cancelled. -/
def Statistics.Start (p : DurationGroups) (s : Statistics) (signals : List RunSignal) :
    StartOutcome :=
  match ParseDuration p s.logInterval with
  | Except.error err => { returned := some (some err), effects := [], statistics := s }
  | Except.ok duration =>
    { returned := if RunSignal.ctxDone ∈ signals then some none else none
      effects := (s.run duration signals).1
      statistics := (s.run duration signals).2 }

/-- A stand-in for the loop of `time.ParseDuration` in the concrete scenarios:
it knows "1m" and "5s" and rejects everything else. -/
def sampleGroups : DurationGroups :=
  { parseGroups := fun orig rest =>
      if rest = "1m" then Except.ok 60000000000
      else if rest = "5s" then Except.ok 5000000000
      else Except.error ("time: invalid duration " ++ orig)
    invalid := fun orig => "time: invalid duration " ++ orig }

/-! ## Resource requirements (`GetResources`, `operator/pkg/utils/utils.go`)

A `corev1.ResourceList` is a Go map from resource names to quantities, here a
list of (name, quantity) pairs with at most one pair per name; the names that
occur are `corev1.ResourceMemory`, "memory", and `corev1.ResourceCPU`, "cpu". -/

/-- What `GetResources` uses of the Kubernetes type `resource.Quantity`, taken
as given for a type `Q` of quantities: `resource.MustParse`, the method
`String()` (the canonical form), the zero quantities that `Memory()` and
`Cpu()` return for a list without the name, whose canonical form is "0", and
the fact that parsing the canonical form of a quantity gives the quantity. -/
structure QuantityOps (Q : Type) where
  MustParse : String → Q
  asString : Q → String
  zeroBinarySI : Q
  zeroDecimalSI : Q
  asString_zeroBinarySI : asString zeroBinarySI = "0"
  asString_zeroDecimalSI : asString zeroDecimalSI = "0"
  MustParse_asString : ∀ q, MustParse (asString q) = q

/-- The types `corev1.ResourceRequirements` (the result) and
`globalhubv1alpha4.ResourceRequirements` (in the advanced configuration): the
two resource lists `Limits` and `Requests`; a nil list has no pairs. -/
structure ResourceRequirements (Q : Type) where
  Limits : List (String × Q)
  Requests : List (String × Q)

/-- The specification of one component in the advanced configuration: the
pointer `Resources`, which may be nil. -/
structure CommonSpec (Q : Type) where
  Resources : Option (ResourceRequirements Q)

/-- The type `globalhubv1alpha4.AdvancedConfig`: one pointer per component. -/
structure AdvancedConfig (Q : Type) where
  Grafana : Option (CommonSpec Q)
  Postgres : Option (CommonSpec Q)
  Manager : Option (CommonSpec Q)
  Agent : Option (CommonSpec Q)
  Kafka : Option (CommonSpec Q)
  Zookeeper : Option (CommonSpec Q)

/-- The constants of package `constants` that `GetResources` uses: the names
of the components and their default quantities. -/
structure ResourceConstants where
  Grafana : String
  Postgres : String
  Manager : String
  Agent : String
  Kafka : String
  Zookeeper : String
  GrafanaMemoryRequest : String
  GrafanaCPURequest : String
  GrafanaMemoryLimit : String
  GrafanaCPULimit : String
  PostgresMemoryRequest : String
  PostgresCPURequest : String
  PostgresMemoryLimit : String
  ManagerMemoryRequest : String
  ManagerCPURequest : String
  ManagerMemoryLimit : String
  AgentMemoryRequest : String
  AgentCPURequest : String
  AgentMemoryLimit : String
  KafkaMemoryRequest : String
  KafkaCPURequest : String
  KafkaMemoryLimit : String
  ZookeeperMemoryRequest : String
  ZookeeperCPURequest : String
  ZookeeperMemoryLimit : String

/-- The method `ResourceList.Memory()`: the quantity under "memory", or a zero
quantity. -/
def Memory {Q : Type} (ops : QuantityOps Q) (rl : List (String × Q)) : Q :=
  match mapGet rl "memory" with
  | some val => val
  | none => ops.zeroBinarySI

/-- The method `ResourceList.Cpu()`: the quantity under "cpu", or a zero quantity. -/
def Cpu {Q : Type} (ops : QuantityOps Q) (rl : List (String × Q)) : Q :=
  match mapGet rl "cpu" with
  | some val => val
  | none => ops.zeroDecimalSI

/-- The function `setResourcesFromCR`: the maps `requests` and `limits` after
the call. -/
def setResourcesFromCR {Q : Type} (ops : QuantityOps Q) (res : Option (ResourceRequirements Q))
    (requests limits : List (String × Q)) : List (String × Q) × List (String × Q) :=
  match res with
  | none => (requests, limits)
  | some res =>
    let requests₁ :=
      if ops.asString (Memory ops res.Requests) ≠ "0" then
        mapSet requests "memory" (ops.MustParse (ops.asString (Memory ops res.Requests)))
      else requests
    let requests₂ :=
      if ops.asString (Cpu ops res.Requests) ≠ "0" then
        mapSet requests₁ "cpu" (ops.MustParse (ops.asString (Cpu ops res.Requests)))
      else requests₁
    let limits₁ :=
      if ops.asString (Memory ops res.Limits) ≠ "0" then
        mapSet limits "memory" (ops.MustParse (ops.asString (Memory ops res.Limits)))
      else limits
    let limits₂ :=
      if ops.asString (Cpu ops res.Limits) ≠ "0" then
        mapSet limits₁ "cpu" (ops.MustParse (ops.asString (Cpu ops res.Limits)))
      else limits₁
    (requests₂, limits₂)

/-- The statement `if advanced != nil && advanced.X != nil { setResourcesFromCR(advanced.X.Resources, requests, limits) }`
of each case of `GetResources`, for the component field `pick`. -/
def applyAdvanced {Q : Type} (ops : QuantityOps Q) (advanced : Option (AdvancedConfig Q))
    (pick : AdvancedConfig Q → Option (CommonSpec Q)) (requests limits : List (String × Q)) :
    List (String × Q) × List (String × Q) :=
  match advanced with
  | none => (requests, limits)
  | some a =>
    match pick a with
    | none => (requests, limits)
    | some spec => setResourcesFromCR ops spec.Resources requests limits

/-- The function `GetResources`: the `switch` on the component sets the
defaults of the component in the fresh maps `requests` and `limits` and lets
the advanced configuration override them; a component that matches no case
gets two empty maps. -/
def GetResources {Q : Type} (ops : QuantityOps Q) (k : ResourceConstants) (component : String)
    (advanced : Option (AdvancedConfig Q)) : ResourceRequirements Q :=
  if component = k.Grafana then
    let requests : List (String × Q) :=
      mapSet (mapSet [] "memory" (ops.MustParse k.GrafanaMemoryRequest)) "cpu"
        (ops.MustParse k.GrafanaCPURequest)
    let limits : List (String × Q) :=
      mapSet (mapSet [] "memory" (ops.MustParse k.GrafanaMemoryLimit)) "cpu" (ops.MustParse k.GrafanaCPULimit)
    let updated := applyAdvanced ops advanced (fun a => a.Grafana) requests limits
    { Limits := updated.2, Requests := updated.1 }
  else if component = k.Postgres then
    let requests : List (String × Q) :=
      mapSet (mapSet [] "memory" (ops.MustParse k.PostgresMemoryRequest)) "cpu"
        (ops.MustParse k.PostgresCPURequest)
    let limits : List (String × Q) :=
      mapSet [] "memory" (ops.MustParse k.PostgresMemoryLimit)
    let updated := applyAdvanced ops advanced (fun a => a.Postgres) requests limits
    { Limits := updated.2, Requests := updated.1 }
  else if component = k.Manager then
    let requests : List (String × Q) :=
      mapSet (mapSet [] "memory" (ops.MustParse k.ManagerMemoryRequest)) "cpu"
        (ops.MustParse k.ManagerCPURequest)
    let limits : List (String × Q) :=
      mapSet [] "memory" (ops.MustParse k.ManagerMemoryLimit)
    let updated := applyAdvanced ops advanced (fun a => a.Manager) requests limits
    { Limits := updated.2, Requests := updated.1 }
  else if component = k.Agent then
    let requests : List (String × Q) :=
      mapSet (mapSet [] "memory" (ops.MustParse k.AgentMemoryRequest)) "cpu"
        (ops.MustParse k.AgentCPURequest)
    let limits : List (String × Q) :=
      mapSet [] "memory" (ops.MustParse k.AgentMemoryLimit)
    let updated := applyAdvanced ops advanced (fun a => a.Agent) requests limits
    { Limits := updated.2, Requests := updated.1 }
  else if component = k.Kafka then
    let requests : List (String × Q) :=
      mapSet (mapSet [] "memory" (ops.MustParse k.KafkaMemoryRequest)) "cpu"
        (ops.MustParse k.KafkaCPURequest)
    let limits : List (String × Q) :=
      mapSet [] "memory" (ops.MustParse k.KafkaMemoryLimit)
    let updated := applyAdvanced ops advanced (fun a => a.Kafka) requests limits
    { Limits := updated.2, Requests := updated.1 }
  else if component = k.Zookeeper then
    let requests : List (String × Q) :=
      mapSet (mapSet [] "memory" (ops.MustParse k.ZookeeperMemoryRequest)) "cpu"
        (ops.MustParse k.ZookeeperCPURequest)
    let limits : List (String × Q) :=
      mapSet [] "memory" (ops.MustParse k.ZookeeperMemoryLimit)
    let updated := applyAdvanced ops advanced (fun a => a.Zookeeper) requests limits
    { Limits := updated.2, Requests := updated.1 }
  else { Limits := [], Requests := [] }

/-- The four quantities of resource requirements: memory request, CPU
request, memory limit, CPU limit; `none` where the quantity is not set. -/
def quantities {Q : Type} (r : ResourceRequirements Q) :
    Option Q × Option Q × Option Q × Option Q :=
  (mapGet r.Requests "memory", mapGet r.Requests "cpu",
    mapGet r.Limits "memory", mapGet r.Limits "cpu")

/-- The resources that the advanced configuration holds for the component
field `pick`, when the configuration, the component and its resources are
all there. -/
def advancedResources {Q : Type} (advanced : Option (AdvancedConfig Q))
    (pick : AdvancedConfig Q → Option (CommonSpec Q)) : Option (ResourceRequirements Q) :=
  match advanced with
  | none => none
  | some a =>
    match pick a with
    | none => none
    | some spec => spec.Resources

/-- The quantity to expect: the value from the advanced configuration when it
is set and not zero, the default otherwise (no quantity when there is no
default). -/
def chosenQuantity {Q : Type} (ops : QuantityOps Q) (default : Option String)
    (fromAdvanced : Option Q) : Option Q :=
  match fromAdvanced with
  | some q => if ops.asString q ≠ "0" then some q else default.map ops.MustParse
  | none => default.map ops.MustParse

/-- The four quantities to expect for a component with the given defaults and
the given resources in the advanced configuration. -/
def expectedQuantities {Q : Type} (ops : QuantityOps Q)
    (memoryRequest cpuRequest memoryLimit : String) (cpuLimit : Option String)
    (res : Option (ResourceRequirements Q)) : Option Q × Option Q × Option Q × Option Q :=
  (chosenQuantity ops (some memoryRequest) (res.bind (fun r => mapGet r.Requests "memory")),
    chosenQuantity ops (some cpuRequest) (res.bind (fun r => mapGet r.Requests "cpu")),
    chosenQuantity ops (some memoryLimit) (res.bind (fun r => mapGet r.Limits "memory")),
    chosenQuantity ops cpuLimit (res.bind (fun r => mapGet r.Limits "cpu")))

/-- Quantities as their canonical strings, for the concrete scenarios. -/
def stringQuantities : QuantityOps String :=
  { MustParse := fun s => s
    asString := fun q => q
    zeroBinarySI := "0"
    zeroDecimalSI := "0"
    asString_zeroBinarySI := rfl
    asString_zeroDecimalSI := rfl
    MustParse_asString := fun _ => rfl }

/-- Constants for the concrete scenarios. -/
def sampleResourceConstants : ResourceConstants :=
  { Grafana := "grafana"
    Postgres := "postgres"
    Manager := "manager"
    Agent := "agent"
    Kafka := "kafka"
    Zookeeper := "zookeeper"
    GrafanaMemoryRequest := "150Mi"
    GrafanaCPURequest := "4m"
    GrafanaMemoryLimit := "800Mi"
    GrafanaCPULimit := "50m"
    PostgresMemoryRequest := "128Mi"
    PostgresCPURequest := "25m"
    PostgresMemoryLimit := "4Gi"
    ManagerMemoryRequest := "100Mi"
    ManagerCPURequest := "1m"
    ManagerMemoryLimit := "600Mi"
    AgentMemoryRequest := "200Mi"
    AgentCPURequest := "10m"
    AgentMemoryLimit := "1200Mi"
    KafkaMemoryRequest := "128Mi"
    KafkaCPURequest := "25m"
    KafkaMemoryLimit := "4Gi"
    ZookeeperMemoryRequest := "500Mi"
    ZookeeperCPURequest := "20m"
    ZookeeperMemoryLimit := "3Gi" }

/-- One quantity after `setResourcesFromCR`: the value from the advanced
configuration when it is set and not zero, the quantity `base` that the map
held before otherwise. -/
def overrideQuantity {Q : Type} (ops : QuantityOps Q) (base : Option Q)
    (fromAdvanced : Option Q) : Option Q :=
  match fromAdvanced with
  | some q => if ops.asString q ≠ "0" then some q else base
  | none => base

/-! ## The handler with the log of its insert statements -/

/-- The loop of `CreateInBatches` as in `runBatches`, with the log of the
statements it executes: each iteration executes one insert statement carrying
the slice `rows[i:ends]`; the statement that reports an error is the last one
executed. -/
def runBatchesLogged (g : Storage) : Nat → EventTable → List (List LocalClusterPolicyEvent) →
    (Option String × EventTable) × List (List LocalClusterPolicyEvent)
  | _, t, [] => ((none, t), [])
  | i, t, b :: bs =>
    match g.stmtError i with
    | some e => ((some e, t), [b])
    | none =>
      let r := runBatchesLogged g (i + 1) (execInsert t b) bs
      (r.1, b :: r.2)

/-- The call `CreateInBatches(rows, batchSize)` as in `CreateInBatches`, with
the log of the statements it executes (a rollback undoes their effect on the
table, the statements have been executed all the same). -/
def CreateInBatchesLogged (g : Storage) (t : EventTable) (rows : List LocalClusterPolicyEvent)
    (batchSize : Nat) :
    (Option String × EventTable) × List (List LocalClusterPolicyEvent) :=
  let r := runBatchesLogged g 0 t (batches batchSize rows)
  if g.SkipDefaultTransaction || decide (rows.length ≤ batchSize) then r
  else
    match r.1.1 with
    | some e => ((some e, t), r.2)
    | none => r

/-- The method `handleLocalObjectsBundle` with the log of the insert
statements it executes: none for a bundle without objects, those of the one
`CreateInBatches(batchUpsertLocalPolicyEvents, 100)` call otherwise. -/
def handleLocalObjectsBundleLogged (getDatabaseCompliance : String → String) (g : Storage)
    (db : EventTable) (bundle : ManagerBundle) :
    (Option WrappedError × EventTable) × List (List LocalClusterPolicyEvent) :=
  if bundle.Objects.length = 0 then ((none, db), [])
  else
    let leafHubName := bundle.LeafHubName
    let batchUpsertLocalPolicyEvents := buildRows getDatabaseCompliance leafHubName bundle.Objects
    match CreateInBatchesLogged g db batchUpsertLocalPolicyEvents 100 with
    | ((some err, db'), statements) =>
      ((some ⟨"failed handling leaf hub LocalPolicyStatusEvent bundle - " ++ err, err⟩, db'),
        statements)
    | ((none, db'), statements) => ((none, db'), statements)

/-- A storage on which the second statement of a call fails. -/
def Storage.secondFails : Storage :=
  ⟨fun i => if i = 1 then some "deadlock detected" else none, false⟩

/-- A bundle of `n` replicated policy events with distinct counts. -/
def sampleBundle (n : Nat) : ManagerBundle :=
  ⟨"hub1", (List.range n).map
    (fun i => BundleObject.policyEvent (sampleEvent "a" "m" (Int.ofNat i) 10))⟩

/-! ## Lemmas about conflict-ignoring inserts -/

theorem hasKey_append (t l : EventTable) (k : String × Int × Int) :
    hasKey (t ++ l) k = (hasKey t k || hasKey l k) := by
  simp [hasKey, List.any_append]

theorem hasKey_iff (t : EventTable) (k : String × Int × Int) :
    hasKey t k = true ↔ ∃ s ∈ t, conflictKey s = k := by
  simp [hasKey]

theorem insertIgnore_appends (t : EventTable) (r : LocalClusterPolicyEvent) :
    ∃ l, insertIgnore t r = t ++ l := by
  unfold insertIgnore
  split
  · exact ⟨[], by simp⟩
  · exact ⟨[r], rfl⟩

theorem execInsert_appends (rows : List LocalClusterPolicyEvent) :
    ∀ t : EventTable, ∃ l, execInsert t rows = t ++ l := by
  induction rows with
  | nil => intro t; exact ⟨[], by simp [execInsert]⟩
  | cons r rs ih =>
    intro t
    obtain ⟨l₁, h₁⟩ := insertIgnore_appends t r
    obtain ⟨l₂, h₂⟩ := ih (insertIgnore t r)
    refine ⟨l₁ ++ l₂, ?_⟩
    simp only [execInsert, List.foldl_cons] at h₂ ⊢
    rw [h₂, h₁, List.append_assoc]

theorem runBatches_appends (g : Storage) (bs : List (List LocalClusterPolicyEvent)) :
    ∀ (i : Nat) (t : EventTable), ∃ l, (runBatches g i t bs).2 = t ++ l := by
  induction bs with
  | nil => intro i t; exact ⟨[], by simp [runBatches]⟩
  | cons b bs ih =>
    intro i t
    unfold runBatches
    cases hE : g.stmtError i with
    | some e => exact ⟨[], by simp⟩
    | none =>
      obtain ⟨l₁, h₁⟩ := execInsert_appends b t
      obtain ⟨l₂, h₂⟩ := ih (i + 1) (execInsert t b)
      refine ⟨l₁ ++ l₂, ?_⟩
      show (runBatches g (i + 1) (execInsert t b) bs).2 = t ++ (l₁ ++ l₂)
      rw [h₂, h₁, List.append_assoc]

theorem CreateInBatches_appends (g : Storage) (t : EventTable)
    (rows : List LocalClusterPolicyEvent) (n : Nat) :
    ∃ l, (CreateInBatches g t rows n).2 = t ++ l := by
  unfold CreateInBatches
  simp only
  split
  · exact runBatches_appends g _ 0 t
  · split
    · exact ⟨[], by simp⟩
    · exact runBatches_appends g _ 0 t

theorem handle_snd (gdc : String → String) (g : Storage) (db : EventTable) (b : ManagerBundle) :
    (handleLocalObjectsBundle gdc g db b).2 =
      if b.Objects.length = 0 then db
      else (CreateInBatches g db (buildRows gdc b.LeafHubName b.Objects) 100).2 := by
  unfold handleLocalObjectsBundle
  split
  · rfl
  · simp only
    split <;> simp_all

theorem handle_fst_none (gdc : String → String) (g : Storage) (db : EventTable) (b : ManagerBundle) :
    (handleLocalObjectsBundle gdc g db b).1 = none ↔
      (b.Objects.length = 0 ∨
        (CreateInBatches g db (buildRows gdc b.LeafHubName b.Objects) 100).1 = none) := by
  unfold handleLocalObjectsBundle
  split
  · simp_all
  · simp only
    split <;> simp_all

theorem handle_appends (gdc : String → String) (g : Storage) (db : EventTable) (b : ManagerBundle) :
    ∃ l, (handleLocalObjectsBundle gdc g db b).2 = db ++ l := by
  rw [handle_snd]
  split
  · exact ⟨[], by simp⟩
  · exact CreateInBatches_appends g db _ 100

theorem hasKey_insertIgnore_self (t : EventTable) (r : LocalClusterPolicyEvent) :
    hasKey (insertIgnore t r) (conflictKey r) = true := by
  unfold insertIgnore
  split
  · assumption
  · rw [hasKey_append]
    simp [hasKey]

theorem hasKey_insertIgnore_mono (t : EventTable) (r : LocalClusterPolicyEvent)
    (k : String × Int × Int) (h : hasKey t k = true) : hasKey (insertIgnore t r) k = true := by
  obtain ⟨l, hl⟩ := insertIgnore_appends t r
  rw [hl, hasKey_append, h, Bool.true_or]

theorem execInsert_mono (rows : List LocalClusterPolicyEvent) (t : EventTable)
    (k : String × Int × Int) (h : hasKey t k = true) : hasKey (execInsert t rows) k = true := by
  obtain ⟨l, hl⟩ := execInsert_appends rows t
  rw [hl, hasKey_append, h, Bool.true_or]

theorem execInsert_hasKey (rows : List LocalClusterPolicyEvent) :
    ∀ (t : EventTable), ∀ r ∈ rows, hasKey (execInsert t rows) (conflictKey r) = true := by
  induction rows with
  | nil => intro t r hr; cases hr
  | cons a rs ih =>
    intro t r hr
    show hasKey (execInsert (insertIgnore t a) rs) (conflictKey r) = true
    rcases List.mem_cons.1 hr with h | h
    · subst h
      exact execInsert_mono rs _ _ (hasKey_insertIgnore_self t r)
    · exact ih _ r h

theorem execInsert_eq_self (rows : List LocalClusterPolicyEvent) (t : EventTable)
    (h : ∀ r ∈ rows, hasKey t (conflictKey r) = true) : execInsert t rows = t := by
  induction rows with
  | nil => rfl
  | cons a rs ih =>
    have ha : insertIgnore t a = t := by
      unfold insertIgnore
      rw [if_pos (h a (List.mem_cons_self a rs))]
    show execInsert (insertIgnore t a) rs = t
    rw [ha]
    exact ih (fun r hr => h r (List.mem_cons_of_mem a hr))

theorem runBatches_eq_self (g : Storage) (bs : List (List LocalClusterPolicyEvent))
    (t : EventTable) (h : ∀ b ∈ bs, ∀ r ∈ b, hasKey t (conflictKey r) = true) :
    ∀ i : Nat, (runBatches g i t bs).2 = t := by
  induction bs with
  | nil => intro i; rfl
  | cons b bs ih =>
    intro i
    unfold runBatches
    cases hE : g.stmtError i with
    | some e => rfl
    | none =>
      show (runBatches g (i + 1) (execInsert t b) bs).2 = t
      rw [execInsert_eq_self b t (h b (List.mem_cons_self b bs))]
      exact ih (fun b' hb' => h b' (List.mem_cons_of_mem b hb')) (i + 1)

theorem runBatches_mono (g : Storage) (bs : List (List LocalClusterPolicyEvent)) (i : Nat)
    (t : EventTable) (k : String × Int × Int) (h : hasKey t k = true) :
    hasKey (runBatches g i t bs).2 k = true := by
  obtain ⟨l, hl⟩ := runBatches_appends g bs i t
  rw [hl, hasKey_append, h, Bool.true_or]

theorem runBatches_hasKey (g : Storage) (bs : List (List LocalClusterPolicyEvent)) :
    ∀ (i : Nat) (t : EventTable), (runBatches g i t bs).1 = none →
      ∀ b ∈ bs, ∀ r ∈ b, hasKey (runBatches g i t bs).2 (conflictKey r) = true := by
  induction bs with
  | nil => intro i t _ b hb; cases hb
  | cons a bs ih =>
    intro i t hok b hb r hr
    unfold runBatches at hok ⊢
    cases hE : g.stmtError i with
    | some e => rw [hE] at hok; cases hok
    | none =>
      rw [hE] at hok
      show hasKey (runBatches g (i + 1) (execInsert t a) bs).2 (conflictKey r) = true
      rcases List.mem_cons.1 hb with h | h
      · subst h
        exact runBatches_mono g bs (i + 1) _ _ (execInsert_hasKey b t r hr)
      · exact ih (i + 1) _ hok b h r hr

/-! ## Lemmas about the batches of `CreateInBatches` -/

theorem batchesAux_flatten {α : Type} (n : Nat) (hn : 0 < n) :
    ∀ (fuel : Nat) (rows : List α), rows.length ≤ fuel →
      (batchesAux n fuel rows).flatten = rows := by
  intro fuel
  induction fuel with
  | zero =>
    intro rows h
    have : rows = [] := List.length_eq_zero.1 (Nat.le_zero.1 h)
    subst this
    rfl
  | succ fuel ih =>
    intro rows h
    unfold batchesAux
    cases rows with
    | nil => rfl
    | cons a rs =>
      have hd : (List.drop n (a :: rs)).length ≤ fuel := by
        rw [List.length_drop]
        simp only [List.length_cons] at h ⊢
        omega
      simp only [List.isEmpty_cons, Bool.false_eq_true, if_false, List.flatten_cons]
      rw [ih _ hd, List.take_append_drop]

theorem batches_flatten {α : Type} (n : Nat) (hn : 0 < n) (rows : List α) :
    (batches n rows).flatten = rows :=
  batchesAux_flatten n hn rows.length rows (Nat.le_refl _)

theorem mem_batches_iff {α : Type} (n : Nat) (hn : 0 < n) (rows : List α) (r : α) :
    (∃ b ∈ batches n rows, r ∈ b) ↔ r ∈ rows := by
  rw [← List.mem_flatten, batches_flatten n hn]

/-! ## Lemmas about `CreateInBatches` and the handler -/

theorem CreateInBatches_hasKey (g : Storage) (t : EventTable)
    (rows : List LocalClusterPolicyEvent) (n : Nat) (hn : 0 < n)
    (hok : (CreateInBatches g t rows n).1 = none) :
    ∀ r ∈ rows, hasKey (CreateInBatches g t rows n).2 (conflictKey r) = true := by
  intro r hr
  obtain ⟨b, hb, hrb⟩ := (mem_batches_iff n hn rows r).2 hr
  unfold CreateInBatches at hok ⊢
  simp only at hok ⊢
  split
  · rename_i hc
    rw [if_pos hc] at hok
    exact runBatches_hasKey g _ 0 t hok b hb r hrb
  · rename_i hc
    rw [if_neg hc] at hok
    cases hr1 : (runBatches g 0 t (batches n rows)).1 with
    | some e => rw [hr1] at hok; cases hok
    | none => exact runBatches_hasKey g _ 0 t hr1 b hb r hrb

theorem CreateInBatches_eq_self (g : Storage) (t : EventTable)
    (rows : List LocalClusterPolicyEvent) (n : Nat) (hn : 0 < n)
    (h : ∀ r ∈ rows, hasKey t (conflictKey r) = true) :
    (CreateInBatches g t rows n).2 = t := by
  have hb : ∀ b ∈ batches n rows, ∀ r ∈ b, hasKey t (conflictKey r) = true :=
    fun b hb r hr => h r ((mem_batches_iff n hn rows r).1 ⟨b, hb, hr⟩)
  unfold CreateInBatches
  simp only
  split
  · exact runBatches_eq_self g _ t hb 0
  · split
    · rfl
    · exact runBatches_eq_self g _ t hb 0

theorem mem_buildRows (gdc : String → String) (leaf : String) (e : ReplicatedPolicyEvent) :
    ∀ objs : List BundleObject, BundleObject.policyEvent e ∈ objs →
      ∃ r ∈ buildRows gdc leaf objs,
        conflictKey r = (e.EventName, e.Count, e.CreatedAt) := by
  intro objs
  induction objs with
  | nil => intro h; cases h
  | cons o rest ih =>
    intro h
    cases o with
    | other n =>
      rcases List.mem_cons.1 h with h | h
      · cases h
      · exact ih h
    | policyEvent e' =>
      rcases List.mem_cons.1 h with h | h
      · cases h
        exact ⟨_, List.mem_cons_self _ _, rfl⟩
      · obtain ⟨r, hr, hk⟩ := ih h
        exact ⟨r, List.mem_cons_of_mem _ hr, hk⟩

/-! ## Lemmas about key uniqueness -/

theorem not_mem_keys_of_hasKey_false (t : EventTable) (k : String × Int × Int)
    (h : ¬ hasKey t k = true) : k ∉ t.map conflictKey := by
  intro hk
  apply h
  obtain ⟨s, hs, hsk⟩ := List.mem_map.1 hk
  exact (hasKey_iff t k).2 ⟨s, hs, hsk⟩

theorem KeysUnique_insertIgnore (t : EventTable) (r : LocalClusterPolicyEvent)
    (h : KeysUnique t) : KeysUnique (insertIgnore t r) := by
  unfold insertIgnore
  split
  · exact h
  · rename_i hk
    unfold KeysUnique at h ⊢
    rw [List.map_append, List.map_singleton]
    refine List.Nodup.append h (List.nodup_singleton _) ?_
    intro x hx hx'
    rw [List.mem_singleton] at hx'
    subst hx'
    exact not_mem_keys_of_hasKey_false t _ hk hx

theorem KeysUnique_execInsert (rows : List LocalClusterPolicyEvent) :
    ∀ t : EventTable, KeysUnique t → KeysUnique (execInsert t rows) := by
  induction rows with
  | nil => intro t h; exact h
  | cons a rs ih => intro t h; exact ih _ (KeysUnique_insertIgnore t a h)

theorem KeysUnique_runBatches (g : Storage) (bs : List (List LocalClusterPolicyEvent)) :
    ∀ (i : Nat) (t : EventTable), KeysUnique t → KeysUnique (runBatches g i t bs).2 := by
  induction bs with
  | nil => intro i t h; exact h
  | cons b bs ih =>
    intro i t h
    unfold runBatches
    cases hE : g.stmtError i with
    | some e => exact h
    | none => exact ih (i + 1) _ (KeysUnique_execInsert b t h)

theorem KeysUnique_CreateInBatches (g : Storage) (t : EventTable)
    (rows : List LocalClusterPolicyEvent) (n : Nat) (h : KeysUnique t) :
    KeysUnique (CreateInBatches g t rows n).2 := by
  unfold CreateInBatches
  simp only
  split
  · exact KeysUnique_runBatches g _ 0 t h
  · split
    · exact h
    · exact KeysUnique_runBatches g _ 0 t h

theorem KeysUnique_handle (gdc : String → String) (g : Storage) (db : EventTable)
    (b : ManagerBundle) (h : KeysUnique db) :
    KeysUnique (handleLocalObjectsBundle gdc g db b).2 := by
  rw [handle_snd]
  split
  · exact h
  · exact KeysUnique_CreateInBatches g db _ 100 h

theorem countKey_eq_zero (t : EventTable) (k : String × Int × Int)
    (h : k ∉ t.map conflictKey) : countKey t k = 0 := by
  unfold countKey
  rw [List.length_eq_zero, List.filter_eq_nil_iff]
  intro s hs hsk
  exact h (List.mem_map.2 ⟨s, hs, of_decide_eq_true hsk⟩)

theorem countKey_eq_one (t : EventTable) (k : String × Int × Int)
    (hu : KeysUnique t) (hk : hasKey t k = true) : countKey t k = 1 := by
  induction t with
  | nil => simp [hasKey] at hk
  | cons a t ih =>
    unfold KeysUnique at hu
    rw [List.map_cons, List.nodup_cons] at hu
    by_cases ha : conflictKey a = k
    · have h0 := countKey_eq_zero t k (ha ▸ hu.1)
      unfold countKey at h0 ⊢
      rw [List.filter_cons_of_pos (by simpa using ha), List.length_cons, h0]
    · have hk' : hasKey t k = true := by
        obtain ⟨s, hs, hsk⟩ := (hasKey_iff _ _).1 hk
        rcases List.mem_cons.1 hs with h | h
        · subst h; exact absurd hsk ha
        · exact (hasKey_iff _ _).2 ⟨s, h, hsk⟩
      have h1 := ih hu.2 hk'
      unfold countKey at h1 ⊢
      rw [List.filter_cons_of_neg (by simpa using ha)]
      exact h1

/-! ## What a call adds to the table -/

theorem hasKey_false_of_append (t l : EventTable) (k : String × Int × Int)
    (h : hasKey (t ++ l) k = false) : hasKey t k = false := by
  rw [hasKey_append, Bool.or_eq_false_iff] at h
  exact h.1

theorem insertIgnore_added (t : EventTable) (r : LocalClusterPolicyEvent) :
    ∃ l, insertIgnore t r = t ++ l ∧ ∀ x ∈ l, x = r ∧ hasKey t (conflictKey x) = false := by
  unfold insertIgnore
  split
  · exact ⟨[], by simp, fun x hx => by cases hx⟩
  · rename_i hk
    refine ⟨[r], rfl, fun x hx => ?_⟩
    rw [List.mem_singleton] at hx
    subst hx
    exact ⟨rfl, by simpa using hk⟩

theorem execInsert_added (rows : List LocalClusterPolicyEvent) :
    ∀ t : EventTable, ∃ l, execInsert t rows = t ++ l ∧
      ∀ x ∈ l, x ∈ rows ∧ hasKey t (conflictKey x) = false := by
  induction rows with
  | nil => intro t; exact ⟨[], by simp [execInsert], fun x hx => by cases hx⟩
  | cons r rs ih =>
    intro t
    obtain ⟨l₁, h₁, p₁⟩ := insertIgnore_added t r
    obtain ⟨l₂, h₂, p₂⟩ := ih (insertIgnore t r)
    refine ⟨l₁ ++ l₂, ?_, ?_⟩
    · show execInsert (insertIgnore t r) rs = t ++ (l₁ ++ l₂)
      rw [h₂, h₁, List.append_assoc]
    · intro x hx
      rcases List.mem_append.1 hx with h | h
      · obtain ⟨e, hk⟩ := p₁ x h
        exact ⟨e ▸ List.mem_cons_self _ _, hk⟩
      · obtain ⟨hm, hk⟩ := p₂ x h
        rw [h₁] at hk
        exact ⟨List.mem_cons_of_mem _ hm, hasKey_false_of_append _ _ _ hk⟩

theorem runBatches_added (g : Storage) (bs : List (List LocalClusterPolicyEvent)) :
    ∀ (i : Nat) (t : EventTable), ∃ l, (runBatches g i t bs).2 = t ++ l ∧
      ∀ x ∈ l, (∃ b ∈ bs, x ∈ b) ∧ hasKey t (conflictKey x) = false := by
  induction bs with
  | nil => intro i t; exact ⟨[], by simp [runBatches], fun x hx => by cases hx⟩
  | cons b bs ih =>
    intro i t
    unfold runBatches
    cases hE : g.stmtError i with
    | some e => exact ⟨[], by simp, fun x hx => by cases hx⟩
    | none =>
      obtain ⟨l₁, h₁, p₁⟩ := execInsert_added b t
      obtain ⟨l₂, h₂, p₂⟩ := ih (i + 1) (execInsert t b)
      refine ⟨l₁ ++ l₂, ?_, ?_⟩
      · show (runBatches g (i + 1) (execInsert t b) bs).2 = t ++ (l₁ ++ l₂)
        rw [h₂, h₁, List.append_assoc]
      · intro x hx
        rcases List.mem_append.1 hx with h | h
        · obtain ⟨hm, hk⟩ := p₁ x h
          exact ⟨⟨b, List.mem_cons_self _ _, hm⟩, hk⟩
        · obtain ⟨⟨b', hb', hm⟩, hk⟩ := p₂ x h
          rw [h₁] at hk
          exact ⟨⟨b', List.mem_cons_of_mem _ hb', hm⟩, hasKey_false_of_append _ _ _ hk⟩

theorem CreateInBatches_added (g : Storage) (t : EventTable)
    (rows : List LocalClusterPolicyEvent) (n : Nat) (hn : 0 < n) :
    ∃ l, (CreateInBatches g t rows n).2 = t ++ l ∧
      ∀ x ∈ l, x ∈ rows ∧ hasKey t (conflictKey x) = false := by
  obtain ⟨l, hl, pl⟩ := runBatches_added g (batches n rows) 0 t
  have pl' : ∀ x ∈ l, x ∈ rows ∧ hasKey t (conflictKey x) = false :=
    fun x hx => ⟨(mem_batches_iff n hn rows x).1 (pl x hx).1, (pl x hx).2⟩
  unfold CreateInBatches
  simp only
  split
  · exact ⟨l, hl, pl'⟩
  · split
    · exact ⟨[], by simp, fun x hx => by cases hx⟩
    · exact ⟨l, hl, pl'⟩

theorem handle_hasKey (gdc : String → String) (g : Storage) (db : EventTable)
    (b : ManagerBundle) (e : ReplicatedPolicyEvent)
    (hok : (handleLocalObjectsBundle gdc g db b).1 = none)
    (he : BundleObject.policyEvent e ∈ b.Objects) :
    hasKey (handleLocalObjectsBundle gdc g db b).2 (e.EventName, e.Count, e.CreatedAt) = true := by
  have hne : ¬ b.Objects.length = 0 := by
    intro h0
    rw [List.length_eq_zero] at h0
    rw [h0] at he
    cases he
  rcases (handle_fst_none gdc g db b).1 hok with h | h
  · exact absurd h hne
  · rw [handle_snd, if_neg hne]
    obtain ⟨r, hr, hk⟩ := mem_buildRows gdc b.LeafHubName e b.Objects he
    rw [← hk]
    exact CreateInBatches_hasKey g db _ 100 (by decide) h r hr

theorem handle_mono (gdc : String → String) (g : Storage) (db : EventTable)
    (b : ManagerBundle) (k : String × Int × Int) (h : hasKey db k = true) :
    hasKey (handleLocalObjectsBundle gdc g db b).2 k = true := by
  obtain ⟨l, hl⟩ := handle_appends gdc g db b
  rw [hl, hasKey_append, h, Bool.true_or]

theorem handle_again (gdc : String → String) (g₁ g₂ : Storage) (db : EventTable)
    (b : ManagerBundle) (hok : (handleLocalObjectsBundle gdc g₁ db b).1 = none) :
    (handleLocalObjectsBundle gdc g₂ (handleLocalObjectsBundle gdc g₁ db b).2 b).2 =
      (handleLocalObjectsBundle gdc g₁ db b).2 := by
  by_cases h0 : b.Objects.length = 0
  · rw [handle_snd gdc g₂, if_pos h0]
  · rw [handle_snd gdc g₂, if_neg h0]
    apply CreateInBatches_eq_self g₂ _ _ 100 (by decide)
    rcases (handle_fst_none gdc g₁ db b).1 hok with h | h
    · exact absurd h h0
    · rw [handle_snd, if_neg h0]
      exact CreateInBatches_hasKey g₁ db _ 100 (by decide) h

theorem runBatches_healthy (bs : List (List LocalClusterPolicyEvent)) :
    ∀ (i : Nat) (t : EventTable), (runBatches Storage.healthy i t bs).1 = none := by
  induction bs with
  | nil => intro i t; rfl
  | cons b bs ih => intro i t; exact ih (i + 1) _

theorem handle_healthy (gdc : String → String) (db : EventTable) (b : ManagerBundle) :
    (handleLocalObjectsBundle gdc Storage.healthy db b).1 = none := by
  rw [handle_fst_none]
  right
  unfold CreateInBatches
  simp only
  split
  · exact runBatches_healthy _ 0 db
  · rw [runBatches_healthy _ 0 db]
    exact runBatches_healthy _ 0 db

/-! ## The handler of local replicated policy event bundles: results -/

/-- C1: handling the same bundle twice leaves the table that handling it once
leaves: on a storage without failures for every bundle and every initial
table, and more generally whenever the first call returned nil, whatever the
storage does during the second call. Moreover, when the initial table has at
most one row per key (event_name, count, created_at), every key of an event
of a successfully handled bundle is stored in exactly one row, and is still
stored in exactly one row after any further delivery, so two events with the
same key, in one bundle or in two deliveries, leave one stored row. -/
theorem handleLocalObjectsBundle_idempotent :
    (∀ (gdc : String → String) (db : EventTable) (b : ManagerBundle),
      (handleLocalObjectsBundle gdc Storage.healthy
          (handleLocalObjectsBundle gdc Storage.healthy db b).2 b).2 =
        (handleLocalObjectsBundle gdc Storage.healthy db b).2) ∧
    (∀ (gdc : String → String) (g₁ g₂ : Storage) (db : EventTable) (b : ManagerBundle),
      (handleLocalObjectsBundle gdc g₁ db b).1 = none →
      (handleLocalObjectsBundle gdc g₂ (handleLocalObjectsBundle gdc g₁ db b).2 b).2 =
        (handleLocalObjectsBundle gdc g₁ db b).2) ∧
    (∀ (gdc : String → String) (g₁ g₂ : Storage) (db : EventTable) (b₁ b₂ : ManagerBundle)
        (e : ReplicatedPolicyEvent),
      KeysUnique db → BundleObject.policyEvent e ∈ b₁.Objects →
      (handleLocalObjectsBundle gdc g₁ db b₁).1 = none →
      countKey (handleLocalObjectsBundle gdc g₁ db b₁).2 (e.EventName, e.Count, e.CreatedAt) = 1 ∧
      countKey (handleLocalObjectsBundle gdc g₂ (handleLocalObjectsBundle gdc g₁ db b₁).2 b₂).2
        (e.EventName, e.Count, e.CreatedAt) = 1) := by
  refine ⟨fun gdc db b => handle_again gdc _ _ db b (handle_healthy gdc db b),
    fun gdc g₁ g₂ db b hok => handle_again gdc g₁ g₂ db b hok, ?_⟩
  intro gdc g₁ g₂ db b₁ b₂ e hu he hok
  have hk := handle_hasKey gdc g₁ db b₁ e hok he
  have hu₁ := KeysUnique_handle gdc g₁ db b₁ hu
  exact ⟨countKey_eq_one _ _ hu₁ hk,
    countKey_eq_one _ _ (KeysUnique_handle gdc g₂ _ b₂ hu₁) (handle_mono gdc g₂ _ b₂ _ hk)⟩

/-- Witness of C1: two events with the key ("evt", 1, 10) in one bundle, and
the bundle delivered twice to an empty table, leave exactly one row with that key. -/
theorem handleLocalObjectsBundle_idempotent_witness :
    countKey
      (handleLocalObjectsBundle id Storage.healthy
        (handleLocalObjectsBundle id Storage.healthy []
          ⟨"hub1", [BundleObject.policyEvent (sampleEvent "evt" "first" 1 10),
            BundleObject.policyEvent (sampleEvent "evt" "second" 1 10)]⟩).2
        ⟨"hub1", [BundleObject.policyEvent (sampleEvent "evt" "first" 1 10),
            BundleObject.policyEvent (sampleEvent "evt" "second" 1 10)]⟩).2
      ("evt", 1, 10) = 1 :=
  (handleLocalObjectsBundle_idempotent.2.2 id Storage.healthy Storage.healthy []
    ⟨"hub1", [BundleObject.policyEvent (sampleEvent "evt" "first" 1 10),
      BundleObject.policyEvent (sampleEvent "evt" "second" 1 10)]⟩
    ⟨"hub1", [BundleObject.policyEvent (sampleEvent "evt" "first" 1 10),
      BundleObject.policyEvent (sampleEvent "evt" "second" 1 10)]⟩
    (sampleEvent "evt" "first" 1 10) List.nodup_nil (List.mem_cons_self _ _)
    (handle_healthy _ _ _)).2

/-- C8 (evaluation of the code): leaf hub "hub1" has the stored row of event
"old-event"; a bundle of "hub1" that carries only "new-event" is handled and
nil is returned; the row of "old-event", which is not among the rows of the
bundle, is still stored. -/
theorem handleLocalObjectsBundle_keeps_row_absent_from_bundle :
    (handleLocalObjectsBundle id Storage.healthy [sampleRow "hub1" "old-event" "m" 1 10]
        ⟨"hub1", [BundleObject.policyEvent (sampleEvent "new-event" "m" 1 20)]⟩).1 = none ∧
    (handleLocalObjectsBundle id Storage.healthy [sampleRow "hub1" "old-event" "m" 1 10]
        ⟨"hub1", [BundleObject.policyEvent (sampleEvent "new-event" "m" 1 20)]⟩).2 =
      [sampleRow "hub1" "old-event" "m" 1 10, sampleRow "hub1" "new-event" "m" 1 20] ∧
    (sampleRow "hub1" "old-event" "m" 1 10).BaseLocalPolicyEvent.LeafHubName = "hub1" ∧
    sampleRow "hub1" "old-event" "m" 1 10 ∉
      buildRows id "hub1" [BundleObject.policyEvent (sampleEvent "new-event" "m" 1 20)] := by
  decide

/-- C9 (evaluation of the code): the table stores a row with key
("evt", 1, 10) and message "old"; a bundle whose event has the same key and
message "new" is handled and nil is returned; the table is unchanged, so the
row built from the event is not stored and the stored row was not updated. -/
theorem handleLocalObjectsBundle_does_not_update_existing_row :
    (handleLocalObjectsBundle id Storage.healthy [sampleRow "hub1" "evt" "old" 1 10]
        ⟨"hub1", [BundleObject.policyEvent (sampleEvent "evt" "new" 1 10)]⟩).1 = none ∧
    (handleLocalObjectsBundle id Storage.healthy [sampleRow "hub1" "evt" "old" 1 10]
        ⟨"hub1", [BundleObject.policyEvent (sampleEvent "evt" "new" 1 10)]⟩).2 =
      [sampleRow "hub1" "evt" "old" 1 10] ∧
    buildRows id "hub1" [BundleObject.policyEvent (sampleEvent "evt" "new" 1 10)] =
      [sampleRow "hub1" "evt" "new" 1 10] ∧
    sampleRow "hub1" "evt" "new" 1 10 ∉
      (handleLocalObjectsBundle id Storage.healthy [sampleRow "hub1" "evt" "old" 1 10]
        ⟨"hub1", [BundleObject.policyEvent (sampleEvent "evt" "new" 1 10)]⟩).2 := by
  decide

/-- C10: the handler only inserts, ignoring conflicts on the key
(event_name, count, created_at): whatever the storage does and whatever the
call returns, the table after the call is the table before it, row by row
and in the same order, followed by added rows; every added row is one of the
rows built from the bundle and its key was not stored before the call. -/
theorem handleLocalObjectsBundle_insert_only (gdc : String → String) (g : Storage)
    (db : EventTable) (b : ManagerBundle) :
    ∃ added : EventTable,
      (handleLocalObjectsBundle gdc g db b).2 = db ++ added ∧
      ∀ r ∈ added, r ∈ buildRows gdc b.LeafHubName b.Objects ∧
        hasKey db (conflictKey r) = false := by
  rw [handle_snd]
  split
  · exact ⟨[], by simp, fun r hr => by cases hr⟩
  · exact CreateInBatches_added g db _ 100 (by decide)

/-! ## Outgoing bundle entries: results -/

/-- C6: `NewBundleEntry` and `NewSharedBundleEntry` store the version the bundle
has at construction time, by value: the stored `lastSentBundleVersion` is that
version, the key, bundle and predicate fields are the arguments, and after
the live bundle's version is changed to any `v'` the entry reads `v'` through
its bundle reference while its `lastSentBundleVersion` is still the version
of construction time. -/
theorem NewBundleEntry_copies_version {V W : Type} (store : BundleStore V) (key : String)
    (bundle : BundleRef) (pred : W → Bool) (v' : V) :
    ((NewBundleEntry store key bundle pred).lastSentBundleVersion = (store bundle).version ∧
      (NewBundleEntry store key bundle pred).transportBundleKey = key ∧
      (NewBundleEntry store key bundle pred).bundle = bundle ∧
      (NewBundleEntry store key bundle pred).bundlePredicate = pred ∧
      GetVersion (setVersion store bundle v') (NewBundleEntry store key bundle pred).bundle = v' ∧
      (NewBundleEntry store key bundle pred).lastSentBundleVersion = GetVersion store bundle) ∧
    ((NewSharedBundleEntry store key bundle pred).lastSentBundleVersion = (store bundle).version ∧
      (NewSharedBundleEntry store key bundle pred).transportBundleKey = key ∧
      (NewSharedBundleEntry store key bundle pred).bundle = bundle ∧
      (NewSharedBundleEntry store key bundle pred).bundlePredicate = pred ∧
      GetVersion (setVersion store bundle v') (NewSharedBundleEntry store key bundle pred).bundle = v' ∧
      (NewSharedBundleEntry store key bundle pred).lastSentBundleVersion = GetVersion store bundle) := by
  refine ⟨⟨rfl, rfl, rfl, rfl, ?_, rfl⟩, ⟨rfl, rfl, rfl, rfl, ?_, rfl⟩⟩ <;>
    simp [GetVersion, setVersion, NewBundleEntry, NewSharedBundleEntry]

theorem TryGetOutgoing_eq_some_iff {V W : Type} [LinearOrder V] (w : W) (store : BundleStore V)
    (entry : BundleEntry V W) (b : AgentBundle V) :
    TryGetOutgoing w store entry = some b ↔
      (entry.bundlePredicate w = true ∧
        entry.lastSentBundleVersion < GetVersion store entry.bundle ∧ store entry.bundle = b) := by
  unfold TryGetOutgoing NewerThan
  split
  · rename_i h
    simp only [Bool.and_eq_true, decide_eq_true_eq] at h
    simp [h.1, h.2]
  · rename_i h
    simp only [Bool.and_eq_true, decide_eq_true_eq, not_and] at h
    constructor
    · intro hc; cases hc
    · rintro ⟨h₁, h₂, _⟩
      exact absurd h₂ (h h₁)

theorem TryGetOutgoing_eq_none_iff {V W : Type} [LinearOrder V] (w : W) (store : BundleStore V)
    (entry : BundleEntry V W) :
    TryGetOutgoing w store entry = none ↔
      (entry.bundlePredicate w = false ∨
        ¬ entry.lastSentBundleVersion < GetVersion store entry.bundle) := by
  unfold TryGetOutgoing NewerThan
  split
  · rename_i h
    simp only [Bool.and_eq_true, decide_eq_true_eq] at h
    simp [h.1, h.2]
  · rename_i h
    simp only [Bool.and_eq_true, decide_eq_true_eq, not_and] at h
    simp only [true_iff]
    cases hp : entry.bundlePredicate w with
    | false => exact Or.inl rfl
    | true => exact Or.inr (h hp)

/-- C5: `TryGetOutgoing` has nothing to send when the eligibility predicate is
false and when the live version equals the last-sent snapshot; whenever it
returns a bundle, the predicate is true, the live version is newer than the
snapshot and the bundle is the current live bundle, and in that case it does
return it. An entry just built by `NewBundleEntry` has nothing to send, and
keeps having nothing to send in every later store in which the bundle's
version has not advanced beyond the one of construction time; once it has
advanced and the predicate holds, the live bundle is returned. -/
theorem TryGetOutgoing_gate {V W : Type} [LinearOrder V] (w : W) (store : BundleStore V)
    (entry : BundleEntry V W) :
    (entry.bundlePredicate w = false → TryGetOutgoing w store entry = none) ∧
    (GetVersion store entry.bundle = entry.lastSentBundleVersion →
      TryGetOutgoing w store entry = none) ∧
    (∀ b, TryGetOutgoing w store entry = some b →
      entry.bundlePredicate w = true ∧
      NewerThan (GetVersion store entry.bundle) entry.lastSentBundleVersion = true ∧
      b = store entry.bundle) ∧
    (entry.bundlePredicate w = true →
      NewerThan (GetVersion store entry.bundle) entry.lastSentBundleVersion = true →
      TryGetOutgoing w store entry = some (store entry.bundle)) ∧
    (∀ (key : String) (bundle : BundleRef) (pred : W → Bool),
      TryGetOutgoing w store (NewBundleEntry store key bundle pred) = none) ∧
    (∀ (key : String) (bundle : BundleRef) (pred : W → Bool) (later : BundleStore V),
      GetVersion later bundle ≤ GetVersion store bundle →
      TryGetOutgoing w later (NewBundleEntry store key bundle pred) = none) ∧
    (∀ (key : String) (bundle : BundleRef) (pred : W → Bool) (later : BundleStore V),
      pred w = true → GetVersion store bundle < GetVersion later bundle →
      TryGetOutgoing w later (NewBundleEntry store key bundle pred) = some (later bundle)) := by
  refine ⟨?_, ?_, ?_, ?_, ?_, ?_, ?_⟩
  · intro h
    exact (TryGetOutgoing_eq_none_iff w store entry).2 (Or.inl h)
  · intro h
    exact (TryGetOutgoing_eq_none_iff w store entry).2 (Or.inr (by rw [h]; exact lt_irrefl _))
  · intro b h
    obtain ⟨h₁, h₂, h₃⟩ := (TryGetOutgoing_eq_some_iff w store entry b).1 h
    exact ⟨h₁, by simpa [NewerThan] using h₂, h₃.symm⟩
  · intro h₁ h₂
    exact (TryGetOutgoing_eq_some_iff w store entry _).2 ⟨h₁, by simpa [NewerThan] using h₂, rfl⟩
  · intro key bundle pred
    exact (TryGetOutgoing_eq_none_iff w store _).2 (Or.inr (lt_irrefl _))
  · intro key bundle pred later h
    exact (TryGetOutgoing_eq_none_iff w later _).2 (Or.inr (not_lt.2 h))
  · intro key bundle pred later hp h
    exact (TryGetOutgoing_eq_some_iff w later _ _).2 ⟨hp, h, rfl⟩

/-- Witness of C5: an entry built over a bundle at version 3 has nothing to
send as long as the bundle is at version 3. -/
theorem TryGetOutgoing_gate_witness :
    TryGetOutgoing () (fun _ => (⟨3, ["obj"]⟩ : AgentBundle Nat))
      (NewBundleEntry (fun _ => (⟨3, ["obj"]⟩ : AgentBundle Nat)) "key" 0 (fun _ => true)) = none :=
  (TryGetOutgoing_gate () (fun _ => (⟨3, ["obj"]⟩ : AgentBundle Nat))
    (NewBundleEntry (fun _ => (⟨3, ["obj"]⟩ : AgentBundle Nat)) "key" 0 (fun _ => true))).2.1 rfl

/-! ## Statistics: results -/

theorem Seconds_nonpos (d : Int) (h : d ≤ 0) : Seconds d ≤ 0 := by
  have h1 : Int.tdiv d 1000000000 * 1000000000 + Int.tmod d 1000000000 = d := by
    have := Int.tdiv_add_tmod d 1000000000
    linarith
  have h3 : ((Int.tdiv d 1000000000 * 1000000000 + Int.tmod d 1000000000 : Int) : ℚ) = (d : ℚ) := by
    rw [h1]
  have h2 : Seconds d = (d : ℚ) / 1000000000 := by
    unfold Seconds
    push_cast at h3
    field_simp
    linarith
  rw [h2]
  have : (d : ℚ) ≤ 0 := by exact_mod_cast h
  exact div_nonpos_of_nonpos_of_nonneg this (by norm_num)

theorem Seconds_pos (d : Int) (h : 0 < d) : 0 < Seconds d := by
  have h1 : Int.tdiv d 1000000000 * 1000000000 + Int.tmod d 1000000000 = d := by
    have := Int.tdiv_add_tmod d 1000000000
    linarith
  have h3 : ((Int.tdiv d 1000000000 * 1000000000 + Int.tmod d 1000000000 : Int) : ℚ) = (d : ℚ) := by
    rw [h1]
  have h2 : Seconds d = (d : ℚ) / 1000000000 := by
    unfold Seconds
    push_cast at h3
    field_simp
    linarith
  rw [h2]
  have : (0 : ℚ) < (d : ℚ) := by exact_mod_cast h
  exact div_pos this (by norm_num)

theorem run_enabled (s : Statistics) (duration : Int) (signals : List RunSignal)
    (h : 0 < duration) :
    s.run duration signals = (RunEffect.newTicker duration :: runLoop s signals, s) := by
  unfold Statistics.run
  rw [if_neg (not_le.2 (Seconds_pos duration h))]

/-- C7: for every duration less than or equal to zero (what the configured log
interval parsed to), `Statistics.run` returns at once: whatever signals
arrive later (ticks, cancellation), it has no effect at all (no ticker is
created, no dump is logged) and the statistics are the ones it was called on. -/
theorem run_disabled (s : Statistics) (duration : Int) (signals : List RunSignal)
    (h : duration ≤ 0) : s.run duration signals = ([], s) := by
  unfold Statistics.run
  rw [if_pos (Seconds_nonpos duration h)]

/-- Witness of C7: with a log interval of minus five seconds, two ticks and a
cancellation produce nothing. -/
theorem run_disabled_witness :
    (-5000000000 : Int) ≤ 0 ∧
    (NewStatistics ⟨"-5s"⟩ ["LocalPolicyHistoryEvent"]).run (-5000000000)
        [RunSignal.tick, RunSignal.tick, RunSignal.ctxDone] =
      ([], NewStatistics ⟨"-5s"⟩ ["LocalPolicyHistoryEvent"]) :=
  ⟨by decide, run_disabled _ (-5000000000) _ (by decide)⟩

/-! ## Conflation slots: lemmas -/

theorem NewerThan_iff {V : Type} [LinearOrder V] (a b : V) : NewerThan a b = true ↔ b < a := by
  simp [NewerThan]

theorem NewerThan_false_iff {V : Type} [LinearOrder V] (a b : V) :
    NewerThan a b = false ↔ a ≤ b := by
  simp [NewerThan]

theorem Insert_applied {V C : Type} [LinearOrder V] (s : ConflationSlot V C)
    (b : VersionedBundle V C) : (s.Insert b).applied = s.applied := by
  unfold ConflationSlot.Insert
  split
  · rfl
  · split
    · rfl
    · split <;> rfl
    · rfl
    · split <;> rfl

theorem Complete_applied {V C : Type} (s : ConflationSlot V C) (ok : Bool) :
    (s.Complete ok).applied = s.applied := by
  unfold ConflationSlot.Complete
  split <;> rfl

theorem SlotInv_init {V C : Type} [LinearOrder V] :
    SlotInv (ConflationSlot.init : ConflationSlot V C) := by
  simp [SlotInv, ConflationSlot.init]

theorem not_stale {V C : Type} [LinearOrder V] (s : ConflationSlot V C)
    (b : VersionedBundle V C) (h : ¬ s.staleForApplied b = true) :
    ∀ a, s.applied = some a → a.version < b.version := by
  intro a ha
  unfold ConflationSlot.staleForApplied at h
  rw [ha] at h
  simpa [NewerThan] using h

theorem stale_of_le {V C : Type} [LinearOrder V] (s : ConflationSlot V C)
    (a b : VersionedBundle V C) (ha : s.applied = some a) (h : b.version ≤ a.version) :
    s.staleForApplied b = true := by
  unfold ConflationSlot.staleForApplied
  rw [ha]
  simpa [NewerThan] using h

theorem SlotInv_Insert {V C : Type} [LinearOrder V] (s : ConflationSlot V C)
    (b : VersionedBundle V C) (h : SlotInv s) : SlotInv (s.Insert b) := by
  unfold ConflationSlot.Insert
  split
  · exact h
  · rename_i hs
    have hn := not_stale s b hs
    split
    · simpa [SlotInv] using hn
    · split
      · simpa [SlotInv] using hn
      · exact h
    · rename_i run hst
      simp only [SlotInv, hst] at h
      simp only [SlotInv]
      refine ⟨h.1, ?_⟩
      intro w hw
      cases hw
      exact hn run h.1
    · rename_i run w hst
      simp only [SlotInv, hst] at h
      split
      · simp only [SlotInv]
        refine ⟨h.1, ?_⟩
        intro w' hw'
        cases hw'
        exact hn run h.1
      · simpa [SlotInv, hst] using h

theorem SlotInv_Complete {V C : Type} [LinearOrder V] (s : ConflationSlot V C) (ok : Bool)
    (h : SlotInv s) : SlotInv (s.Complete ok) := by
  unfold ConflationSlot.Complete
  split
  · rename_i run w hst
    simp only [SlotInv, hst] at h
    simp only [SlotInv]
    intro a ha
    rw [h.1] at ha
    cases ha
    exact h.2 w rfl
  · simp [SlotInv]
  · exact h

theorem Select_some {V C : Type} [LinearOrder V] (s : ConflationSlot V C)
    (b : VersionedBundle V C) (hsel : s.Select.2 = some b) (h : SlotInv s) :
    s.state = SlotState.Pending b ∧
    s.Select.1 = { state := SlotState.InFlight b none, applied := some b } ∧
    (∀ a, s.applied = some a → a.version < b.version) := by
  unfold ConflationSlot.Select at hsel ⊢
  split at hsel
  · rename_i b' hst
    simp only [Option.some.injEq] at hsel
    subst hsel
    simp only [SlotInv, hst] at h
    simp only [hst]
    exact ⟨trivial, trivial, h⟩
  · cases hsel

theorem Select_none {V C : Type} (s : ConflationSlot V C) (hsel : s.Select.2 = none) :
    s.Select.1 = s := by
  unfold ConflationSlot.Select at hsel ⊢
  split
  · rename_i b hst
    simp [hst] at hsel
  · rfl

theorem SlotInv_Select {V C : Type} [LinearOrder V] (s : ConflationSlot V C)
    (h : SlotInv s) : SlotInv s.Select.1 := by
  cases hsel : s.Select.2 with
  | none => rw [Select_none s hsel]; exact h
  | some b =>
    rw [(Select_some s b hsel h).2.1]
    simp [SlotInv]

theorem SlotInv_slotStep {V C : Type} [LinearOrder V] (s : ConflationSlot V C)
    (ev : SlotEvent V C) (h : SlotInv s) : SlotInv (slotStep s ev).1 := by
  cases ev with
  | Insert b => exact SlotInv_Insert s b h
  | Select => exact SlotInv_Select s h
  | Complete ok => exact SlotInv_Complete s ok h

theorem SlotInv_runSlot {V C : Type} [LinearOrder V] (evs : List (SlotEvent V C)) :
    ∀ s : ConflationSlot V C, SlotInv s → SlotInv (runSlot s evs) := by
  induction evs with
  | nil => intro s h; exact h
  | cons ev evs ih => intro s h; exact ih _ (SlotInv_slotStep s ev h)

theorem runSlot_append {V C : Type} [LinearOrder V] (evs₁ evs₂ : List (SlotEvent V C)) :
    ∀ s : ConflationSlot V C, runSlot s (evs₁ ++ evs₂) = runSlot (runSlot s evs₁) evs₂ := by
  induction evs₁ with
  | nil => intro s; rfl
  | cons ev evs ih => intro s; exact ih _

theorem handled_append {V C : Type} [LinearOrder V] (evs₁ evs₂ : List (SlotEvent V C)) :
    ∀ s : ConflationSlot V C,
      handled s (evs₁ ++ evs₂) = handled s evs₁ ++ handled (runSlot s evs₁) evs₂ := by
  induction evs₁ with
  | nil => intro s; rfl
  | cons ev evs ih =>
    intro s
    show _ ++ handled _ (evs ++ evs₂) = (_ ++ handled _ evs) ++ _
    rw [ih, List.append_assoc]
    rfl

theorem inserted_append {V C : Type} (evs₁ evs₂ : List (SlotEvent V C)) :
    inserted (evs₁ ++ evs₂) = inserted evs₁ ++ inserted evs₂ := by
  induction evs₁ with
  | nil => rfl
  | cons ev evs ih =>
    cases ev with
    | Insert b => show b :: inserted (evs ++ evs₂) = b :: inserted evs ++ inserted evs₂; rw [ih]; rfl
    | Select => exact ih
    | Complete ok => exact ih

theorem top_Insert {V C : Type} [LinearOrder V] (s : ConflationSlot V C)
    (b : VersionedBundle V C) (h : SlotInv s) : top (s.Insert b) = better (top s) b := by
  obtain ⟨st, ap⟩ := s
  cases st with
  | Empty =>
    cases ap with
    | none => simp [ConflationSlot.Insert, ConflationSlot.staleForApplied, top, better]
    | some a =>
      by_cases hn : NewerThan b.version a.version = true <;>
        simp [ConflationSlot.Insert, ConflationSlot.staleForApplied, top, better, hn]
  | Pending cur =>
    cases ap with
    | none =>
      by_cases hn : NewerThan b.version cur.version = true <;>
        simp [ConflationSlot.Insert, ConflationSlot.staleForApplied, top, better, hn]
    | some a =>
      have hac : a.version < cur.version := by simpa [SlotInv] using h
      by_cases hn : NewerThan b.version cur.version = true
      · have hna : NewerThan b.version a.version = true := by
          rw [NewerThan_iff] at hn ⊢
          exact lt_trans hac hn
        simp [ConflationSlot.Insert, ConflationSlot.staleForApplied, top, better, hn, hna]
      · by_cases hna : NewerThan b.version a.version = true <;>
          simp [ConflationSlot.Insert, ConflationSlot.staleForApplied, top, better, hn, hna]
  | InFlight run q =>
    simp only [SlotInv] at h
    obtain ⟨hap, hq⟩ := h
    subst hap
    cases q with
    | none =>
      by_cases hn : NewerThan b.version run.version = true <;>
        simp [ConflationSlot.Insert, ConflationSlot.staleForApplied, top, better, hn]
    | some w =>
      have hrw : run.version < w.version := hq w rfl
      by_cases hn : NewerThan b.version w.version = true
      · have hna : NewerThan b.version run.version = true := by
          rw [NewerThan_iff] at hn ⊢
          exact lt_trans hrw hn
        simp [ConflationSlot.Insert, ConflationSlot.staleForApplied, top, better, hn, hna]
      · by_cases hna : NewerThan b.version run.version = true <;>
          simp [ConflationSlot.Insert, ConflationSlot.staleForApplied, top, better, hn, hna]

theorem top_Select {V C : Type} [LinearOrder V] (s : ConflationSlot V C) :
    top s.Select.1 = top s := by
  obtain ⟨st, ap⟩ := s
  cases st <;> simp [ConflationSlot.Select, top]

theorem top_Complete {V C : Type} [LinearOrder V] (s : ConflationSlot V C) (ok : Bool)
    (h : SlotInv s) : top (s.Complete ok) = top s := by
  obtain ⟨st, ap⟩ := s
  cases st with
  | Empty => simp [ConflationSlot.Complete, top]
  | Pending cur => simp [ConflationSlot.Complete, top]
  | InFlight run q =>
    simp only [SlotInv] at h
    obtain ⟨hap, _⟩ := h
    subst hap
    cases q <;> simp [ConflationSlot.Complete, top]

theorem top_runSlot {V C : Type} [LinearOrder V] (evs : List (SlotEvent V C)) :
    ∀ s : ConflationSlot V C, SlotInv s →
      top (runSlot s evs) = (inserted evs).foldl better (top s) := by
  induction evs with
  | nil => intro s _; rfl
  | cons ev evs ih =>
    intro s h
    show top (runSlot (slotStep s ev).1 evs) = _
    rw [ih _ (SlotInv_slotStep s ev h)]
    cases ev with
    | Insert b =>
      show List.foldl better (top (s.Insert b)) _ = List.foldl better (better (top s) b) _
      rw [top_Insert s b h]
    | Select =>
      show List.foldl better (top s.Select.1) (inserted evs) =
        List.foldl better (top s) (inserted evs)
      rw [top_Select]
    | Complete ok =>
      show List.foldl better (top (s.Complete ok)) (inserted evs) =
        List.foldl better (top s) (inserted evs)
      rw [top_Complete s ok h]

theorem drain_slot {V C : Type} [LinearOrder V] (s : ConflationSlot V C) (h : SlotInv s) :
    (runSlot s drainEvents).state = SlotState.Empty ∧ (runSlot s drainEvents).applied = top s := by
  obtain ⟨st, ap⟩ := s
  cases st with
  | Empty =>
    simp [drainEvents, runSlot, slotStep, ConflationSlot.Complete, ConflationSlot.Select, top]
  | Pending cur =>
    simp [drainEvents, runSlot, slotStep, ConflationSlot.Complete, ConflationSlot.Select, top]
  | InFlight run q =>
    simp only [SlotInv] at h
    obtain ⟨hap, _⟩ := h
    subst hap
    cases q <;>
      simp [drainEvents, runSlot, slotStep, ConflationSlot.Complete, ConflationSlot.Select, top]

/-! ## The newest bundle of a sequence -/

theorem foldl_better_spec {V C : Type} [LinearOrder V] (bs : List (VersionedBundle V C)) :
    ∀ cur : Option (VersionedBundle V C),
      (cur = none → bs = [] → bs.foldl better cur = none) ∧
      (cur ≠ none ∨ bs ≠ [] →
        ∃ m, bs.foldl better cur = some m ∧ (cur = some m ∨ m ∈ bs) ∧
          (∀ c, cur = some c → c.version ≤ m.version) ∧ ∀ b ∈ bs, b.version ≤ m.version) := by
  induction bs with
  | nil =>
    intro cur
    refine ⟨fun h _ => by rw [h]; rfl, ?_⟩
    intro h
    cases cur with
    | none => simp at h
    | some c =>
      exact ⟨c, rfl, Or.inl rfl, fun c' hc' => (by cases hc'; exact le_refl _),
        fun b hb => (by cases hb)⟩
  | cons a bs ih =>
    intro cur
    refine ⟨fun _ h => (by cases h), fun _ => ?_⟩
    have hb : better cur a ≠ none := by
      unfold better
      cases cur with
      | none => simp
      | some c => simp only; split <;> simp
    obtain ⟨m, hm, hmem, hcur, hall⟩ := (ih (better cur a)).2 (Or.inl hb)
    have hbet : ∃ x, better cur a = some x ∧ a.version ≤ x.version ∧
        (∀ c, cur = some c → c.version ≤ x.version) ∧ (cur = some x ∨ x = a) := by
      unfold better
      cases cur with
      | none => exact ⟨a, rfl, le_refl _, fun c hc => (by cases hc), Or.inr rfl⟩
      | some c =>
        by_cases hn : NewerThan a.version c.version = true
        · refine ⟨a, by simp [hn], le_refl _, ?_, Or.inr rfl⟩
          intro c' hc'
          cases hc'
          exact le_of_lt ((NewerThan_iff _ _).1 hn)
        · refine ⟨c, by simp [hn], ?_, fun c' hc' => (by cases hc'; exact le_refl _), Or.inl rfl⟩
          exact (NewerThan_false_iff _ _).1 (by simpa using hn)
    obtain ⟨x, hx, hax, hcx, hxo⟩ := hbet
    have hxm : x.version ≤ m.version := hcur x hx
    refine ⟨m, hm, ?_, fun c hc => le_trans (hcx c hc) hxm, ?_⟩
    · rcases hmem with h | h
      · rw [hx] at h
        cases h
        rcases hxo with h' | h'
        · exact Or.inl h'
        · exact Or.inr (h' ▸ List.mem_cons_self _ _)
      · exact Or.inr (List.mem_cons_of_mem _ h)
    · intro b hb'
      rcases List.mem_cons.1 hb' with h | h
      · subst h; exact le_trans hax hxm
      · exact hall b h

theorem newest_spec {V C : Type} [LinearOrder V] (bs : List (VersionedBundle V C))
    (m : VersionedBundle V C) (h : newest bs = some m) :
    m ∈ bs ∧ ∀ b ∈ bs, b.version ≤ m.version := by
  have hbs : bs ≠ [] := by
    intro h0
    subst h0
    cases h
  obtain ⟨m', hm', hmem, _, hall⟩ := (foldl_better_spec bs none).2 (Or.inr hbs)
  unfold newest at h
  rw [hm'] at h
  cases h
  rcases hmem with h' | h'
  · cases h'
  · exact ⟨h', hall⟩

theorem newest_isSome {V C : Type} [LinearOrder V] (bs : List (VersionedBundle V C))
    (hbs : bs ≠ []) : ∃ m, newest bs = some m := by
  obtain ⟨m, hm, _⟩ := (foldl_better_spec bs none).2 (Or.inr hbs)
  exact ⟨m, hm⟩

/-! ## Conflation slots: results -/

theorem Insert_of_stale {V C : Type} [LinearOrder V] (s : ConflationSlot V C)
    (a b : VersionedBundle V C) (ha : s.applied = some a)
    (h : NewerThan b.version a.version = false) : s.Insert b = s := by
  unfold ConflationSlot.Insert
  rw [if_pos (stale_of_le s a b ha ((NewerThan_false_iff _ _).1 h))]

theorem Insert_of_not_newer_than_buffered {V C : Type} [LinearOrder V] (s : ConflationSlot V C)
    (cur b : VersionedBundle V C) (hc : s.buffered = some cur)
    (h : NewerThan b.version cur.version = false) : s.Insert b = s := by
  obtain ⟨st, ap⟩ := s
  cases st with
  | Empty => simp [ConflationSlot.buffered] at hc
  | Pending c =>
    simp only [ConflationSlot.buffered, Option.some.injEq] at hc
    subst hc
    unfold ConflationSlot.Insert
    simp [h]
  | InFlight run q =>
    simp only [ConflationSlot.buffered] at hc
    subst hc
    unfold ConflationSlot.Insert
    simp [h]

theorem Insert_buffered {V C : Type} [LinearOrder V] (s : ConflationSlot V C)
    (b : VersionedBundle V C) : s.Insert b = s ∨
      ((s.Insert b).buffered = some b ∧ s.staleForApplied b = false ∧
        ∀ cur, s.buffered = some cur → NewerThan b.version cur.version = true) := by
  obtain ⟨st, ap⟩ := s
  by_cases hs : ConflationSlot.staleForApplied ⟨st, ap⟩ b = true
  · left
    unfold ConflationSlot.Insert
    rw [if_pos hs]
  · have hs' : ConflationSlot.staleForApplied ⟨st, ap⟩ b = false := by simpa using hs
    cases st with
    | Empty =>
      right
      unfold ConflationSlot.Insert
      rw [if_neg hs]
      exact ⟨rfl, hs', fun cur hc => by simp [ConflationSlot.buffered] at hc⟩
    | Pending c =>
      by_cases hn : NewerThan b.version c.version = true
      · right
        unfold ConflationSlot.Insert
        rw [if_neg hs]
        simp only [hn, if_true]
        refine ⟨rfl, hs', fun cur hc => ?_⟩
        simp only [ConflationSlot.buffered, Option.some.injEq] at hc
        subst hc
        exact hn
      · left
        unfold ConflationSlot.Insert
        rw [if_neg hs]
        simp [hn]
    | InFlight run q =>
      cases q with
      | none =>
        right
        unfold ConflationSlot.Insert
        rw [if_neg hs]
        exact ⟨rfl, hs', fun cur hc => by simp [ConflationSlot.buffered] at hc⟩
      | some w =>
        by_cases hn : NewerThan b.version w.version = true
        · right
          unfold ConflationSlot.Insert
          rw [if_neg hs]
          simp only [hn, if_true]
          refine ⟨rfl, hs', fun cur hc => ?_⟩
          simp only [ConflationSlot.buffered, Option.some.injEq] at hc
          subst hc
          exact hn
        · left
          unfold ConflationSlot.Insert
          rw [if_neg hs]
          simp [hn]

/-- C3: `Insert` of a bundle whose version is not newer than the applied
version of the slot, or not newer than the version of the bundle buffered in
the slot, leaves the slot as it is, in every slot state; and whenever
`Insert` changes the buffered bundle, the arriving bundle is strictly newer
than the one that was buffered (and newer than the applied one) and is the
one buffered afterwards. -/
theorem Insert_discards_not_newer {V C : Type} [LinearOrder V] (s : ConflationSlot V C)
    (b : VersionedBundle V C) :
    (∀ a, s.applied = some a → NewerThan b.version a.version = false → s.Insert b = s) ∧
    (∀ cur, s.buffered = some cur → NewerThan b.version cur.version = false →
      s.Insert b = s) ∧
    (∀ cur, s.buffered = some cur → (s.Insert b).buffered ≠ some cur →
      NewerThan b.version cur.version = true ∧ (s.Insert b).buffered = some b ∧
      ∀ a, s.applied = some a → NewerThan b.version a.version = true) := by
  refine ⟨fun a ha h => Insert_of_stale s a b ha h,
    fun cur hc h => Insert_of_not_newer_than_buffered s cur b hc h, ?_⟩
  intro cur hc hne
  rcases Insert_buffered s b with h | ⟨h₁, h₂, h₃⟩
  · rw [h] at hne
    exact absurd hc hne
  · refine ⟨h₃ cur hc, h₁, fun a ha => ?_⟩
    rw [NewerThan_iff]
    exact not_stale s b (by simp [h₂]) a ha

/-- Witness of C3: a Pending slot that buffers version 3 discards an arriving
bundle of version 2. -/
theorem Insert_discards_not_newer_witness :
    (⟨SlotState.Pending ⟨3, "three"⟩, none⟩ : ConflationSlot Nat String).Insert ⟨2, "two"⟩ =
      ⟨SlotState.Pending ⟨3, "three"⟩, none⟩ :=
  (Insert_discards_not_newer (⟨SlotState.Pending ⟨3, "three"⟩, none⟩ : ConflationSlot Nat String)
    ⟨2, "two"⟩).2.1 ⟨3, "three"⟩ rfl (by decide)

theorem Insert_of_le_top {V C : Type} [LinearOrder V] (s : ConflationSlot V C)
    (m b : VersionedBundle V C) (h : SlotInv s) (ht : top s = some m)
    (hle : b.version ≤ m.version) : s.Insert b = s := by
  have hnew : NewerThan b.version m.version = false := (NewerThan_false_iff _ _).2 hle
  obtain ⟨st, ap⟩ := s
  cases st with
  | Empty =>
    simp only [top] at ht
    exact Insert_of_stale _ m b ht hnew
  | Pending cur =>
    simp only [top, Option.some.injEq] at ht
    subst ht
    exact Insert_of_not_newer_than_buffered _ cur b rfl hnew
  | InFlight run q =>
    simp only [SlotInv] at h
    cases q with
    | none =>
      simp only [top, Option.some.injEq] at ht
      subst ht
      exact Insert_of_stale _ run b h.1 hnew
    | some w =>
      simp only [top, Option.some.injEq] at ht
      subst ht
      exact Insert_of_not_newer_than_buffered _ w b rfl hnew

theorem applied_runSlot {V C : Type} [LinearOrder V] (evs : List (SlotEvent V C)) :
    ∀ s : ConflationSlot V C, SlotInv s →
      (runSlot s evs).applied =
        match (handled s evs).getLast? with
        | some b => some b
        | none => s.applied := by
  induction evs with
  | nil => intro s _; rfl
  | cons ev evs ih =>
    intro s h
    have ih' := ih _ (SlotInv_slotStep s ev h)
    show (runSlot (slotStep s ev).1 evs).applied =
      match ((slotStep s ev).2.toList ++ handled (slotStep s ev).1 evs).getLast? with
      | some b => some b
      | none => s.applied
    rw [ih']
    cases ev with
    | Insert b =>
      show _ = match ([] ++ handled (s.Insert b) evs).getLast? with
        | some b => some b
        | none => s.applied
      rw [List.nil_append]
      show (match (handled (s.Insert b) evs).getLast? with
        | some b => some b
        | none => (s.Insert b).applied) = _
      rw [Insert_applied]
    | Complete ok =>
      show _ = match ([] ++ handled (s.Complete ok) evs).getLast? with
        | some b => some b
        | none => s.applied
      rw [List.nil_append]
      show (match (handled (s.Complete ok) evs).getLast? with
        | some b => some b
        | none => (s.Complete ok).applied) = _
      rw [Complete_applied]
    | Select =>
      show (match (handled s.Select.1 evs).getLast? with
        | some b => some b
        | none => s.Select.1.applied) =
        match (s.Select.2.toList ++ handled s.Select.1 evs).getLast? with
        | some b => some b
        | none => s.applied
      cases hsel : s.Select.2 with
      | none =>
        rw [Select_none s hsel]
        rfl
      | some b =>
        rw [(Select_some s b hsel h).2.1]
        show _ = match (b :: handled _ evs).getLast? with
          | some b => some b
          | none => s.applied
        rw [List.getLast?_cons]
        cases (handled ({ state := SlotState.InFlight b none, applied := some b } :
          ConflationSlot V C) evs).getLast? <;> rfl

theorem newest_three {V C : Type} [LinearOrder V] (b₁ b₃ b₂ : VersionedBundle V C)
    (h₁₂ : b₁.version < b₂.version) (h₂₃ : b₂.version < b₃.version) :
    newest [b₁, b₃, b₂] = some b₃ := by
  have h₁₃ : NewerThan b₃.version b₁.version = true := (NewerThan_iff _ _).2 (lt_trans h₁₂ h₂₃)
  have h₂ : NewerThan b₂.version b₃.version = false := (NewerThan_false_iff _ _).2 (le_of_lt h₂₃)
  simp [newest, better, h₁₃, h₂]

/-- C2: for every sequence of events on one slot (deliveries in any order and
with any duplication, interleaved in any way with selections and
completions), once the dispatcher has finished the work of the slot, the
slot is Empty and the bundle applied last, which is the last bundle handed
to the handler, is the first bundle with the maximum version among the
delivered ones. For deliveries of versions v1, v3, v2 with v1 < v2 < v3, in
that order, the bundle applied last is the one of v3; and a bundle that
arrives after a bundle of the same or a newer version has been delivered
leaves the slot as it is. -/
theorem conflation_converges {V C : Type} [LinearOrder V] (evs : List (SlotEvent V C)) :
    (runSlot ConflationSlot.init (evs ++ drainEvents)).state = SlotState.Empty ∧
    (runSlot ConflationSlot.init (evs ++ drainEvents)).applied = newest (inserted evs) ∧
    (handled ConflationSlot.init (evs ++ drainEvents)).getLast? = newest (inserted evs) ∧
    (inserted evs ≠ [] → ∃ m, newest (inserted evs) = some m) ∧
    (∀ m, newest (inserted evs) = some m →
      m ∈ inserted evs ∧ ∀ b ∈ inserted evs, b.version ≤ m.version) ∧
    (∀ b₁ b₃ b₂ : VersionedBundle V C, b₁.version < b₂.version → b₂.version < b₃.version →
      inserted evs = [b₁, b₃, b₂] →
      (runSlot ConflationSlot.init (evs ++ drainEvents)).applied = some b₃) ∧
    (∀ (later : List (SlotEvent V C)) (b₃ b₂ : VersionedBundle V C),
      b₂.version ≤ b₃.version →
      runSlot ConflationSlot.init (evs ++ [SlotEvent.Insert b₃] ++ later ++ [SlotEvent.Insert b₂]) =
        runSlot ConflationSlot.init (evs ++ [SlotEvent.Insert b₃] ++ later)) := by
  have hinv := SlotInv_runSlot evs (ConflationSlot.init : ConflationSlot V C) SlotInv_init
  have htop : top (runSlot (ConflationSlot.init : ConflationSlot V C) evs) =
      newest (inserted evs) := top_runSlot evs _ SlotInv_init
  have hdrain := drain_slot _ hinv
  have happ : (runSlot ConflationSlot.init (evs ++ drainEvents)).applied =
      newest (inserted evs) := by
    rw [runSlot_append, hdrain.2, htop]
  refine ⟨?_, happ, ?_, newest_isSome _, newest_spec _, ?_, ?_⟩
  · rw [runSlot_append]
    exact hdrain.1
  · have h := applied_runSlot (evs ++ drainEvents) (ConflationSlot.init : ConflationSlot V C)
      SlotInv_init
    rw [happ] at h
    cases hl : (handled (ConflationSlot.init : ConflationSlot V C)
        (evs ++ drainEvents)).getLast? with
    | none => rw [hl] at h; exact h.symm
    | some b => rw [hl] at h; exact h.symm
  · intro b₁ b₃ b₂ h₁₂ h₂₃ hins
    rw [happ, hins]
    exact newest_three b₁ b₃ b₂ h₁₂ h₂₃
  · intro later b₃ b₂ hle
    rw [runSlot_append _ [SlotEvent.Insert b₂]]
    have hinv' := SlotInv_runSlot (evs ++ [SlotEvent.Insert b₃] ++ later)
      (ConflationSlot.init : ConflationSlot V C) SlotInv_init
    have htop' : top (runSlot (ConflationSlot.init : ConflationSlot V C)
        (evs ++ [SlotEvent.Insert b₃] ++ later)) =
        newest (inserted (evs ++ [SlotEvent.Insert b₃] ++ later)) :=
      top_runSlot _ _ SlotInv_init
    have hmem : b₃ ∈ inserted (evs ++ [SlotEvent.Insert b₃] ++ later) := by
      rw [inserted_append, inserted_append]
      simp [inserted]
    obtain ⟨m, hm⟩ := newest_isSome _ (List.ne_nil_of_mem hmem)
    have hmax := (newest_spec _ m hm).2 b₃ hmem
    rw [hm] at htop'
    exact Insert_of_le_top _ m b₂ hinv' htop' (le_trans hle hmax)

/-- Witness of C2: versions 1, 3, 2 delivered in that order, version 1 being
handled before the others arrive: the bundle applied last is the one of
version 3. -/
theorem conflation_converges_witness :
    (runSlot ConflationSlot.init
      ([SlotEvent.Insert (⟨1, "one"⟩ : VersionedBundle Nat String), SlotEvent.Select,
        SlotEvent.Complete true, SlotEvent.Insert ⟨3, "three"⟩, SlotEvent.Select,
        SlotEvent.Insert ⟨2, "two"⟩] ++ drainEvents)).applied = some ⟨3, "three"⟩ :=
  (conflation_converges
    [SlotEvent.Insert (⟨1, "one"⟩ : VersionedBundle Nat String), SlotEvent.Select,
      SlotEvent.Complete true, SlotEvent.Insert ⟨3, "three"⟩, SlotEvent.Select,
      SlotEvent.Insert ⟨2, "two"⟩]).2.2.2.2.2.1 ⟨1, "one"⟩ ⟨3, "three"⟩ ⟨2, "two"⟩
    (by decide) (by decide) rfl

/-! ## The dispatcher: lemmas -/

theorem Insert_InFlight {V C : Type} [LinearOrder V] (s : ConflationSlot V C)
    (b r : VersionedBundle V C) (q : Option (VersionedBundle V C))
    (h : s.state = SlotState.InFlight r q) :
    ∃ q', (s.Insert b).state = SlotState.InFlight r q' := by
  obtain ⟨st, ap⟩ := s
  simp only at h
  subst h
  unfold ConflationSlot.Insert
  split
  · exact ⟨q, rfl⟩
  · cases q with
    | none => exact ⟨some b, rfl⟩
    | some w =>
      simp only
      split
      · exact ⟨some b, rfl⟩
      · exact ⟨some w, rfl⟩

theorem DispatcherInv_init {K V C : Type} [LinearOrder V] (poolSize : Nat) :
    DispatcherInv (Dispatcher.init poolSize : Dispatcher K V C) := by
  refine ⟨fun _ => SlotInv_init, ?_, ?_⟩
  · intro w k b h
    simp [Dispatcher.init] at h
  · intro w₁ w₂ k b₁ b₂ h
    simp [Dispatcher.init] at h

theorem DispatcherInv_Route {K V C : Type} [DecidableEq K] [LinearOrder V]
    (d : Dispatcher K V C) (k : K) (b : VersionedBundle V C) (h : DispatcherInv d) :
    DispatcherInv (d.step (DispatcherEvent.Route k b)).1 := by
  obtain ⟨h₁, h₂, h₃⟩ := h
  simp only [Dispatcher.step]
  refine ⟨?_, ?_, h₃⟩
  · intro k'
    by_cases hk : k' = k
    · subst hk
      simp only [Function.update_same]
      exact SlotInv_Insert _ b (h₁ k')
    · simp only [Function.update_noteq hk]
      exact h₁ k'
  · intro w k' b' hw
    obtain ⟨q, hq⟩ := h₂ w k' b' hw
    by_cases hk : k' = k
    · subst hk
      simp only [Function.update_same]
      exact Insert_InFlight _ b b' q hq
    · simp only [Function.update_noteq hk]
      exact ⟨q, hq⟩

theorem DispatcherInv_set_worker {K V C : Type} [LinearOrder V]
    (d : Dispatcher K V C) (w : Nat) (st : WorkerState K V C)
    (hst : ∀ k b, st ≠ WorkerState.Running k b) (h : DispatcherInv d) :
    DispatcherInv { d with workers := Function.update d.workers w st } := by
  obtain ⟨h₁, h₂, h₃⟩ := h
  refine ⟨h₁, ?_, ?_⟩
  · intro w' k b hw
    by_cases hww : w' = w
    · subst hww
      simp only [Function.update_same] at hw
      exact absurd hw (hst k b)
    · simp only [Function.update_noteq hww] at hw
      exact h₂ w' k b hw
  · intro w₁ w₂ k b₁ b₂ hw₁ hw₂
    by_cases hww₁ : w₁ = w
    · subst hww₁
      simp only [Function.update_same] at hw₁
      exact absurd hw₁ (hst k b₁)
    · by_cases hww₂ : w₂ = w
      · subst hww₂
        simp only [Function.update_same] at hw₂
        exact absurd hw₂ (hst k b₂)
      · simp only [Function.update_noteq hww₁] at hw₁
        simp only [Function.update_noteq hww₂] at hw₂
        exact h₃ w₁ w₂ k b₁ b₂ hw₁ hw₂

theorem DispatcherInv_NextReady {K V C : Type} [DecidableEq K] [LinearOrder V]
    (d : Dispatcher K V C) (w : Nat) (k : K) (h : DispatcherInv d) :
    DispatcherInv (d.step (DispatcherEvent.NextReady w k)).1 := by
  simp only [Dispatcher.step]
  split
  · split
    · exact DispatcherInv_set_worker d w _ (fun _ _ hc => by cases hc) h
    · exact h
  · exact h

theorem step_Select_some {K V C : Type} [DecidableEq K] [LinearOrder V]
    (d : Dispatcher K V C) (w : Nat) (k : K) (b : VersionedBundle V C)
    (hw : d.workers w = WorkerState.Chosen k) (hsel : (d.slots k).Select.2 = some b) :
    d.step (DispatcherEvent.Select w) =
      ({ d with slots := Function.update d.slots k (d.slots k).Select.1
                workers := Function.update d.workers w (WorkerState.Running k b) },
        some (k, b)) := by
  simp only [Dispatcher.step, hw]
  cases hs : (d.slots k).Select with
  | mk s' o =>
    rw [hs] at hsel
    simp only at hsel
    subst hsel
    rfl

theorem step_Select_none {K V C : Type} [DecidableEq K] [LinearOrder V]
    (d : Dispatcher K V C) (w : Nat) (k : K)
    (hw : d.workers w = WorkerState.Chosen k) (hsel : (d.slots k).Select.2 = none) :
    d.step (DispatcherEvent.Select w) =
      ({ d with workers := Function.update d.workers w WorkerState.Idle }, none) := by
  simp only [Dispatcher.step, hw]
  cases hs : (d.slots k).Select with
  | mk s' o =>
    rw [hs] at hsel
    simp only at hsel
    subst hsel
    rfl

theorem step_Select_other {K V C : Type} [DecidableEq K] [LinearOrder V]
    (d : Dispatcher K V C) (w : Nat) (hw : ∀ k, d.workers w ≠ WorkerState.Chosen k) :
    d.step (DispatcherEvent.Select w) = (d, none) := by
  cases hst : d.workers w with
  | Idle => simp only [Dispatcher.step, hst]
  | Chosen k => exact absurd hst (hw k)
  | Running k b => simp only [Dispatcher.step, hst]

theorem step_Complete_running {K V C : Type} [DecidableEq K] [LinearOrder V]
    (d : Dispatcher K V C) (w : Nat) (ok : Bool) (k : K) (b : VersionedBundle V C)
    (hw : d.workers w = WorkerState.Running k b) :
    d.step (DispatcherEvent.Complete w ok) =
      ({ d with slots := Function.update d.slots k ((d.slots k).Complete ok)
                workers := Function.update d.workers w WorkerState.Idle }, none) := by
  simp only [Dispatcher.step, hw]

theorem step_Complete_other {K V C : Type} [DecidableEq K] [LinearOrder V]
    (d : Dispatcher K V C) (w : Nat) (ok : Bool)
    (hw : ∀ k b, d.workers w ≠ WorkerState.Running k b) :
    d.step (DispatcherEvent.Complete w ok) = (d, none) := by
  cases hst : d.workers w with
  | Idle => simp only [Dispatcher.step, hst]
  | Chosen k => simp only [Dispatcher.step, hst]
  | Running k b => exact absurd hst (hw k b)

theorem DispatcherInv_Select {K V C : Type} [DecidableEq K] [LinearOrder V]
    (d : Dispatcher K V C) (w : Nat) (h : DispatcherInv d) :
    DispatcherInv (d.step (DispatcherEvent.Select w)).1 := by
  by_cases hc : ∃ k, d.workers w = WorkerState.Chosen k
  · obtain ⟨k, hw⟩ := hc
    cases hsel : (d.slots k).Select.2 with
    | none =>
      rw [step_Select_none d w k hw hsel]
      exact DispatcherInv_set_worker d w _ (fun _ _ hc => by cases hc) h
    | some b =>
      rw [step_Select_some d w k b hw hsel]
      obtain ⟨h₁, h₂, h₃⟩ := h
      obtain ⟨hpen, hnew, _⟩ := Select_some (d.slots k) b hsel (h₁ k)
      have hfree : ∀ w' b', d.workers w' ≠ WorkerState.Running k b' := by
        intro w' b' hw'
        obtain ⟨q, hq⟩ := h₂ w' k b' hw'
        rw [hpen] at hq
        cases hq
      refine ⟨?_, ?_, ?_⟩
      · intro k'
        by_cases hk : k' = k
        · subst hk
          simp only [Function.update_same]
          exact SlotInv_Select _ (h₁ k')
        · simp only [Function.update_noteq hk]
          exact h₁ k'
      · intro w' k' b' hw'
        by_cases hww : w' = w
        · subst hww
          simp only [Function.update_same, WorkerState.Running.injEq] at hw'
          obtain ⟨hk, hb⟩ := hw'
          subst hk hb
          simp only [Function.update_same]
          rw [hnew]
          exact ⟨none, rfl⟩
        · simp only [Function.update_noteq hww] at hw'
          by_cases hk : k' = k
          · subst hk
            exact absurd hw' (hfree w' b')
          · simp only [Function.update_noteq hk]
            exact h₂ w' k' b' hw'
      · intro w₁ w₂ k' b₁ b₂ hw₁ hw₂
        by_cases hww₁ : w₁ = w
        · by_cases hww₂ : w₂ = w
          · rw [hww₁, hww₂]
          · subst hww₁
            simp only [Function.update_same, WorkerState.Running.injEq] at hw₁
            simp only [Function.update_noteq hww₂] at hw₂
            rw [← hw₁.1] at hw₂
            exact absurd hw₂ (hfree w₂ b₂)
        · by_cases hww₂ : w₂ = w
          · subst hww₂
            simp only [Function.update_same, WorkerState.Running.injEq] at hw₂
            simp only [Function.update_noteq hww₁] at hw₁
            rw [← hw₂.1] at hw₁
            exact absurd hw₁ (hfree w₁ b₁)
          · simp only [Function.update_noteq hww₁] at hw₁
            simp only [Function.update_noteq hww₂] at hw₂
            exact h₃ w₁ w₂ k' b₁ b₂ hw₁ hw₂
  · rw [step_Select_other d w (fun k hk => hc ⟨k, hk⟩)]
    exact h

theorem DispatcherInv_Complete {K V C : Type} [DecidableEq K] [LinearOrder V]
    (d : Dispatcher K V C) (w : Nat) (ok : Bool) (h : DispatcherInv d) :
    DispatcherInv (d.step (DispatcherEvent.Complete w ok)).1 := by
  by_cases hc : ∃ k b, d.workers w = WorkerState.Running k b
  · obtain ⟨k, b, hw⟩ := hc
    rw [step_Complete_running d w ok k b hw]
    obtain ⟨h₁, h₂, h₃⟩ := h
    refine ⟨?_, ?_, ?_⟩
    · intro k'
      by_cases hk : k' = k
      · subst hk
        simp only [Function.update_same]
        exact SlotInv_Complete _ ok (h₁ k')
      · simp only [Function.update_noteq hk]
        exact h₁ k'
    · intro w' k' b' hw'
      by_cases hww : w' = w
      · subst hww
        simp only [Function.update_same] at hw'
        cases hw'
      · simp only [Function.update_noteq hww] at hw'
        by_cases hk : k' = k
        · subst hk
          exact absurd (h₃ w' w k' b' b hw' hw) hww
        · simp only [Function.update_noteq hk]
          exact h₂ w' k' b' hw'
    · intro w₁ w₂ k' b₁ b₂ hw₁ hw₂
      by_cases hww₁ : w₁ = w
      · subst hww₁
        simp only [Function.update_same] at hw₁
        cases hw₁
      · by_cases hww₂ : w₂ = w
        · subst hww₂
          simp only [Function.update_same] at hw₂
          cases hw₂
        · simp only [Function.update_noteq hww₁] at hw₁
          simp only [Function.update_noteq hww₂] at hw₂
          exact h₃ w₁ w₂ k' b₁ b₂ hw₁ hw₂
  · rw [step_Complete_other d w ok (fun k b hk => hc ⟨k, b, hk⟩)]
    exact h

theorem DispatcherInv_step {K V C : Type} [DecidableEq K] [LinearOrder V]
    (d : Dispatcher K V C) (ev : DispatcherEvent K V C) (h : DispatcherInv d) :
    DispatcherInv (d.step ev).1 := by
  cases ev with
  | Route k b => exact DispatcherInv_Route d k b h
  | NextReady w k => exact DispatcherInv_NextReady d w k h
  | Select w => exact DispatcherInv_Select d w h
  | Complete w ok => exact DispatcherInv_Complete d w ok h

theorem DispatcherInv_run {K V C : Type} [DecidableEq K] [LinearOrder V]
    (evs : List (DispatcherEvent K V C)) :
    ∀ d : Dispatcher K V C, DispatcherInv d → DispatcherInv (runDispatcher d evs) := by
  induction evs with
  | nil => intro d h; exact h
  | cons ev evs ih => intro d h; exact ih _ (DispatcherInv_step d ev h)

theorem step_out {K V C : Type} [DecidableEq K] [LinearOrder V]
    (d : Dispatcher K V C) (ev : DispatcherEvent K V C) (h : DispatcherInv d) (k : K) :
    ((d.step ev).2 = none ∧ ((d.step ev).1.slots k).applied = (d.slots k).applied) ∨
    (∃ k' b, (d.step ev).2 = some (k', b) ∧ k' ≠ k ∧
      ((d.step ev).1.slots k).applied = (d.slots k).applied) ∨
    (∃ b, (d.step ev).2 = some (k, b) ∧ ((d.step ev).1.slots k).applied = some b ∧
      ∀ a, (d.slots k).applied = some a → a.version < b.version) := by
  cases ev with
  | Route k₀ b =>
    left
    refine ⟨rfl, ?_⟩
    simp only [Dispatcher.step]
    by_cases hk : k = k₀
    · subst hk
      simp only [Function.update_same]
      exact Insert_applied _ b
    · simp only [Function.update_noteq hk]
  | NextReady w k₀ =>
    left
    simp only [Dispatcher.step]
    split
    · split <;> exact ⟨rfl, rfl⟩
    · exact ⟨rfl, rfl⟩
  | Select w =>
    by_cases hc : ∃ k₀, d.workers w = WorkerState.Chosen k₀
    · obtain ⟨k₀, hw⟩ := hc
      cases hsel : (d.slots k₀).Select.2 with
      | none =>
        left
        rw [step_Select_none d w k₀ hw hsel]
        exact ⟨rfl, rfl⟩
      | some b =>
        right
        rw [step_Select_some d w k₀ b hw hsel]
        obtain ⟨_, hnew, hlt⟩ := Select_some (d.slots k₀) b hsel (h.1 k₀)
        by_cases hk : k = k₀
        · right
          subst hk
          refine ⟨b, rfl, ?_, hlt⟩
          simp only [Function.update_same]
          rw [hnew]
        · left
          refine ⟨k₀, b, rfl, fun hc => hk hc.symm, ?_⟩
          simp only [Function.update_noteq hk]
    · left
      rw [step_Select_other d w (fun k₀ hk => hc ⟨k₀, hk⟩)]
      exact ⟨rfl, rfl⟩
  | Complete w ok =>
    left
    by_cases hc : ∃ k₀ b, d.workers w = WorkerState.Running k₀ b
    · obtain ⟨k₀, b, hw⟩ := hc
      rw [step_Complete_running d w ok k₀ b hw]
      refine ⟨rfl, ?_⟩
      by_cases hk : k = k₀
      · subst hk
        simp only [Function.update_same]
        exact Complete_applied _ ok
      · simp only [Function.update_noteq hk]
    · rw [step_Complete_other d w ok (fun k₀ b hk => hc ⟨k₀, b, hk⟩)]
      exact ⟨rfl, rfl⟩

theorem versionsSeen_increasing {K V C : Type} [DecidableEq K] [LinearOrder V]
    (evs : List (DispatcherEvent K V C)) (k : K) :
    ∀ d : Dispatcher K V C, DispatcherInv d →
      (∀ v ∈ versionsSeen k (invocations d evs),
        ∀ a, (d.slots k).applied = some a → a.version < v) ∧
      (versionsSeen k (invocations d evs)).Pairwise (fun x y => x < y) := by
  induction evs with
  | nil =>
    intro d _
    exact ⟨fun v hv => (by cases hv), List.Pairwise.nil⟩
  | cons ev evs ih =>
    intro d h
    obtain ⟨ih₁, ih₂⟩ := ih _ (DispatcherInv_step d ev h)
    have hinv : invocations d (ev :: evs) =
        (d.step ev).2.toList ++ invocations (d.step ev).1 evs := rfl
    rcases step_out d ev h k with ⟨hnone, happ⟩ | ⟨k', b, hsome, hk, happ⟩ | ⟨b, hsome, happ, hlt⟩
    · rw [hinv, hnone]
      rw [happ] at ih₁
      exact ⟨ih₁, ih₂⟩
    · have hvs : versionsSeen k (invocations d (ev :: evs)) =
          versionsSeen k (invocations (d.step ev).1 evs) := by
        rw [hinv, hsome]
        simp [versionsSeen, List.filter_cons, hk]
      rw [hvs]
      rw [happ] at ih₁
      exact ⟨ih₁, ih₂⟩
    · have hvs : versionsSeen k (invocations d (ev :: evs)) =
          b.version :: versionsSeen k (invocations (d.step ev).1 evs) := by
        rw [hinv, hsome]
        simp [versionsSeen, List.filter_cons]
      rw [hvs]
      have hrest : ∀ v ∈ versionsSeen k (invocations (d.step ev).1 evs), b.version < v :=
        fun v hv => ih₁ v hv b happ
      refine ⟨?_, List.Pairwise.cons hrest ih₂⟩
      intro v hv a ha
      rcases List.mem_cons.1 hv with hvb | hvr
      · rw [hvb]
        exact hlt a ha
      · exact lt_trans (hlt a ha) (hrest v hvr)

theorem length_le_one_of_all_eq {α : Type} (l : List α) (hn : l.Nodup)
    (h : ∀ x ∈ l, ∀ y ∈ l, x = y) : l.length ≤ 1 := by
  cases l with
  | nil => exact Nat.zero_le _
  | cons a t =>
    cases t with
    | nil => exact Nat.le_refl _
    | cons b t' =>
      have hab : a = b := h a (List.mem_cons_self _ _) b
        (List.mem_cons_of_mem _ (List.mem_cons_self _ _))
      rw [List.nodup_cons] at hn
      exact absurd (hab ▸ List.mem_cons_self _ _) hn.1

theorem activeCount_le_one {K V C : Type} [DecidableEq K] [LinearOrder V]
    (d : Dispatcher K V C) (k : K) (h : DispatcherInv d) : activeCount d k ≤ 1 := by
  unfold activeCount
  apply length_le_one_of_all_eq
  · exact List.Nodup.filter _ (List.nodup_range _)
  · intro x hx y hy
    have hx' := (List.mem_filter.1 hx).2
    have hy' := (List.mem_filter.1 hy).2
    cases hwx : d.workers x with
    | Idle => rw [hwx] at hx'; cases hx'
    | Chosen _ => rw [hwx] at hx'; cases hx'
    | Running kx bx =>
      cases hwy : d.workers y with
      | Idle => rw [hwy] at hy'; cases hy'
      | Chosen _ => rw [hwy] at hy'; cases hy'
      | Running ky b_y =>
        rw [hwx] at hx'
        rw [hwy] at hy'
        have hkx : kx = k := of_decide_eq_true hx'
        have hky : ky = k := of_decide_eq_true hy'
        subst hkx hky
        exact h.2.2 x y _ bx b_y hwx hwy

/-! ## The dispatcher: results -/

/-- C4: in every state the dispatcher reaches from its start, for every pool
size and every (source, bundle-type) pair, at most one worker is running the
handler for the pair: two workers that run it for the same pair are the same
worker, and the worker runs it on the bundle the slot has in flight; and the
versions the handler is given for the pair, in order of invocation, are
strictly increasing. -/
theorem dispatcher_one_invocation_per_pair {K V C : Type} [DecidableEq K] [LinearOrder V]
    (poolSize : Nat) (evs : List (DispatcherEvent K V C)) (k : K) :
    activeCount (runDispatcher (Dispatcher.init poolSize) evs) k ≤ 1 ∧
    (∀ w₁ w₂ b₁ b₂,
      (runDispatcher (Dispatcher.init poolSize) evs).workers w₁ = WorkerState.Running k b₁ →
      (runDispatcher (Dispatcher.init poolSize) evs).workers w₂ = WorkerState.Running k b₂ →
      w₁ = w₂) ∧
    (∀ w b,
      (runDispatcher (Dispatcher.init poolSize) evs).workers w = WorkerState.Running k b →
      ∃ q, ((runDispatcher (Dispatcher.init poolSize) evs).slots k).state =
        SlotState.InFlight b q) ∧
    (versionsSeen k (invocations (Dispatcher.init poolSize) evs)).Pairwise
      (fun x y => x < y) := by
  have hinv := DispatcherInv_run evs (Dispatcher.init poolSize : Dispatcher K V C)
    (DispatcherInv_init poolSize)
  exact ⟨activeCount_le_one _ k hinv, fun w₁ w₂ b₁ b₂ h₁ h₂ => hinv.2.2 w₁ w₂ k b₁ b₂ h₁ h₂,
    fun w b hw => hinv.2.1 w k b hw,
    (versionsSeen_increasing evs k _ (DispatcherInv_init poolSize)).2⟩

/-! ## The statements of `CreateInBatches` -/

theorem batchesAux_mem {α : Type} (n : Nat) (hn : 0 < n) :
    ∀ (fuel : Nat) (rows : List α), ∀ c ∈ batchesAux n fuel rows, c ≠ [] ∧ c.length ≤ n := by
  intro fuel
  induction fuel with
  | zero => intro rows c hc; cases hc
  | succ fuel ih =>
    intro rows c hc
    unfold batchesAux at hc
    cases rows with
    | nil => cases hc
    | cons a rs =>
      simp only [List.isEmpty_cons, Bool.false_eq_true, if_false] at hc
      rcases List.mem_cons.1 hc with h | h
      · subst h
        constructor
        · cases n with
          | zero => exact absurd hn (Nat.lt_irrefl 0)
          | succ m => simp
        · exact List.length_take_le _ _
      · exact ih _ c h

theorem batchesAux_dropLast {α : Type} (n : Nat) :
    ∀ (fuel : Nat) (rows : List α), ∀ c ∈ (batchesAux n fuel rows).dropLast, c.length = n := by
  intro fuel
  induction fuel with
  | zero => intro rows c hc; cases hc
  | succ fuel ih =>
    intro rows c hc
    unfold batchesAux at hc
    cases rows with
    | nil => cases hc
    | cons a rs =>
      simp only [List.isEmpty_cons, Bool.false_eq_true, if_false] at hc
      cases hrest : batchesAux n fuel (List.drop n (a :: rs)) with
      | nil =>
        rw [hrest] at hc
        cases hc
      | cons c' cs =>
        rw [hrest, List.dropLast_cons₂] at hc
        rcases List.mem_cons.1 hc with h | h
        · subst h
          have hne : List.drop n (a :: rs) ≠ [] := by
            intro h0
            rw [h0] at hrest
            cases fuel <;> simp [batchesAux] at hrest
          have hlt : n < (a :: rs).length := by
            by_contra hge
            exact hne (List.drop_eq_nil_of_le (Nat.le_of_not_lt hge))
          rw [List.length_take]
          exact Nat.min_eq_left (Nat.le_of_lt hlt)
        · apply ih (List.drop n (a :: rs)) c
          rw [hrest]
          exact h

theorem runBatches_ok (g : Storage) (bs : List (List LocalClusterPolicyEvent)) :
    ∀ (i : Nat) (t : EventTable), (runBatches g i t bs).1 = none →
      (runBatches g i t bs).2 = bs.foldl execInsert t := by
  induction bs with
  | nil => intro i t _; rfl
  | cons b bs ih =>
    intro i t hok
    unfold runBatches at hok ⊢
    cases hE : g.stmtError i with
    | some e => rw [hE] at hok; cases hok
    | none =>
      rw [hE] at hok
      exact ih (i + 1) _ hok

theorem CreateInBatches_ok (g : Storage) (t : EventTable)
    (rows : List LocalClusterPolicyEvent) (n : Nat)
    (hok : (CreateInBatches g t rows n).1 = none) :
    (CreateInBatches g t rows n).2 = (batches n rows).foldl execInsert t := by
  unfold CreateInBatches at hok ⊢
  simp only at hok ⊢
  split
  · rename_i hc
    rw [if_pos hc] at hok
    exact runBatches_ok g _ 0 t hok
  · rename_i hc
    rw [if_neg hc] at hok
    cases hr : (runBatches g 0 t (batches n rows)).1 with
    | some e => rw [hr] at hok; cases hok
    | none => exact runBatches_ok g _ 0 t hr

/-! ## Go maps as association lists: lemmas -/

theorem mapGet_mapSet_same {β : Type} (m : List (String × β)) (k : String) (v : β) :
    mapGet (mapSet m k v) k = some v := by
  induction m with
  | nil => simp [mapSet, mapGet]
  | cons p rest ih =>
    obtain ⟨k', v'⟩ := p
    by_cases h : k' = k
    · simp [mapSet, mapGet, h]
    · simp [mapSet, mapGet, h, ih]

theorem mapGet_mapSet_other {β : Type} (m : List (String × β)) (k k' : String) (v : β)
    (h : k' ≠ k) : mapGet (mapSet m k v) k' = mapGet m k' := by
  induction m with
  | nil => simp [mapSet, mapGet, Ne.symm h]
  | cons p rest ih =>
    obtain ⟨k₀, v₀⟩ := p
    by_cases h₀ : k₀ = k
    · subst h₀
      simp [mapSet, mapGet, Ne.symm h]
    · by_cases h₁ : k₀ = k'
      · subst h₁
        simp [mapSet, mapGet, h₀]
      · simp [mapSet, mapGet, h₀, h₁, ih]

theorem mapSet_keys_of_mem {β : Type} (m : List (String × β)) (k : String) (v : β)
    (h : k ∈ m.map Prod.fst) : (mapSet m k v).map Prod.fst = m.map Prod.fst := by
  induction m with
  | nil => cases h
  | cons p rest ih =>
    obtain ⟨k₀, v₀⟩ := p
    by_cases h₀ : k₀ = k
    · subst h₀
      simp [mapSet]
    · have hr : k ∈ rest.map Prod.fst := by
        rcases List.mem_cons.1 h with h' | h'
        · exact absurd h'.symm h₀
        · exact h'
      simp [mapSet, h₀, ih hr]

theorem mapSet_keys_of_not_mem {β : Type} (m : List (String × β)) (k : String) (v : β)
    (h : k ∉ m.map Prod.fst) : (mapSet m k v).map Prod.fst = m.map Prod.fst ++ [k] := by
  induction m with
  | nil => rfl
  | cons p rest ih =>
    obtain ⟨k₀, v₀⟩ := p
    have h₀ : k₀ ≠ k := fun e => h (by simp [e])
    have hr : k ∉ rest.map Prod.fst := fun e => h (List.mem_cons_of_mem _ e)
    simp [mapSet, h₀, ih hr]

theorem mapGet_isSome_iff {β : Type} (m : List (String × β)) (k : String) :
    (∃ v, mapGet m k = some v) ↔ k ∈ m.map Prod.fst := by
  induction m with
  | nil => simp [mapGet]
  | cons p rest ih =>
    obtain ⟨k₀, v₀⟩ := p
    by_cases h₀ : k₀ = k
    · simp [mapGet, h₀]
    · have h₁ : ¬ k = k₀ := fun e => h₀ e.symm
      simp [mapGet, h₀, h₁, ih]

theorem mapGet_eq_none_iff {β : Type} (m : List (String × β)) (k : String) :
    mapGet m k = none ↔ k ∉ m.map Prod.fst := by
  rw [← mapGet_isSome_iff]
  cases mapGet m k <;> simp

theorem mapSet_keys_nodup {β : Type} (m : List (String × β)) (k : String) (v : β)
    (h : (m.map Prod.fst).Nodup) : ((mapSet m k v).map Prod.fst).Nodup := by
  by_cases hk : k ∈ m.map Prod.fst
  · rw [mapSet_keys_of_mem m k v hk]
    exact h
  · rw [mapSet_keys_of_not_mem m k v hk]
    refine List.Nodup.append h (List.nodup_singleton _) ?_
    intro x hx hx'
    rw [List.mem_singleton] at hx'
    exact hk (hx' ▸ hx)

theorem mapGet_eq_some_of_mem {β : Type} (m : List (String × β)) (k : String) (v : β)
    (hn : (m.map Prod.fst).Nodup) (h : (k, v) ∈ m) : mapGet m k = some v := by
  induction m with
  | nil => cases h
  | cons p rest ih =>
    obtain ⟨k₀, v₀⟩ := p
    rw [List.map_cons, List.nodup_cons] at hn
    rcases List.mem_cons.1 h with h' | h'
    · cases h'
      simp [mapGet]
    · have h₀ : k₀ ≠ k := by
        intro e
        subst e
        exact hn.1 (List.mem_map.2 ⟨(k₀, v), h', rfl⟩)
      simp [mapGet, h₀, ih hn.2 h']

theorem mem_of_mapGet_eq_some {β : Type} (m : List (String × β)) (k : String) (v : β)
    (h : mapGet m k = some v) : (k, v) ∈ m := by
  induction m with
  | nil => simp [mapGet] at h
  | cons p rest ih =>
    obtain ⟨k₀, v₀⟩ := p
    by_cases h₀ : k₀ = k
    · subst h₀
      simp [mapGet] at h
      subst h
      exact List.mem_cons_self _ _
    · simp [mapGet, h₀] at h
      exact List.mem_cons_of_mem _ (ih h)

/-! ## Statistics counters: lemmas -/

theorem wrapInt64_of_range (x : Int) (h₁ : -9223372036854775808 ≤ x)
    (h₂ : x < 9223372036854775808) : wrapInt64 x = x := by
  unfold wrapInt64
  omega

theorem mapGet_foldl_new (types : List String) :
    ∀ (m : List (String × bundleMetrics)) (t : String),
      mapGet (types.foldl (fun m bundleType => mapSet m bundleType newBundleMetrics) m) t =
        if t ∈ types then some newBundleMetrics else mapGet m t := by
  induction types with
  | nil => intro m t; simp
  | cons a rest ih =>
    intro m t
    rw [List.foldl_cons, ih]
    by_cases hr : t ∈ rest
    · simp [hr]
    · by_cases ha : t = a
      · subst ha
        simp [hr, mapGet_mapSet_same]
      · simp [hr, ha, mapGet_mapSet_other _ _ _ _ ha]

theorem NewStatistics_registered (cfg : StatisticsConfig) (types : List String) (t : String) :
    mapGet (NewStatistics cfg types).bundleMetrics t =
      if t ∈ types then some newBundleMetrics else none := by
  unfold NewStatistics
  simp only
  rw [mapGet_foldl_new]
  rfl

theorem Increment_found (gbt : ManagerBundle → String) (s : Statistics) (b : ManagerBundle)
    (m : bundleMetrics) (h : mapGet s.bundleMetrics (gbt b) = some m) :
    s.IncrementNumberOfReceivedBundles gbt b =
      { s with bundleMetrics := mapSet s.bundleMetrics (gbt b)
                { m with totalReceived := wrapInt64 (m.totalReceived + 1) } } := by
  unfold Statistics.IncrementNumberOfReceivedBundles
  rw [h]

theorem Increment_not_found (gbt : ManagerBundle → String) (s : Statistics) (b : ManagerBundle)
    (h : mapGet s.bundleMetrics (gbt b) = none) :
    s.IncrementNumberOfReceivedBundles gbt b = s := by
  unfold Statistics.IncrementNumberOfReceivedBundles
  rw [h]

theorem incrementTimes_counts (gbt : ManagerBundle → String) (b : ManagerBundle) (n : Nat) :
    ∀ (s : Statistics) (m : bundleMetrics),
      mapGet s.bundleMetrics (gbt b) = some m → 0 ≤ m.totalReceived →
      m.totalReceived + n < 9223372036854775808 →
      mapGet (incrementTimes gbt b n s).bundleMetrics (gbt b) =
        some { m with totalReceived := m.totalReceived + n } := by
  induction n with
  | zero =>
    intro s m h _ _
    simpa [incrementTimes] using h
  | succ n ih =>
    intro s m h h₀ hlt
    show mapGet (incrementTimes gbt b n
      (s.IncrementNumberOfReceivedBundles gbt b)).bundleMetrics (gbt b) = _
    have hw : wrapInt64 (m.totalReceived + 1) = m.totalReceived + 1 :=
      wrapInt64_of_range _ (by omega) (by push_cast at hlt; omega)
    have hstep : mapGet (s.IncrementNumberOfReceivedBundles gbt b).bundleMetrics (gbt b) =
        some { m with totalReceived := m.totalReceived + 1 } := by
      rw [Increment_found gbt s b m h]
      simp only [mapGet_mapSet_same, hw]
    rw [ih _ _ hstep (by simp only; omega) (by simp only; push_cast at hlt; omega)]
    simp only [Option.some.injEq]
    congr 1
    push_cast
    omega

/-! ## Statistics counters: results -/

/-- C12: every bundle type passed to `NewStatistics` is registered with fresh
metrics; for a bundle of a registered type whose counter is below the largest
`int64`, `IncrementNumberOfReceivedBundles` raises `totalReceived` of that
type by exactly 1, keeps its other metrics, keeps the metrics of every other
bundle type, the set of registered types and every other field of the
statistics; and `n` calls after `NewStatistics`, for every `n` below 2^63,
give `totalReceived = n`. -/
theorem IncrementNumberOfReceivedBundles_counts (gbt : ManagerBundle → String) :
    (∀ (cfg : StatisticsConfig) (types : List String) (t : String), t ∈ types →
      mapGet (NewStatistics cfg types).bundleMetrics t = some newBundleMetrics) ∧
    (∀ (s : Statistics) (b : ManagerBundle) (m : bundleMetrics),
      mapGet s.bundleMetrics (gbt b) = some m →
      -9223372036854775808 ≤ m.totalReceived → m.totalReceived < 9223372036854775807 →
      mapGet (s.IncrementNumberOfReceivedBundles gbt b).bundleMetrics (gbt b) =
        some { m with totalReceived := m.totalReceived + 1 } ∧
      (∀ t, t ≠ gbt b →
        mapGet (s.IncrementNumberOfReceivedBundles gbt b).bundleMetrics t =
          mapGet s.bundleMetrics t) ∧
      (s.IncrementNumberOfReceivedBundles gbt b).bundleMetrics.map Prod.fst =
        s.bundleMetrics.map Prod.fst ∧
      (s.IncrementNumberOfReceivedBundles gbt b).numOfAvailableDBWorkers =
        s.numOfAvailableDBWorkers ∧
      (s.IncrementNumberOfReceivedBundles gbt b).conflationReadyQueueSize =
        s.conflationReadyQueueSize ∧
      (s.IncrementNumberOfReceivedBundles gbt b).numOfConflationUnits =
        s.numOfConflationUnits ∧
      (s.IncrementNumberOfReceivedBundles gbt b).logInterval = s.logInterval) ∧
    (∀ (cfg : StatisticsConfig) (types : List String) (b : ManagerBundle) (n : Nat),
      gbt b ∈ types → n < 9223372036854775808 →
      mapGet (incrementTimes gbt b n (NewStatistics cfg types)).bundleMetrics (gbt b) =
        some { newBundleMetrics with totalReceived := n }) := by
  refine ⟨?_, ?_, ?_⟩
  · intro cfg types t ht
    rw [NewStatistics_registered, if_pos ht]
  · intro s b m h h₁ h₂
    have hw : wrapInt64 (m.totalReceived + 1) = m.totalReceived + 1 :=
      wrapInt64_of_range _ (by omega) (by omega)
    rw [Increment_found gbt s b m h]
    refine ⟨?_, ?_, ?_, rfl, rfl, rfl, rfl⟩
    · simp only [mapGet_mapSet_same, hw]
    · intro t ht
      exact mapGet_mapSet_other _ _ _ _ ht
    · exact mapSet_keys_of_mem _ _ _ ((mapGet_isSome_iff _ _).1 ⟨m, h⟩)
  · intro cfg types b n ht hn
    have h0 : mapGet (NewStatistics cfg types).bundleMetrics (gbt b) = some newBundleMetrics := by
      rw [NewStatistics_registered, if_pos ht]
    have h := incrementTimes_counts gbt b n _ _ h0 (by decide)
      (by simp only [newBundleMetrics]; omega)
    rw [h]
    simp [newBundleMetrics]

/-- Witness of C12: three calls after `NewStatistics` for a registered bundle
type give `totalReceived = 3`. -/
theorem IncrementNumberOfReceivedBundles_counts_witness :
    mapGet (incrementTimes (fun _ => "LocalPolicyHistoryEvent") ⟨"hub1", []⟩ 3
        (NewStatistics ⟨"1m"⟩ ["LocalPolicyHistoryEvent", "Other"])).bundleMetrics
        "LocalPolicyHistoryEvent" =
      some { newBundleMetrics with totalReceived := (3 : Nat) } :=
  (IncrementNumberOfReceivedBundles_counts (fun _ => "LocalPolicyHistoryEvent")).2.2
    ⟨"1m"⟩ ["LocalPolicyHistoryEvent", "Other"] ⟨"hub1", []⟩ 3 (by decide) (by decide)

/-- C13: for a bundle whose type is not registered in the statistics,
`IncrementNumberOfReceivedBundles`, `StartConflationUnitMetrics`,
`StopConflationUnitMetrics` and `AddDatabaseMetrics` return the statistics
they were called on, so nothing changes and no entry is added; a type that
was not passed to `NewStatistics` is not registered, and none of the four
methods, called with any bundle, registers a type that was not registered. -/
theorem unregistered_bundle_type_untouched (ops : MetricsMethods)
    (gbt : ManagerBundle → String) :
    (∀ (s : Statistics) (b : ManagerBundle) (err : Option String) (duration : Int),
      mapGet s.bundleMetrics (gbt b) = none →
      s.IncrementNumberOfReceivedBundles gbt b = s ∧
      s.StartConflationUnitMetrics ops gbt b = s ∧
      s.StopConflationUnitMetrics ops gbt b err = s ∧
      s.AddDatabaseMetrics ops gbt b duration err = s) ∧
    (∀ (cfg : StatisticsConfig) (types : List String) (t : String), t ∉ types →
      mapGet (NewStatistics cfg types).bundleMetrics t = none) ∧
    (∀ (s : Statistics) (b : ManagerBundle) (err : Option String) (duration : Int)
        (t : String), mapGet s.bundleMetrics t = none →
      mapGet (s.IncrementNumberOfReceivedBundles gbt b).bundleMetrics t = none ∧
      mapGet (s.StartConflationUnitMetrics ops gbt b).bundleMetrics t = none ∧
      mapGet (s.StopConflationUnitMetrics ops gbt b err).bundleMetrics t = none ∧
      mapGet (s.AddDatabaseMetrics ops gbt b duration err).bundleMetrics t = none) := by
  refine ⟨?_, ?_, ?_⟩
  · intro s b err duration h
    simp only [Statistics.IncrementNumberOfReceivedBundles, Statistics.StartConflationUnitMetrics,
      Statistics.StopConflationUnitMetrics, Statistics.AddDatabaseMetrics, h, and_self]
  · intro cfg types t ht
    rw [NewStatistics_registered, if_neg ht]
  · intro s b err duration t h
    have key : ∀ v : bundleMetrics, (∃ m, mapGet s.bundleMetrics (gbt b) = some m) →
        mapGet (mapSet s.bundleMetrics (gbt b) v) t = none := by
      intro v hm
      have hne : t ≠ gbt b := by
        intro e
        obtain ⟨m, hm⟩ := hm
        rw [e, hm] at h
        cases h
      rw [mapGet_mapSet_other _ _ _ _ hne]
      exact h
    cases hb : mapGet s.bundleMetrics (gbt b) with
    | none =>
      simp only [Statistics.IncrementNumberOfReceivedBundles,
        Statistics.StartConflationUnitMetrics, Statistics.StopConflationUnitMetrics,
        Statistics.AddDatabaseMetrics, hb, h, and_self]
    | some m =>
      simp only [Statistics.IncrementNumberOfReceivedBundles,
        Statistics.StartConflationUnitMetrics, Statistics.StopConflationUnitMetrics,
        Statistics.AddDatabaseMetrics, hb]
      exact ⟨key _ ⟨m, hb⟩, key _ ⟨m, hb⟩, key _ ⟨m, hb⟩, key _ ⟨m, hb⟩⟩

/-- Witness of C13: on statistics created for one bundle type, a bundle of
another type leaves `IncrementNumberOfReceivedBundles` without effect. -/
theorem unregistered_bundle_type_untouched_witness :
    (NewStatistics ⟨"1m"⟩ ["LocalPolicyHistoryEvent"]).IncrementNumberOfReceivedBundles
        (fun _ => "Unknown") ⟨"hub1", []⟩ =
      NewStatistics ⟨"1m"⟩ ["LocalPolicyHistoryEvent"] :=
  ((unregistered_bundle_type_untouched ⟨fun c _ => c, fun c _ _ => c, fun g _ _ => g⟩
    (fun _ => "Unknown")).1 (NewStatistics ⟨"1m"⟩ ["LocalPolicyHistoryEvent"]) ⟨"hub1", []⟩
    none 0 (by decide)).1

/-! ## Operator utilities: results -/

/-- C14: `GetSubscriptionByName` looks the name up in the default namespace and
returns (nil, nil) when the lookup reports a not-found error, (nil, err) with
the lookup's error for every other error, and the found subscription with a
nil error when the lookup succeeds. -/
theorem GetSubscriptionByName_results {Subscription Err : Type}
    (Get : NamespacedName → Except Err Subscription) (IsNotFound : Err → Bool)
    (GetDefaultNamespace : String) (name : String) :
    (∀ err, Get { Name := name, Namespace := GetDefaultNamespace } = Except.error err →
      IsNotFound err = true →
      GetSubscriptionByName Get IsNotFound GetDefaultNamespace name = (none, none)) ∧
    (∀ err, Get { Name := name, Namespace := GetDefaultNamespace } = Except.error err →
      IsNotFound err = false →
      GetSubscriptionByName Get IsNotFound GetDefaultNamespace name = (none, some err)) ∧
    (∀ found, Get { Name := name, Namespace := GetDefaultNamespace } = Except.ok found →
      GetSubscriptionByName Get IsNotFound GetDefaultNamespace name = (some found, none)) := by
  refine ⟨?_, ?_, ?_⟩
  · intro err h hnf
    simp [GetSubscriptionByName, h, hnf]
  · intro err h hnf
    simp [GetSubscriptionByName, h, hnf]
  · intro found h
    simp [GetSubscriptionByName, h]

/-- Witness of C14: a lookup that reports "not found" gives (nil, nil). -/
theorem GetSubscriptionByName_results_witness :
    GetSubscriptionByName
        (fun _ => (Except.error "not found" : Except String Nat))
        (fun err => decide (err = "not found")) "multicluster-global-hub" "crunchy" =
      (none, none) :=
  (GetSubscriptionByName_results
    (fun _ => (Except.error "not found" : Except String Nat))
    (fun err => decide (err = "not found")) "multicluster-global-hub" "crunchy").1
    "not found" rfl (by decide)

theorem Remove_foldl (s : String) (list : List String) :
    ∀ result : List String,
      list.foldl (fun result v => if v ≠ s then result ++ [v] else result) result =
        result ++ list.filter (fun v => decide (v ≠ s)) := by
  induction list with
  | nil => intro result; simp
  | cons a rest ih =>
    intro result
    rw [List.foldl_cons, ih]
    by_cases h : a = s
    · simp [h]
    · simp [h]

theorem Contains_iff (list : List String) (s : String) :
    Contains list s = true ↔ s ∈ list := by
  induction list with
  | nil => simp [Contains]
  | cons a rest ih =>
    by_cases h : a = s
    · simp [Contains, h]
    · have h' : ¬ s = a := fun e => h e.symm
      simp [Contains, h, h', ih]

/-- C18: `Remove(list, s)` is the list of the elements of `list` that differ
from `s`, in their original order (the elements equal to `s` are filtered out
and nothing else changes); so `Contains(Remove(list, s), s)` is false and
`Contains(Remove(list, s), t) = Contains(list, t)` for every `t` other than `s`. -/
theorem Remove_spec (list : List String) (s : String) :
    Remove list s = list.filter (fun v => decide (v ≠ s)) ∧
    Contains (Remove list s) s = false ∧
    (∀ t, t ≠ s → Contains (Remove list s) t = Contains list t) := by
  have h : Remove list s = list.filter (fun v => decide (v ≠ s)) := by
    unfold Remove
    rw [Remove_foldl]
    rfl
  refine ⟨h, ?_, ?_⟩
  · rw [← Bool.not_eq_true, Contains_iff, h]
    simp
  · intro t ht
    rw [Bool.eq_iff_iff, Contains_iff, Contains_iff, h]
    simp [ht]

/-- Witness of C18: removing "b" from a list with two occurrences of it. -/
theorem Remove_spec_witness :
    Contains (Remove ["a", "b", "c", "b"] "b") "c" = Contains ["a", "b", "c", "b"] "c" :=
  (Remove_spec ["a", "b", "c", "b"] "b").2.2 "c" (by decide)

theorem removeDuplicatesLoop_result (l : List String) :
    ∀ encountered result : List String,
      removeDuplicatesLoop encountered result l =
        result ++ removeDuplicatesLoop encountered [] l := by
  induction l with
  | nil => intro enc res; simp [removeDuplicatesLoop]
  | cons v rest ih =>
    intro enc res
    by_cases h : v ∈ enc
    · simp only [removeDuplicatesLoop, if_pos h]
      exact ih enc res
    · simp only [removeDuplicatesLoop, if_neg h]
      rw [ih (v :: enc) (res ++ [v]), ih (v :: enc) ([] ++ [v])]
      simp

theorem removeDuplicatesLoop_cons (encountered : List String) (v : String)
    (rest : List String) :
    removeDuplicatesLoop encountered [] (v :: rest) =
      if v ∈ encountered then removeDuplicatesLoop encountered [] rest
      else v :: removeDuplicatesLoop (v :: encountered) [] rest := by
  by_cases h : v ∈ encountered
  · simp only [removeDuplicatesLoop, if_pos h]
  · simp only [removeDuplicatesLoop, if_neg h]
    rw [removeDuplicatesLoop_result]
    simp

theorem removeDuplicatesLoop_mem (l : List String) :
    ∀ (encountered : List String) (x : String),
      x ∈ removeDuplicatesLoop encountered [] l ↔ x ∈ l ∧ x ∉ encountered := by
  induction l with
  | nil => intro enc x; simp [removeDuplicatesLoop]
  | cons v rest ih =>
    intro enc x
    rw [removeDuplicatesLoop_cons]
    by_cases h : v ∈ enc
    · rw [if_pos h, ih]
      constructor
      · rintro ⟨h₁, h₂⟩
        exact ⟨List.mem_cons_of_mem _ h₁, h₂⟩
      · rintro ⟨h₁, h₂⟩
        rcases List.mem_cons.1 h₁ with e | e
        · subst e
          exact absurd h h₂
        · exact ⟨e, h₂⟩
    · rw [if_neg h, List.mem_cons, ih]
      constructor
      · rintro (e | ⟨h₁, h₂⟩)
        · subst e
          exact ⟨List.mem_cons_self _ _, h⟩
        · exact ⟨List.mem_cons_of_mem _ h₁, fun hx => h₂ (List.mem_cons_of_mem _ hx)⟩
      · rintro ⟨h₁, h₂⟩
        by_cases e : x = v
        · exact Or.inl e
        · right
          rcases List.mem_cons.1 h₁ with e' | e'
          · exact absurd e' e
          · refine ⟨e', fun hx => ?_⟩
            rcases List.mem_cons.1 hx with e'' | e''
            · exact e e''
            · exact h₂ e''

theorem removeDuplicatesLoop_nodup (l : List String) :
    ∀ encountered : List String, (removeDuplicatesLoop encountered [] l).Nodup := by
  induction l with
  | nil => intro enc; simp [removeDuplicatesLoop]
  | cons v rest ih =>
    intro enc
    rw [removeDuplicatesLoop_cons]
    by_cases h : v ∈ enc
    · rw [if_pos h]
      exact ih enc
    · rw [if_neg h, List.nodup_cons]
      refine ⟨fun hm => ?_, ih _⟩
      exact ((removeDuplicatesLoop_mem rest (v :: enc) v).1 hm).2 (List.mem_cons_self _ _)

theorem removeDuplicatesLoop_sublist (l : List String) :
    ∀ encountered : List String, (removeDuplicatesLoop encountered [] l).Sublist l := by
  induction l with
  | nil => intro enc; simp [removeDuplicatesLoop]
  | cons v rest ih =>
    intro enc
    rw [removeDuplicatesLoop_cons]
    by_cases h : v ∈ enc
    · rw [if_pos h]
      exact List.Sublist.cons _ (ih enc)
    · rw [if_neg h]
      exact List.Sublist.cons₂ _ (ih _)

theorem removeDuplicatesLoop_append_singleton (l : List String) (x : String) :
    ∀ encountered : List String,
      removeDuplicatesLoop encountered [] (l ++ [x]) =
        removeDuplicatesLoop encountered [] l ++
          (if x ∈ encountered ∨ x ∈ l then [] else [x]) := by
  induction l with
  | nil =>
    intro enc
    by_cases h : x ∈ enc <;> simp [removeDuplicatesLoop, h]
  | cons v rest ih =>
    intro enc
    rw [List.cons_append, removeDuplicatesLoop_cons, removeDuplicatesLoop_cons]
    by_cases h : v ∈ enc
    · rw [if_pos h, if_pos h, ih]
      by_cases hx : x ∈ enc
      · simp [hx]
      · by_cases hv : x = v
        · subst hv
          exact absurd h hx
        · simp [hx, hv]
    · rw [if_neg h, if_neg h, ih]
      by_cases hv : x = v
      · simp [hv]
      · simp [hv]

theorem removeDuplicatesLoop_of_nodup (l : List String) :
    ∀ encountered : List String, l.Nodup → (∀ x ∈ l, x ∉ encountered) →
      removeDuplicatesLoop encountered [] l = l := by
  induction l with
  | nil => intro enc _ _; simp [removeDuplicatesLoop]
  | cons v rest ih =>
    intro enc hn hd
    rw [removeDuplicatesLoop_cons, if_neg (hd v (List.mem_cons_self _ _))]
    rw [List.nodup_cons] at hn
    rw [ih (v :: enc) hn.2]
    intro x hx hxe
    rcases List.mem_cons.1 hxe with e | e
    · subst e
      exact hn.1 hx
    · exact hd x (List.mem_cons_of_mem _ hx) e

/-- C19: `RemoveDuplicates` returns a list without repeated elements that has
exactly the elements of its input and is a subsequence of it, made of the
first occurrences: the result for `l ++ [x]` is the result for `l`, followed
by `x` exactly when `x` does not occur in `l`. It is idempotent, and it
returns its input when the input has no duplicates. -/
theorem RemoveDuplicates_spec (elements : List String) :
    (RemoveDuplicates elements).Nodup ∧
    (∀ x, x ∈ RemoveDuplicates elements ↔ x ∈ elements) ∧
    (RemoveDuplicates elements).Sublist elements ∧
    RemoveDuplicates [] = [] ∧
    (∀ x, RemoveDuplicates (elements ++ [x]) =
      if x ∈ elements then RemoveDuplicates elements else RemoveDuplicates elements ++ [x]) ∧
    RemoveDuplicates (RemoveDuplicates elements) = RemoveDuplicates elements ∧
    (elements.Nodup → RemoveDuplicates elements = elements) := by
  have hn : (RemoveDuplicates elements).Nodup := removeDuplicatesLoop_nodup elements []
  refine ⟨hn, ?_, removeDuplicatesLoop_sublist elements [], rfl, ?_, ?_, ?_⟩
  · intro x
    unfold RemoveDuplicates
    rw [removeDuplicatesLoop_mem]
    simp
  · intro x
    unfold RemoveDuplicates
    rw [removeDuplicatesLoop_append_singleton]
    by_cases h : x ∈ elements <;> simp [h]
  · exact removeDuplicatesLoop_of_nodup _ [] hn (fun x _ hx => by cases hx)
  · intro h
    exact removeDuplicatesLoop_of_nodup _ [] h (fun x _ hx => by cases hx)

/-- Witness of C19: a list without duplicates is returned as it is. -/
theorem RemoveDuplicates_spec_witness :
    RemoveDuplicates ["b", "a", "c"] = ["b", "a", "c"] :=
  (RemoveDuplicates_spec ["b", "a", "c"]).2.2.2.2.2.2 (by decide)

theorem mapGet_cons {β : Type} (k₀ : String) (v₀ : β) (rest : List (String × β)) (k : String) :
    mapGet ((k₀, v₀) :: rest) k = if k₀ = k then some v₀ else mapGet rest k := rfl

theorem foldl_countEntry (o1 : List (String × YamlValue)) :
    ∀ counts : Int × Int × Int, (o1.map Prod.fst).Nodup →
      o1.foldl countEntry counts =
        ((match mapGet o1 "groups" with
          | some v => lenOfArray v
          | none => counts.1),
         (match mapGet o1 "policies" with
          | some v => lenOfArray v
          | none => counts.2.1),
         (match mapGet o1 "contactPoints" with
          | some v => lenOfArray v
          | none => counts.2.2)) := by
  induction o1 with
  | nil => intro counts _; rfl
  | cons p rest ih =>
    intro counts hn
    obtain ⟨k, v⟩ := p
    rw [List.map_cons, List.nodup_cons] at hn
    have hnone : mapGet rest k = none := (mapGet_eq_none_iff rest k).2 hn.1
    rw [List.foldl_cons, ih _ hn.2, mapGet_cons, mapGet_cons, mapGet_cons]
    by_cases hg : k = "groups"
    · subst hg
      rw [hnone]
      simp [countEntry]
    · by_cases hp : k = "policies"
      · subst hp
        rw [hnone]
        simp [countEntry]
      · by_cases hc : k = "contactPoints"
        · subst hc
          rw [hnone]
          simp [countEntry]
        · simp [countEntry, hg, hp, hc]

/-- C20: `GetAlertGPCcount` returns (0, 0, 0) and no error for empty input; for
input that does not parse it returns the parse error; for input that parses
to a mapping (whose keys are distinct, in whatever order the loop visits
them) it returns, with no error, the lengths of the sequences under the keys
"groups", "policies" and "contactPoints", in that order, 0 standing for a key
that is absent or whose value is not a sequence; the other keys play no part. -/
theorem GetAlertGPCcount_spec
    (Unmarshal : String → Except String (List (String × YamlValue))) (a : String) :
    (a.length = 0 → GetAlertGPCcount Unmarshal a = (0, 0, 0, none)) ∧
    (∀ err, a.length ≠ 0 → Unmarshal a = Except.error err →
      GetAlertGPCcount Unmarshal a = (0, 0, 0, some err)) ∧
    (∀ o1, a.length ≠ 0 → Unmarshal a = Except.ok o1 → (o1.map Prod.fst).Nodup →
      GetAlertGPCcount Unmarshal a =
        (sequenceLength o1 "groups", sequenceLength o1 "policies",
          sequenceLength o1 "contactPoints", none)) := by
  refine ⟨?_, ?_, ?_⟩
  · intro h
    simp [GetAlertGPCcount, h]
  · intro err h hu
    simp [GetAlertGPCcount, h, hu]
  · intro o1 h hu hn
    simp only [GetAlertGPCcount, if_neg h, hu, foldl_countEntry o1 _ hn, sequenceLength]

/-- Witness of C20: a mapping with two groups, a scalar under "policies", no
contact points and one more key gives the counts (2, 0, 0). -/
theorem GetAlertGPCcount_spec_witness :
    GetAlertGPCcount
        (fun _ => Except.ok
          [("apiVersion", YamlValue.other "1"),
           ("groups", YamlValue.sequence [YamlValue.other "g1", YamlValue.other "g2"]),
           ("policies", YamlValue.other "none")])
        "apiVersion: 1" = (2, 0, 0, none) :=
  (GetAlertGPCcount_spec
    (fun _ => Except.ok
      [("apiVersion", YamlValue.other "1"),
       ("groups", YamlValue.sequence [YamlValue.other "g1", YamlValue.other "g2"]),
       ("policies", YamlValue.other "none")])
    "apiVersion: 1").2.2 _ (by decide) rfl (by decide)

/-! ## Operator configuration: annotation flags -/

theorem getAnnotation_nil (mgh : MulticlusterGlobalHub) (key : String)
    (h : mgh.Annotations = none) : getAnnotation mgh key = "" := by
  unfold getAnnotation
  rw [h]

theorem getAnnotation_map (mgh : MulticlusterGlobalHub) (key : String)
    (annotations : List (String × String)) (h : mgh.Annotations = some annotations) :
    getAnnotation mgh key = (mapGet annotations key).getD "" := by
  unfold getAnnotation
  rw [h]

theorem annotation_flag_iff (mgh : MulticlusterGlobalHub) (key : String) :
    (if getAnnotation mgh key ≠ "" ∧ EqualFold ( getAnnotation mgh key) "true" = true
      then true else false) = true ↔
      ∃ annotations value, mgh.Annotations = some annotations ∧
        mapGet annotations key = some value ∧ EqualFold value "true" = true := by
  have hempty : EqualFold "" "true" = false := by decide
  constructor
  · intro h
    have h' : getAnnotation mgh key ≠ "" ∧ EqualFold ( getAnnotation mgh key) "true" = true := by
      by_contra hc
      rw [if_neg hc] at h
      cases h
    obtain ⟨hne, hf⟩ := h'
    cases ha : mgh.Annotations with
    | none => exact absurd ( getAnnotation_nil mgh key ha) hne
    | some annotations =>
      rw [getAnnotation_map mgh key annotations ha] at hne hf
      cases hv : mapGet annotations key with
      | none =>
        rw [hv] at hne
        exact absurd rfl hne
      | some value =>
        rw [hv] at hf
        exact ⟨annotations, value, rfl, hv, hf⟩
  · rintro ⟨annotations, value, ha, hv, hf⟩
    have hval : getAnnotation mgh key = value := by
      rw [getAnnotation_map mgh key annotations ha, hv]
      rfl
    rw [hval]
    have hne : value ≠ "" := by
      intro e
      rw [e, hempty] at hf
      cases hf
    rw [if_pos ⟨hne, hf⟩]

theorem annotation_flag_false (mgh : MulticlusterGlobalHub) (key : String)
    (h : getAnnotation mgh key = "") :
    (if getAnnotation mgh key ≠ "" ∧ EqualFold ( getAnnotation mgh key) "true" = true
      then true else false) = false := by
  rw [h]
  simp

/-- C15: `IsPaused`, `SkipAuth` and `GetInstallCrunchyOperator` each return true
exactly when the instance has an annotation map that holds their key with a
value that `strings.EqualFold` finds equal to "true" (as "true", "True" and
"TRUE" are), and false in every other case; in particular for a nil
annotation map, for a map without the key and for an empty value. -/
theorem annotation_flags (c : OperatorConstants) (mgh : MulticlusterGlobalHub) :
    (IsPaused c mgh = true ↔
      ∃ annotations value, mgh.Annotations = some annotations ∧
        mapGet annotations c.AnnotationMGHPause = some value ∧
        EqualFold value "true" = true) ∧
    (SkipAuth c mgh = true ↔
      ∃ annotations value, mgh.Annotations = some annotations ∧
        mapGet annotations c.AnnotationMGHSkipAuth = some value ∧
        EqualFold value "true" = true) ∧
    (GetInstallCrunchyOperator c mgh = true ↔
      ∃ annotations value, mgh.Annotations = some annotations ∧
        mapGet annotations c.AnnotationMGHInstallCrunchyOperator = some value ∧
        EqualFold value "true" = true) ∧
    (mgh.Annotations = none →
      IsPaused c mgh = false ∧ SkipAuth c mgh = false ∧
        GetInstallCrunchyOperator c mgh = false) ∧
    (∀ annotations, mgh.Annotations = some annotations →
      (mapGet annotations c.AnnotationMGHPause = none ∨
        mapGet annotations c.AnnotationMGHPause = some "" → IsPaused c mgh = false) ∧
      (mapGet annotations c.AnnotationMGHSkipAuth = none ∨
        mapGet annotations c.AnnotationMGHSkipAuth = some "" → SkipAuth c mgh = false) ∧
      (mapGet annotations c.AnnotationMGHInstallCrunchyOperator = none ∨
        mapGet annotations c.AnnotationMGHInstallCrunchyOperator = some "" →
        GetInstallCrunchyOperator c mgh = false)) ∧
    (EqualFold "true" "true" = true ∧ EqualFold "True" "true" = true ∧
      EqualFold "TRUE" "true" = true ∧ EqualFold "false" "true" = false ∧
      EqualFold "" "true" = false ∧ EqualFold "truely" "true" = false) := by
  have hnil : ∀ key, mgh.Annotations = none → getAnnotation mgh key = "" :=
    fun key h => getAnnotation_nil mgh key h
  have hmiss : ∀ annotations key, mgh.Annotations = some annotations →
      (mapGet annotations key = none ∨ mapGet annotations key = some "") →
      getAnnotation mgh key = "" := by
    intro annotations key h hk
    rw [getAnnotation_map mgh key annotations h]
    rcases hk with hk | hk <;> rw [hk] <;> rfl
  refine ⟨annotation_flag_iff mgh _, annotation_flag_iff mgh _, annotation_flag_iff mgh _,
    ?_, ?_, by decide⟩
  · intro h
    exact ⟨annotation_flag_false mgh _ (hnil _ h), annotation_flag_false mgh _ (hnil _ h),
      annotation_flag_false mgh _ (hnil _ h)⟩
  · intro annotations h
    exact ⟨fun hk => annotation_flag_false mgh _ (hmiss annotations _ h hk),
      fun hk => annotation_flag_false mgh _ (hmiss annotations _ h hk),
      fun hk => annotation_flag_false mgh _ (hmiss annotations _ h hk)⟩

/-- Witness of C15: an instance annotated with the value "True" under the
crunchy-operator key asks for the installation. -/
theorem annotation_flags_witness :
    GetInstallCrunchyOperator sampleConstants
      ⟨some [("mgh-install-crunchy-operator", "True")]⟩ = true :=
  (annotation_flags sampleConstants ⟨some [("mgh-install-crunchy-operator", "True")]⟩).2.2.1.2
    ⟨[("mgh-install-crunchy-operator", "True")], "True", rfl, by decide, by decide⟩

/-! ## Operator configuration: image overrides from the environment -/

theorem overrideFromEnv_ok (c : OperatorConstants) (toLower : String → String)
    (imageOverrides updated : List (String × String)) (env : String)
    (h : overrideFromEnv c toLower imageOverrides env = Except.ok updated) :
    (HasPrefix (SplitN env '=').1 c.MGHOperandImagePrefix = true ∧
      ∃ value, (SplitN env '=').2 = some value ∧
        updated = mapSet imageOverrides (imageKeyOf c toLower (SplitN env '=').1) value) ∨
    (¬ HasPrefix (SplitN env '=').1 c.MGHOperandImagePrefix = true ∧
      updated = imageOverrides) := by
  unfold overrideFromEnv at h
  simp only at h
  by_cases hp : HasPrefix (SplitN env '=').1 c.MGHOperandImagePrefix = true
  · left
    rw [if_pos hp] at h
    cases hv : (SplitN env '=').2 with
    | none => rw [hv] at h; cases h
    | some value =>
      rw [hv] at h
      cases h
      exact ⟨hp, value, rfl, rfl⟩
  · right
    rw [if_neg hp] at h
    cases h
    exact ⟨hp, rfl⟩

theorem overrideFromEnviron_cons (c : OperatorConstants) (toLower : String → String)
    (env : String) (rest : List String) (imageOverrides result : List (String × String))
    (h : overrideFromEnviron c toLower (env :: rest) imageOverrides = Except.ok result) :
    ∃ updated, overrideFromEnv c toLower imageOverrides env = Except.ok updated ∧
      overrideFromEnviron c toLower rest updated = Except.ok result := by
  unfold overrideFromEnviron at h
  cases hs : overrideFromEnv c toLower imageOverrides env with
  | error p => rw [hs] at h; cases h
  | ok updated =>
    rw [hs] at h
    exact ⟨updated, rfl, h⟩

theorem lastOverride_cons (c : OperatorConstants) (toLower : String → String)
    (env : String) (rest : List String) (key : String) :
    lastOverride c toLower (env :: rest) key =
      match lastOverride c toLower rest key with
      | some value => some value
      | none =>
        if HasPrefix (SplitN env '=').1 c.MGHOperandImagePrefix = true ∧
            imageKeyOf c toLower (SplitN env '=').1 = key then (SplitN env '=').2
        else none := rfl

theorem mapGet_overrideFromEnviron (c : OperatorConstants) (toLower : String → String)
    (environ : List String) :
    ∀ (imageOverrides result : List (String × String)),
      overrideFromEnviron c toLower environ imageOverrides = Except.ok result →
      ∀ key, mapGet result key =
        match lastOverride c toLower environ key with
        | some value => some value
        | none => mapGet imageOverrides key := by
  induction environ with
  | nil =>
    intro m result h key
    unfold overrideFromEnviron at h
    cases h
    rfl
  | cons env rest ih =>
    intro m result h key
    obtain ⟨updated, hstep, hrest⟩ := overrideFromEnviron_cons c toLower env rest m result h
    rw [ih updated result hrest key, lastOverride_cons]
    cases hl : lastOverride c toLower rest key with
    | some value => rfl
    | none =>
      simp only
      rcases overrideFromEnv_ok c toLower m updated env hstep with
        ⟨hp, value, hv, hu⟩ | ⟨hp, hu⟩
      · by_cases hk : imageKeyOf c toLower (SplitN env '=').1 = key
        · rw [if_pos ⟨hp, hk⟩, hu, hv, ← hk, mapGet_mapSet_same]
        · rw [if_neg (fun hc => hk hc.2), hu,
            mapGet_mapSet_other _ _ _ _ (fun e => hk e.symm)]
      · rw [if_neg (fun hc => hp hc.1), hu]

theorem lastOverride_append (c : OperatorConstants) (toLower : String → String)
    (l₁ l₂ : List String) (key : String) :
    lastOverride c toLower (l₁ ++ l₂) key =
      match lastOverride c toLower l₂ key with
      | some value => some value
      | none => lastOverride c toLower l₁ key := by
  induction l₁ with
  | nil =>
    simp only [List.nil_append]
    cases lastOverride c toLower l₂ key <;> rfl
  | cons env rest ih =>
    rw [List.cons_append, lastOverride_cons, ih, lastOverride_cons]
    cases lastOverride c toLower l₂ key with
    | some value => rfl
    | none => rfl

theorem lastOverride_none (c : OperatorConstants) (toLower : String → String)
    (environ : List String) (key : String)
    (h : ∀ env ∈ environ, HasPrefix (SplitN env '=').1 c.MGHOperandImagePrefix = true →
      imageKeyOf c toLower (SplitN env '=').1 ≠ key) :
    lastOverride c toLower environ key = none := by
  induction environ with
  | nil => rfl
  | cons env rest ih =>
    rw [lastOverride_cons, ih (fun e he => h e (List.mem_cons_of_mem _ he))]
    simp only
    rw [if_neg]
    intro hc
    exact h env (List.mem_cons_self _ _) hc.1 hc.2

theorem splitAtFirst_append (sep : Char) (a b : List Char) (h : sep ∉ a) :
    splitAtFirst sep (a ++ sep :: b) = (a, some b) := by
  induction a with
  | nil => simp [splitAtFirst]
  | cons x xs ih =>
    have hx : x ≠ sep := fun e => h (e ▸ List.mem_cons_self _ _)
    have hxs : sep ∉ xs := fun e => h (List.mem_cons_of_mem _ e)
    rw [List.cons_append]
    simp only [splitAtFirst, if_neg hx, ih hxs]

theorem SplitN_name_value (name value : String) (h : '=' ∉ name.data) :
    SplitN (name ++ "=" ++ value) '=' = (name, some value) := by
  unfold SplitN
  have hd : (name ++ "=" ++ value).data = name.data ++ '=' :: value.data := by
    simp [String.data_append]
  rw [hd, splitAtFirst_append '=' _ _ h]
  rfl

theorem SetImageOverrides_without_repo (c : OperatorConstants) (toLower : String → String)
    (environ : List String) (mgh : MulticlusterGlobalHub)
    (imageOverrides : List (String × String))
    (hrepo : getAnnotation mgh c.AnnotationImageRepo = "") :
    SetImageOverrides c toLower environ mgh imageOverrides =
      overrideFromEnviron c toLower environ imageOverrides := by
  unfold SetImageOverrides
  cases overrideFromEnviron c toLower environ imageOverrides with
  | error p => rfl
  | ok updated =>
    simp only [hrepo, ne_eq, not_true_eq_false, if_false]

/-- C16 as the code has it: after `SetImageOverrides` has returned on an
instance without image-repo annotation, for every environment entry
NAME=VALUE whose NAME starts with the operand image prefix, `GetImage` of the
lower-cased NAME with every occurrence of the prefix removed returns VALUE,
provided no later entry gives the same key (the last entry wins); and every
image key that no such entry gives keeps the image it had before. An entry
NAME=VALUE, with no "=" in NAME, is split into NAME and VALUE. -/
theorem SetImageOverrides_from_environment (c : OperatorConstants)
    (toLower : String → String) (environ : List String) (mgh : MulticlusterGlobalHub)
    (imageOverrides result : List (String × String))
    (hrepo : getAnnotation mgh c.AnnotationImageRepo = "")
    (hok : SetImageOverrides c toLower environ mgh imageOverrides = Except.ok result) :
    (∀ (before after : List String) (env name value : String),
      environ = before ++ env :: after → SplitN env '=' = (name, some value) →
      HasPrefix name c.MGHOperandImagePrefix = true →
      (∀ later ∈ after, HasPrefix (SplitN later '=').1 c.MGHOperandImagePrefix = true →
        imageKeyOf c toLower (SplitN later '=').1 ≠ imageKeyOf c toLower name) →
      GetImage result (toLower (Replace name c.MGHOperandImagePrefix "")) = value) ∧
    (∀ key, (∀ env ∈ environ, HasPrefix (SplitN env '=').1 c.MGHOperandImagePrefix = true →
        imageKeyOf c toLower (SplitN env '=').1 ≠ key) →
      mapGet result key = mapGet imageOverrides key ∧
      GetImage result key = GetImage imageOverrides key) ∧
    (∀ name value : String, '=' ∉ name.data →
      SplitN (name ++ "=" ++ value) '=' = (name, some value)) := by
  rw [SetImageOverrides_without_repo c toLower environ mgh imageOverrides hrepo] at hok
  have hget := mapGet_overrideFromEnviron c toLower environ imageOverrides result hok
  refine ⟨?_, ?_, SplitN_name_value⟩
  · intro before after env name value henv hsplit hp hlater
    have hlast : lastOverride c toLower environ (imageKeyOf c toLower name) = some value := by
      rw [henv, lastOverride_append, lastOverride_cons,
        lastOverride_none c toLower after _ hlater]
      simp only [hsplit, hp, and_self, if_true]
    show GetImage result (imageKeyOf c toLower name) = value
    unfold GetImage
    rw [hget, hlast]
    rfl
  · intro key hkey
    have hm : mapGet result key = mapGet imageOverrides key := by
      rw [hget, lastOverride_none c toLower environ key hkey]
    exact ⟨hm, by unfold GetImage; rw [hm]⟩

/-- Witness of C16 as the code has it: the environment overrides the grafana
image and leaves the other images of the initial table. -/
theorem SetImageOverrides_from_environment_witness :
    GetImage [("multicluster_global_hub_agent", "quay.io/stolostron/multicluster-global-hub-agent:latest"),
        ("grafana", "registry.example/acm/grafana:2.0")] "multicluster_global_hub_agent" =
      GetImage [("multicluster_global_hub_agent", "quay.io/stolostron/multicluster-global-hub-agent:latest"),
        ("grafana", "quay.io/stolostron/grafana:globalhub-1.0")] "multicluster_global_hub_agent" :=
  ((SetImageOverrides_from_environment sampleConstants asciiToLower
    ["PATH=/usr/bin", "RELATED_IMAGE_GRAFANA=registry.example/acm/grafana:2.0"] ⟨none⟩
    [("multicluster_global_hub_agent", "quay.io/stolostron/multicluster-global-hub-agent:latest"),
      ("grafana", "quay.io/stolostron/grafana:globalhub-1.0")]
    [("multicluster_global_hub_agent", "quay.io/stolostron/multicluster-global-hub-agent:latest"),
      ("grafana", "registry.example/acm/grafana:2.0")]
    rfl rfl).2.1 "multicluster_global_hub_agent" (by decide)).2

/-- C16 as it is stated fails: the environment variable
`RELATED_IMAGE_A_RELATED_IMAGE_B=img` starts with the operand image prefix;
`SetImageOverrides` returns and stores `img` under the key `a_b`, so `GetImage`
of the lower-cased name with the leading prefix removed,
`a_related_image_b`, does not return `img`. -/
theorem SetImageOverrides_leading_prefix_counterexample :
    SetImageOverrides sampleConstants asciiToLower ["RELATED_IMAGE_A_RELATED_IMAGE_B=img"]
      ⟨none⟩ [] = Except.ok [("a_b", "img")] ∧
    getAnnotation ⟨none⟩ sampleConstants.AnnotationImageRepo = "" ∧
    SplitN "RELATED_IMAGE_A_RELATED_IMAGE_B=img" '=' =
      ("RELATED_IMAGE_A_RELATED_IMAGE_B", some "img") ∧
    HasPrefix "RELATED_IMAGE_A_RELATED_IMAGE_B" sampleConstants.MGHOperandImagePrefix = true ∧
    asciiToLower (withoutLeadingPrefix sampleConstants "RELATED_IMAGE_A_RELATED_IMAGE_B") =
      "a_related_image_b" ∧
    GetImage [("a_b", "img")]
      (asciiToLower (withoutLeadingPrefix sampleConstants "RELATED_IMAGE_A_RELATED_IMAGE_B")) ≠
      "img" :=
  ⟨rfl, rfl, by decide, by decide, by decide, by decide⟩

/-! ## Operator configuration: the image repository override -/

theorem lastIndexOf_eq_none_iff (sep : Char) (l : List Char) :
    lastIndexOf sep l = none ↔ sep ∉ l := by
  induction l with
  | nil => simp [lastIndexOf]
  | cons ch rest ih =>
    unfold lastIndexOf
    cases hr : lastIndexOf sep rest with
    | some i =>
      have hm : sep ∈ rest := by
        by_contra hc
        rw [ih.2 hc] at hr
        cases hr
      simp [hm]
    | none =>
      have hm : sep ∉ rest := ih.1 hr
      by_cases hc : ch = sep
      · simp [hc]
      · have hc' : ¬ sep = ch := fun e => hc e.symm
        simp [hc, hc', hm]

theorem lastIndexOf_some (sep : Char) (l : List Char) :
    ∀ i, lastIndexOf sep l = some i →
      i < l.length ∧ ∃ rest, l.drop i = sep :: rest ∧ sep ∉ rest := by
  induction l with
  | nil => intro i h; simp [lastIndexOf] at h
  | cons ch rest ih =>
    intro i h
    unfold lastIndexOf at h
    cases hr : lastIndexOf sep rest with
    | some j =>
      rw [hr] at h
      simp only [Option.some.injEq] at h
      subst h
      obtain ⟨hlt, tail, htail, hnot⟩ := ih j hr
      exact ⟨by simp only [List.length_cons]; omega, tail, by simpa using htail, hnot⟩
    | none =>
      rw [hr] at h
      simp only at h
      by_cases hc : ch = sep
      · rw [if_pos hc] at h
        simp only [Option.some.injEq] at h
        subst h
        subst hc
        exact ⟨by simp, rest, rfl, (lastIndexOf_eq_none_iff _ rest).1 hr⟩
      · rw [if_neg hc] at h
        cases h

theorem lastIndexOf_append (sep : Char) (a b : List Char) (h : sep ∉ b) :
    lastIndexOf sep (a ++ sep :: b) = some a.length := by
  induction a with
  | nil =>
    simp only [List.nil_append, List.length_nil]
    unfold lastIndexOf
    rw [(lastIndexOf_eq_none_iff sep b).2 h]
    simp
  | cons x xs ih =>
    rw [List.cons_append]
    unfold lastIndexOf
    rw [ih]
    rfl

theorem fromLastSlash_data (imageRef : String) (h : '/' ∈ imageRef.data) :
    ∃ before nameTag, imageRef.data = before ++ '/' :: nameTag ∧ '/' ∉ nameTag ∧
      (fromLastSlash imageRef).data = '/' :: nameTag ∧
      lastIndexOf '/' imageRef.data = some before.length := by
  cases hi : lastIndexOf '/' imageRef.data with
  | none => exact absurd h ((lastIndexOf_eq_none_iff _ _).1 hi)
  | some i =>
    obtain ⟨hlt, nameTag, hdrop, hnot⟩ := lastIndexOf_some '/' imageRef.data i hi
    refine ⟨imageRef.data.take i, nameTag, ?_, hnot, ?_, ?_⟩
    · rw [← hdrop, List.take_append_drop]
    · unfold fromLastSlash
      rw [hi]
      exact hdrop
    · rw [List.length_take, Nat.min_eq_left (Nat.le_of_lt hlt)]

theorem overrideRepoOf_ok (imageRepoOverride imageRef : String) (h : '/' ∈ imageRef.data) :
    overrideRepoOf imageRepoOverride imageRef =
      Except.ok (imageRepoOverride ++ fromLastSlash imageRef) := by
  cases hi : lastIndexOf '/' imageRef.data with
  | none => exact absurd h ((lastIndexOf_eq_none_iff _ _).1 hi)
  | some i =>
    obtain ⟨hlt, _⟩ := lastIndexOf_some '/' imageRef.data i hi
    have hslice : sliceFrom imageRef (LastIndex imageRef '/') =
        Except.ok (fromLastSlash imageRef) := by
      unfold sliceFrom LastIndex fromLastSlash
      rw [hi]
      simp only
      rw [if_neg (by omega)]
      simp
    unfold overrideRepoOf
    rw [hslice]

theorem fromLastSlash_of (imageRef : String) (before nameTag : List Char)
    (hd : imageRef.data = before ++ '/' :: nameTag) (hnot : '/' ∉ nameTag) :
    (fromLastSlash imageRef).data = '/' :: nameTag := by
  unfold fromLastSlash
  rw [hd, lastIndexOf_append '/' before nameTag hnot]
  simp

theorem fromLastSlash_idempotent (imageRepoOverride imageRef : String)
    (h : '/' ∈ imageRef.data) :
    '/' ∈ (imageRepoOverride ++ fromLastSlash imageRef).data ∧
    fromLastSlash (imageRepoOverride ++ fromLastSlash imageRef) = fromLastSlash imageRef := by
  obtain ⟨before, nameTag, _, hnot, hdata, _⟩ := fromLastSlash_data imageRef h
  have hd : (imageRepoOverride ++ fromLastSlash imageRef).data =
      imageRepoOverride.data ++ '/' :: nameTag := by
    rw [String.data_append, hdata]
  constructor
  · rw [hd]
    simp
  · apply String.ext
    rw [hdata]
    exact fromLastSlash_of _ _ _ hd hnot

theorem overrideImageRepo_ok (imageRepoOverride : String)
    (imageOverrides : List (String × String)) (h : ∀ p ∈ imageOverrides, '/' ∈ p.2.data) :
    overrideImageRepo imageRepoOverride imageOverrides =
      Except.ok (withRepo imageRepoOverride imageOverrides) := by
  induction imageOverrides with
  | nil => rfl
  | cons p rest ih =>
    obtain ⟨k, v⟩ := p
    unfold overrideImageRepo
    rw [overrideRepoOf_ok imageRepoOverride v (h (k, v) (List.mem_cons_self _ _)),
      ih (fun q hq => h q (List.mem_cons_of_mem _ hq))]
    rfl

theorem mapGet_withRepo (imageRepoOverride : String) (imageOverrides : List (String × String))
    (key : String) :
    mapGet (withRepo imageRepoOverride imageOverrides) key =
      (mapGet imageOverrides key).map (fun v => imageRepoOverride ++ fromLastSlash v) := by
  induction imageOverrides with
  | nil => rfl
  | cons p rest ih =>
    obtain ⟨k, v⟩ := p
    show mapGet ((k, imageRepoOverride ++ fromLastSlash v) :: withRepo imageRepoOverride rest) key
      = _
    rw [mapGet_cons, mapGet_cons, ih]
    by_cases hk : k = key <;> simp [hk]

theorem withRepo_keys (imageRepoOverride : String) (imageOverrides : List (String × String)) :
    (withRepo imageRepoOverride imageOverrides).map Prod.fst = imageOverrides.map Prod.fst := by
  unfold withRepo
  rw [List.map_map]
  rfl

theorem overrideFromEnviron_total (c : OperatorConstants) (toLower : String → String)
    (environ : List String) :
    ∀ (imageOverrides result other : List (String × String)),
      overrideFromEnviron c toLower environ imageOverrides = Except.ok result →
      ∃ result', overrideFromEnviron c toLower environ other = Except.ok result' := by
  induction environ with
  | nil => intro m result other _; exact ⟨other, rfl⟩
  | cons env rest ih =>
    intro m result other h
    obtain ⟨updated, hstep, hrest⟩ := overrideFromEnviron_cons c toLower env rest m result h
    have hother : ∃ updated', overrideFromEnv c toLower other env = Except.ok updated' := by
      rcases overrideFromEnv_ok c toLower m updated env hstep with
        ⟨hp, value, hv, _⟩ | ⟨hp, _⟩
      · refine ⟨mapSet other (imageKeyOf c toLower (SplitN env '=').1) value, ?_⟩
        unfold overrideFromEnv
        simp only
        rw [if_pos hp, hv]
      · refine ⟨other, ?_⟩
        unfold overrideFromEnv
        simp only
        rw [if_neg hp]
    obtain ⟨updated', hstep'⟩ := hother
    obtain ⟨result', hres⟩ := ih updated result updated' hrest
    refine ⟨result', ?_⟩
    unfold overrideFromEnviron
    rw [hstep']
    exact hres

theorem overrideFromEnviron_keys_nodup (c : OperatorConstants) (toLower : String → String)
    (environ : List String) :
    ∀ (imageOverrides result : List (String × String)),
      overrideFromEnviron c toLower environ imageOverrides = Except.ok result →
      (imageOverrides.map Prod.fst).Nodup → (result.map Prod.fst).Nodup := by
  induction environ with
  | nil =>
    intro m result h hn
    unfold overrideFromEnviron at h
    cases h
    exact hn
  | cons env rest ih =>
    intro m result h hn
    obtain ⟨updated, hstep, hrest⟩ := overrideFromEnviron_cons c toLower env rest m result h
    apply ih updated result hrest
    rcases overrideFromEnv_ok c toLower m updated env hstep with
      ⟨_, value, _, hu⟩ | ⟨_, hu⟩
    · rw [hu]
      exact mapSet_keys_nodup _ _ _ hn
    · rw [hu]
      exact hn

theorem SetImageOverrides_with_repo (c : OperatorConstants) (toLower : String → String)
    (environ : List String) (mgh : MulticlusterGlobalHub)
    (imageOverrides updated : List (String × String))
    (hne : getAnnotation mgh c.AnnotationImageRepo ≠ "")
    (henv : overrideFromEnviron c toLower environ imageOverrides = Except.ok updated)
    (hslash : ∀ p ∈ updated, '/' ∈ p.2.data) :
    SetImageOverrides c toLower environ mgh imageOverrides =
      Except.ok (withRepo ( getAnnotation mgh c.AnnotationImageRepo) updated) := by
  unfold SetImageOverrides
  rw [henv]
  simp only
  rw [if_pos hne]
  exact overrideImageRepo_ok _ updated hslash

/-- C17 as the code has it: when the image-repo annotation is a non-empty string R and
every image reference of the table as it stands after the overrides from the
environment (the table that the repository loop runs over) contains "/",
`SetImageOverrides` returns with every image reference replaced by R followed
by the part of that reference from its last "/" on, that is by the image name
and tag, which are kept; the reference so treated is the value of the last
environment entry that names the key, and the previous value of the key when
no entry names it; and a second call with the same environment and instance
returns too and leaves every key of the table with the image it had after the
first call (the table is a map whose keys are distinct). -/
theorem SetImageOverrides_repo_override (c : OperatorConstants) (toLower : String → String)
    (environ : List String) (mgh : MulticlusterGlobalHub)
    (imageOverrides updated : List (String × String))
    (hne : getAnnotation mgh c.AnnotationImageRepo ≠ "")
    (hkeys : (imageOverrides.map Prod.fst).Nodup)
    (henv : overrideFromEnviron c toLower environ imageOverrides = Except.ok updated)
    (hslash : ∀ p ∈ updated, '/' ∈ p.2.data) :
    SetImageOverrides c toLower environ mgh imageOverrides =
      Except.ok (updated.map
        (fun p => (p.1, getAnnotation mgh c.AnnotationImageRepo ++ fromLastSlash p.2))) ∧
    (∀ p ∈ updated, ∃ before nameTag, p.2.data = before ++ '/' :: nameTag ∧
      '/' ∉ nameTag ∧ (fromLastSlash p.2).data = '/' :: nameTag) ∧
    (∃ again, SetImageOverrides c toLower environ mgh
        (updated.map
          (fun p => (p.1, getAnnotation mgh c.AnnotationImageRepo ++ fromLastSlash p.2))) =
        Except.ok again ∧
      ∀ key, mapGet again key =
        mapGet (updated.map
          (fun p => (p.1, getAnnotation mgh c.AnnotationImageRepo ++ fromLastSlash p.2)))
          key) ∧
    (∀ key, mapGet (updated.map
        (fun p => (p.1, getAnnotation mgh c.AnnotationImageRepo ++ fromLastSlash p.2))) key =
      (match lastOverride c toLower environ key with
        | some value => some value
        | none => mapGet imageOverrides key).map
        (fun v => getAnnotation mgh c.AnnotationImageRepo ++ fromLastSlash v)) := by
  have hfirst := SetImageOverrides_with_repo c toLower environ mgh imageOverrides updated hne
    henv hslash
  have hprev : ∀ key, mapGet (updated.map
        (fun p => (p.1, getAnnotation mgh c.AnnotationImageRepo ++ fromLastSlash p.2))) key =
      (match lastOverride c toLower environ key with
        | some value => some value
        | none => mapGet imageOverrides key).map
        (fun v => getAnnotation mgh c.AnnotationImageRepo ++ fromLastSlash v) := by
    intro key
    rw [← mapGet_overrideFromEnviron c toLower environ imageOverrides updated henv key]
    exact mapGet_withRepo _ updated key
  refine ⟨hfirst, ?_, ?_, hprev⟩
  · intro p hp
    obtain ⟨before, nameTag, h₁, h₂, h₃, _⟩ := fromLastSlash_data p.2 (hslash p hp)
    exact ⟨before, nameTag, h₁, h₂, h₃⟩
  · show ∃ again, SetImageOverrides c toLower environ mgh
        (withRepo ( getAnnotation mgh c.AnnotationImageRepo) updated) = Except.ok again ∧
      ∀ key, mapGet again key =
        mapGet (withRepo ( getAnnotation mgh c.AnnotationImageRepo) updated) key
    obtain ⟨second, hsecond⟩ := overrideFromEnviron_total c toLower environ imageOverrides
      updated (withRepo ( getAnnotation mgh c.AnnotationImageRepo) updated) henv
    have hk₁ : (updated.map Prod.fst).Nodup :=
      overrideFromEnviron_keys_nodup c toLower environ imageOverrides updated henv hkeys
    have hk₂ : (second.map Prod.fst).Nodup := by
      apply overrideFromEnviron_keys_nodup c toLower environ _ second hsecond
      rw [withRepo_keys]
      exact hk₁
    have hget₁ := mapGet_overrideFromEnviron c toLower environ imageOverrides updated henv
    have hget₂ := mapGet_overrideFromEnviron c toLower environ _ second hsecond
    have hslash₂ : ∀ p ∈ second, '/' ∈ p.2.data := by
      intro p hp
      obtain ⟨k, v⟩ := p
      have hv : mapGet second k = some v := mapGet_eq_some_of_mem second k v hk₂ hp
      rw [hget₂ k] at hv
      cases hl : lastOverride c toLower environ k with
      | some value =>
        rw [hl] at hv
        simp only [Option.some.injEq] at hv
        subst hv
        have h₁ := hget₁ k
        rw [hl] at h₁
        exact hslash (k, value) (mem_of_mapGet_eq_some updated k value h₁)
      | none =>
        rw [hl, mapGet_withRepo] at hv
        simp only at hv
        cases h₀ : mapGet updated k with
        | none => rw [h₀] at hv; cases hv
        | some v₀ =>
          rw [h₀] at hv
          simp only [Option.map_some', Option.some.injEq] at hv
          subst hv
          exact (fromLastSlash_idempotent _ v₀
            (hslash (k, v₀) (mem_of_mapGet_eq_some updated k v₀ h₀))).1
    refine ⟨withRepo ( getAnnotation mgh c.AnnotationImageRepo) second,
      SetImageOverrides_with_repo c toLower environ mgh _ second hne hsecond hslash₂, ?_⟩
    intro key
    rw [mapGet_withRepo, hget₂ key, mapGet_withRepo]
    cases hl : lastOverride c toLower environ key with
    | some value =>
      have h₁ := hget₁ key
      rw [hl] at h₁
      simp only
      rw [h₁]
    | none =>
      simp only
      cases h₀ : mapGet updated key with
      | none => rfl
      | some v₀ =>
        simp only [Option.map_some', Option.some.injEq]
        rw [(fromLastSlash_idempotent _ v₀
          (hslash (key, v₀) (mem_of_mapGet_eq_some updated key v₀ h₀))).2]

/-- Witness of C17: with the repository `my.repo/org`, the grafana image taken
from the environment and the postgresql image of the table both keep their
name and tag and get the repository in front. -/
theorem SetImageOverrides_repo_override_witness :
    SetImageOverrides sampleConstants asciiToLower
        ["RELATED_IMAGE_GRAFANA=registry.example/acm/grafana:2.0"]
        ⟨some [("mgh-image-repository", "my.repo/org")]⟩
        [("grafana", "quay.io/stolostron/grafana:globalhub-1.0"),
          ("postgresql", "quay.io/stolostron/postgresql-13:1-101")] =
      Except.ok
        ([("grafana", "registry.example/acm/grafana:2.0"),
          ("postgresql", "quay.io/stolostron/postgresql-13:1-101")].map
          (fun p => (p.1,
            getAnnotation ⟨some [("mgh-image-repository", "my.repo/org")]⟩
              sampleConstants.AnnotationImageRepo ++ fromLastSlash p.2))) :=
  (SetImageOverrides_repo_override sampleConstants asciiToLower
    ["RELATED_IMAGE_GRAFANA=registry.example/acm/grafana:2.0"]
    ⟨some [("mgh-image-repository", "my.repo/org")]⟩
    [("grafana", "quay.io/stolostron/grafana:globalhub-1.0"),
      ("postgresql", "quay.io/stolostron/postgresql-13:1-101")]
    [("grafana", "registry.example/acm/grafana:2.0"),
      ("postgresql", "quay.io/stolostron/postgresql-13:1-101")]
    (by decide) (by decide) rfl (by decide)).1

/-- C17 as it is stated fails: every image reference of the default table
contains "/" and the image-repo annotation is `my.repo/org`, yet with the
environment entry `RELATED_IMAGE_GRAFANA=registry.example/acm/grafana:2.0`
the grafana reference after `SetImageOverrides` is `my.repo/org/grafana:2.0`,
which is not the repository followed by the part of its previous value
`quay.io/stolostron/grafana:globalhub-1.0` from its last "/" on. -/
theorem SetImageOverrides_previous_value_counterexample :
    (∀ p ∈ defaultImageOverrides, '/' ∈ p.2.data) ∧
    getAnnotation ⟨some [("mgh-image-repository", "my.repo/org")]⟩
      sampleConstants.AnnotationImageRepo = "my.repo/org" ∧
    SetImageOverrides sampleConstants asciiToLower
        ["RELATED_IMAGE_GRAFANA=registry.example/acm/grafana:2.0"]
        ⟨some [("mgh-image-repository", "my.repo/org")]⟩ defaultImageOverrides =
      Except.ok
        [("multicluster_global_hub_agent", "my.repo/org/multicluster-global-hub-agent:latest"),
          ("multicluster_global_hub_manager", "my.repo/org/multicluster-global-hub-manager:latest"),
          ("oauth_proxy", "my.repo/org/origin-oauth-proxy:4.9"),
          ("grafana", "my.repo/org/grafana:2.0"),
          ("postgresql", "my.repo/org/postgresql-13:1-101")] ∧
    mapGet defaultImageOverrides "grafana" = some "quay.io/stolostron/grafana:globalhub-1.0" ∧
    "my.repo/org" ++ fromLastSlash "quay.io/stolostron/grafana:globalhub-1.0" =
      "my.repo/org/grafana:globalhub-1.0" ∧
    "my.repo/org/grafana:2.0" ≠
      "my.repo/org" ++ fromLastSlash "quay.io/stolostron/grafana:globalhub-1.0" :=
  ⟨by decide, rfl, rfl, rfl, by decide, by decide⟩

/-! ## The handler of local replicated policy event bundles: errors -/

theorem runBatches_fst (g : Storage) (bs : List (List LocalClusterPolicyEvent)) :
    ∀ (i : Nat) (t : EventTable),
      (runBatches g i t bs).1 = firstStatementError g i bs.length := by
  induction bs with
  | nil => intro i t; rfl
  | cons b bs ih =>
    intro i t
    unfold runBatches
    simp only [List.length_cons, firstStatementError]
    cases hE : g.stmtError i with
    | some e => rfl
    | none => exact ih (i + 1) _

theorem CreateInBatches_fst (g : Storage) (t : EventTable)
    (rows : List LocalClusterPolicyEvent) (n : Nat) :
    (CreateInBatches g t rows n).1 = firstStatementError g 0 (batches n rows).length := by
  unfold CreateInBatches
  simp only
  split
  · exact runBatches_fst g _ 0 t
  · rw [← runBatches_fst g _ 0 t]
    cases hr : (runBatches g 0 t (batches n rows)).1 with
    | some e => rfl
    | none => exact hr

theorem handle_fst (gdc : String → String) (g : Storage) (db : EventTable) (b : ManagerBundle)
    (h : b.Objects.length ≠ 0) :
    (handleLocalObjectsBundle gdc g db b).1 =
      (CreateInBatches g db (buildRows gdc b.LeafHubName b.Objects) 100).1.map
        wrapStorageError := by
  unfold handleLocalObjectsBundle
  rw [if_neg h]
  simp only
  split <;> simp_all [wrapStorageError]

/-- C23: for a bundle with at least one object, the error that
`handleLocalObjectsBundle` returns is the error of the storage insert, wrapped:
it is nil exactly when the insert reports no error, that is when none of the
statements of the call fails, and otherwise it wraps the error of the first
statement that fails. For a bundle with no objects the handler returns nil
and leaves the table as it is, whatever the storage would answer, so no
statement is issued. -/
theorem handleLocalObjectsBundle_error (gdc : String → String) (g : Storage)
    (db : EventTable) (b : ManagerBundle) :
    (b.Objects.length ≠ 0 →
      (handleLocalObjectsBundle gdc g db b).1 =
        (CreateInBatches g db (buildRows gdc b.LeafHubName b.Objects) 100).1.map
          wrapStorageError ∧
      (CreateInBatches g db (buildRows gdc b.LeafHubName b.Objects) 100).1 =
        firstStatementError g 0 (batches 100 (buildRows gdc b.LeafHubName b.Objects)).length ∧
      ((handleLocalObjectsBundle gdc g db b).1 = none ↔
        (CreateInBatches g db (buildRows gdc b.LeafHubName b.Objects) 100).1 = none) ∧
      (∀ e, (handleLocalObjectsBundle gdc g db b).1 = some e →
        (CreateInBatches g db (buildRows gdc b.LeafHubName b.Objects) 100).1 = some e.cause ∧
        e = wrapStorageError e.cause)) ∧
    (b.Objects.length = 0 →
      handleLocalObjectsBundle gdc g db b = (none, db) ∧
      handleLocalObjectsBundle gdc Storage.broken db b = (none, db)) := by
  constructor
  · intro h
    have hf := handle_fst gdc g db b h
    refine ⟨hf, CreateInBatches_fst g db _ 100, ?_, ?_⟩
    · rw [hf]
      cases (CreateInBatches g db (buildRows gdc b.LeafHubName b.Objects) 100).1 <;> simp
    · intro e he
      rw [hf] at he
      cases hc : (CreateInBatches g db (buildRows gdc b.LeafHubName b.Objects) 100).1 with
      | none => rw [hc] at he; cases he
      | some cause =>
        rw [hc] at he
        simp only [Option.map_some', Option.some.injEq] at he
        subst he
        exact ⟨rfl, rfl⟩
  · intro h
    unfold handleLocalObjectsBundle
    simp only [h, if_true, and_self]

/-- Witness of C23: on a storage whose every statement fails, a bundle with one
event gets the wrapped storage error. -/
theorem handleLocalObjectsBundle_error_witness :
    (handleLocalObjectsBundle id Storage.broken []
        ⟨"hub1", [BundleObject.policyEvent (sampleEvent "a" "m" 1 10)]⟩).1 =
      (CreateInBatches Storage.broken []
        (buildRows id "hub1" [BundleObject.policyEvent (sampleEvent "a" "m" 1 10)]) 100).1.map
        wrapStorageError :=
  ((handleLocalObjectsBundle_error id Storage.broken []
    ⟨"hub1", [BundleObject.policyEvent (sampleEvent "a" "m" 1 10)]⟩).1 (by decide)).1

/-! ## Operator configuration: panics of `SetImageOverrides` -/

/-- C22 (evaluation of the code): with the image-repo annotation set, an image
reference without "/" (here the one the environment gives for grafana) makes
the slice expression `imageRef[imageIndex:]` panic, `imageIndex` being -1; and
an environment entry that carries the operand image prefix but no "=" makes
the read of `envKeyVal[1]` panic. In both cases `SetImageOverrides` does not
return nil. -/
theorem SetImageOverrides_panics :
    SetImageOverrides sampleConstants asciiToLower ["RELATED_IMAGE_GRAFANA=grafana:9.0"]
        ⟨some [("mgh-image-repository", "my.repo/org")]⟩ defaultImageOverrides =
      Except.error GoPanic.sliceBoundsOutOfRange ∧
    LastIndex "grafana:9.0" '/' = -1 ∧
    SetImageOverrides sampleConstants asciiToLower ["RELATED_IMAGE_GRAFANA"]
        ⟨none⟩ defaultImageOverrides =
      Except.error GoPanic.indexOutOfRange ∧
    SplitN "RELATED_IMAGE_GRAFANA" '=' = ("RELATED_IMAGE_GRAFANA", none) :=
  ⟨rfl, by decide, rfl, by decide⟩

/-! ## Starting the statistics: results -/

theorem ParseDuration_empty (p : DurationGroups) :
    ParseDuration p "" = Except.error (p.invalid "") := by
  unfold ParseDuration
  simp

theorem Start_error (p : DurationGroups) (s : Statistics) (signals : List RunSignal)
    (err : String) (h : ParseDuration p s.logInterval = Except.error err) :
    s.Start p signals = { returned := some (some err), effects := [], statistics := s } := by
  unfold Statistics.Start
  rw [h]

theorem Start_ok (p : DurationGroups) (s : Statistics) (signals : List RunSignal)
    (d : Int) (h : ParseDuration p s.logInterval = Except.ok d) :
    s.Start p signals =
      { returned := if RunSignal.ctxDone ∈ signals then some none else none
        effects := (s.run d signals).1
        statistics := (s.run d signals).2 } := by
  unfold Statistics.Start
  rw [h]

theorem run_statistics (s : Statistics) (d : Int) (signals : List RunSignal) :
    (s.run d signals).2 = s := by
  unfold Statistics.run
  split <;> rfl

/-- C24: when the configured log interval is not a valid duration string,
`Statistics.Start` returns the parse error whatever happens afterwards, also
when the context is never cancelled, and no snapshot loop has any effect;
the empty log interval, which `NewStatistics` takes from a zero-valued
`StatisticsConfig`, is such a string. For a valid duration string `Start`
starts the snapshot loop and returns nil once the context is cancelled, and
has not returned as long as it is not. -/
theorem Start_results (p : DurationGroups) (s : Statistics) (signals : List RunSignal) :
    (∀ err, ParseDuration p s.logInterval = Except.error err →
      s.Start p signals = { returned := some (some err), effects := [], statistics := s }) ∧
    (s.logInterval = "" →
      s.Start p signals =
        { returned := some (some (p.invalid "")), effects := [], statistics := s }) ∧
    (∀ types : List String,
      (NewStatistics { LogInterval := "" } types).Start p signals =
        { returned := some (some (p.invalid "")), effects := []
          statistics := NewStatistics { LogInterval := "" } types }) ∧
    (∀ d, ParseDuration p s.logInterval = Except.ok d →
      (RunSignal.ctxDone ∈ signals → (s.Start p signals).returned = some none) ∧
      (RunSignal.ctxDone ∉ signals → (s.Start p signals).returned = none) ∧
      (s.Start p signals).effects = (s.run d signals).1 ∧
      (s.Start p signals).statistics = s) := by
  refine ⟨fun err h => Start_error p s signals err h, ?_, ?_, ?_⟩
  · intro h
    apply Start_error
    rw [h]
    exact ParseDuration_empty p
  · intro types
    apply Start_error
    exact ParseDuration_empty p
  · intro d h
    rw [Start_ok p s signals d h]
    refine ⟨fun hc => if_pos hc, fun hc => if_neg hc, rfl, run_statistics s d signals⟩

/-- Witness of C24: with the log interval "1m", `Start` has returned nil after
a tick and the cancellation of the context. -/
theorem Start_results_witness :
    ((NewStatistics { LogInterval := "1m" } ["LocalPolicyHistoryEvent"]).Start sampleGroups
      [RunSignal.tick, RunSignal.ctxDone]).returned = some none :=
  ((Start_results sampleGroups (NewStatistics { LogInterval := "1m" } ["LocalPolicyHistoryEvent"])
    [RunSignal.tick, RunSignal.ctxDone]).2.2.2 60000000000 rfl).1 (by decide)

/-! ## Resource requirements: lemmas -/

theorem chosenQuantity_eq {Q : Type} (ops : QuantityOps Q) (default : Option String)
    (fromAdvanced : Option Q) :
    chosenQuantity ops default fromAdvanced =
      overrideQuantity ops (default.map ops.MustParse) fromAdvanced := by
  cases fromAdvanced <;> rfl

theorem mapGet_memory_override {Q : Type} (ops : QuantityOps Q) (rl base : List (String × Q)) :
    mapGet (if ops.asString (Memory ops rl) ≠ "0" then
        mapSet base "memory" (ops.MustParse (ops.asString (Memory ops rl)))
      else base) "memory" =
      overrideQuantity ops (mapGet base "memory") (mapGet rl "memory") := by
  unfold Memory overrideQuantity
  cases h : mapGet rl "memory" with
  | none =>
    simp only [ops.asString_zeroBinarySI, ne_eq, not_true_eq_false, if_false]
  | some q =>
    simp only
    by_cases hq : ops.asString q = "0"
    · simp only [hq, ne_eq, not_true_eq_false, if_false]
    · simp only [hq, ne_eq, not_false_eq_true, if_true, mapGet_mapSet_same,
        ops.MustParse_asString]

theorem mapGet_cpu_override {Q : Type} (ops : QuantityOps Q) (rl base : List (String × Q)) :
    mapGet (if ops.asString (Cpu ops rl) ≠ "0" then
        mapSet base "cpu" (ops.MustParse (ops.asString (Cpu ops rl)))
      else base) "cpu" =
      overrideQuantity ops (mapGet base "cpu") (mapGet rl "cpu") := by
  unfold Cpu overrideQuantity
  cases h : mapGet rl "cpu" with
  | none =>
    simp only [ops.asString_zeroDecimalSI, ne_eq, not_true_eq_false, if_false]
  | some q =>
    simp only
    by_cases hq : ops.asString q = "0"
    · simp only [hq, ne_eq, not_true_eq_false, if_false]
    · simp only [hq, ne_eq, not_false_eq_true, if_true, mapGet_mapSet_same,
        ops.MustParse_asString]

theorem mapGet_ite_mapSet_other {Q : Type} (cond : Prop) [Decidable cond]
    (base : List (String × Q)) (key other : String) (v : Q) (h : other ≠ key) :
    mapGet (if cond then mapSet base key v else base) other = mapGet base other := by
  by_cases hc : cond
  · rw [if_pos hc, mapGet_mapSet_other _ _ _ _ h]
  · rw [if_neg hc]

theorem quantities_setResourcesFromCR {Q : Type} (ops : QuantityOps Q)
    (r : ResourceRequirements Q) (requests limits : List (String × Q)) :
    quantities { Limits := (setResourcesFromCR ops (some r) requests limits).2
                 Requests := (setResourcesFromCR ops (some r) requests limits).1 } =
      (overrideQuantity ops (mapGet requests "memory") (mapGet r.Requests "memory"),
        overrideQuantity ops (mapGet requests "cpu") (mapGet r.Requests "cpu"),
        overrideQuantity ops (mapGet limits "memory") (mapGet r.Limits "memory"),
        overrideQuantity ops (mapGet limits "cpu") (mapGet r.Limits "cpu")) := by
  unfold quantities setResourcesFromCR
  simp only
  rw [mapGet_ite_mapSet_other _ _ "cpu" "memory" _ (by decide),
    mapGet_ite_mapSet_other _ _ "cpu" "memory" _ (by decide),
    mapGet_memory_override, mapGet_memory_override,
    mapGet_cpu_override, mapGet_cpu_override,
    mapGet_ite_mapSet_other _ _ "memory" "cpu" _ (by decide),
    mapGet_ite_mapSet_other _ _ "memory" "cpu" _ (by decide)]

theorem quantities_applyAdvanced {Q : Type} (ops : QuantityOps Q)
    (advanced : Option (AdvancedConfig Q)) (pick : AdvancedConfig Q → Option (CommonSpec Q))
    (requests limits : List (String × Q)) :
    quantities { Limits := (applyAdvanced ops advanced pick requests limits).2
                 Requests := (applyAdvanced ops advanced pick requests limits).1 } =
      (overrideQuantity ops (mapGet requests "memory")
          ((advancedResources advanced pick).bind (fun r => mapGet r.Requests "memory")),
        overrideQuantity ops (mapGet requests "cpu")
          ((advancedResources advanced pick).bind (fun r => mapGet r.Requests "cpu")),
        overrideQuantity ops (mapGet limits "memory")
          ((advancedResources advanced pick).bind (fun r => mapGet r.Limits "memory")),
        overrideQuantity ops (mapGet limits "cpu")
          ((advancedResources advanced pick).bind (fun r => mapGet r.Limits "cpu"))) := by
  unfold applyAdvanced advancedResources
  cases advanced with
  | none => rfl
  | some a =>
    simp only
    cases pick a with
    | none => rfl
    | some spec =>
      simp only
      cases hres : spec.Resources with
      | none => rfl
      | some r => exact quantities_setResourcesFromCR ops r requests limits

theorem applyAdvanced_none {Q : Type} (ops : QuantityOps Q)
    (advanced : Option (AdvancedConfig Q)) (pick : AdvancedConfig Q → Option (CommonSpec Q))
    (requests limits : List (String × Q)) (h : advancedResources advanced pick = none) :
    applyAdvanced ops advanced pick requests limits = (requests, limits) := by
  unfold applyAdvanced
  unfold advancedResources at h
  cases advanced with
  | none => rfl
  | some a =>
    simp only at h ⊢
    cases hp : pick a with
    | none => rfl
    | some spec =>
      rw [hp] at h
      simp only at h ⊢
      rw [h]
      rfl

theorem GetResources_Grafana {Q : Type} (ops : QuantityOps Q) (k : ResourceConstants)
    (advanced : Option (AdvancedConfig Q))
    (hk : [k.Grafana, k.Postgres, k.Manager, k.Agent, k.Kafka, k.Zookeeper].Nodup) :
    GetResources ops k k.Grafana advanced =
      { Limits := (applyAdvanced ops advanced (fun a => a.Grafana)
            [("memory", ops.MustParse k.GrafanaMemoryRequest), ("cpu", ops.MustParse k.GrafanaCPURequest)]
            [("memory", ops.MustParse k.GrafanaMemoryLimit), ("cpu", ops.MustParse k.GrafanaCPULimit)]).2
        Requests := (applyAdvanced ops advanced (fun a => a.Grafana)
            [("memory", ops.MustParse k.GrafanaMemoryRequest), ("cpu", ops.MustParse k.GrafanaCPURequest)]
            [("memory", ops.MustParse k.GrafanaMemoryLimit), ("cpu", ops.MustParse k.GrafanaCPULimit)]).1 } := by
  simp only [List.nodup_cons, List.mem_cons, List.mem_singleton, not_or, List.not_mem_nil,
    not_false_eq_true, List.nodup_nil, and_true] at hk
  obtain ⟨⟨h₁₂, h₁₃, h₁₄, h₁₅, h₁₆⟩, ⟨h₂₃, h₂₄, h₂₅, h₂₆⟩, ⟨h₃₄, h₃₅, h₃₆⟩, ⟨h₄₅, h₄₆⟩, h₅₆⟩ := hk
  unfold GetResources
  simp only [Ne.symm h₁₂, Ne.symm h₁₃, Ne.symm h₁₄, Ne.symm h₁₅, Ne.symm h₁₆, Ne.symm h₂₃,
    Ne.symm h₂₄, Ne.symm h₂₅, Ne.symm h₂₆, Ne.symm h₃₄, Ne.symm h₃₅, Ne.symm h₃₆,
    Ne.symm h₄₅, Ne.symm h₄₆, Ne.symm h₅₆, if_true, if_false]
  rfl

theorem GetResources_Postgres {Q : Type} (ops : QuantityOps Q) (k : ResourceConstants)
    (advanced : Option (AdvancedConfig Q))
    (hk : [k.Grafana, k.Postgres, k.Manager, k.Agent, k.Kafka, k.Zookeeper].Nodup) :
    GetResources ops k k.Postgres advanced =
      { Limits := (applyAdvanced ops advanced (fun a => a.Postgres)
            [("memory", ops.MustParse k.PostgresMemoryRequest), ("cpu", ops.MustParse k.PostgresCPURequest)]
            [("memory", ops.MustParse k.PostgresMemoryLimit)]).2
        Requests := (applyAdvanced ops advanced (fun a => a.Postgres)
            [("memory", ops.MustParse k.PostgresMemoryRequest), ("cpu", ops.MustParse k.PostgresCPURequest)]
            [("memory", ops.MustParse k.PostgresMemoryLimit)]).1 } := by
  simp only [List.nodup_cons, List.mem_cons, List.mem_singleton, not_or, List.not_mem_nil,
    not_false_eq_true, List.nodup_nil, and_true] at hk
  obtain ⟨⟨h₁₂, h₁₃, h₁₄, h₁₅, h₁₆⟩, ⟨h₂₃, h₂₄, h₂₅, h₂₆⟩, ⟨h₃₄, h₃₅, h₃₆⟩, ⟨h₄₅, h₄₆⟩, h₅₆⟩ := hk
  unfold GetResources
  simp only [Ne.symm h₁₂, Ne.symm h₁₃, Ne.symm h₁₄, Ne.symm h₁₅, Ne.symm h₁₆, Ne.symm h₂₃,
    Ne.symm h₂₄, Ne.symm h₂₅, Ne.symm h₂₆, Ne.symm h₃₄, Ne.symm h₃₅, Ne.symm h₃₆,
    Ne.symm h₄₅, Ne.symm h₄₆, Ne.symm h₅₆, if_true, if_false]
  rfl

theorem GetResources_Manager {Q : Type} (ops : QuantityOps Q) (k : ResourceConstants)
    (advanced : Option (AdvancedConfig Q))
    (hk : [k.Grafana, k.Postgres, k.Manager, k.Agent, k.Kafka, k.Zookeeper].Nodup) :
    GetResources ops k k.Manager advanced =
      { Limits := (applyAdvanced ops advanced (fun a => a.Manager)
            [("memory", ops.MustParse k.ManagerMemoryRequest), ("cpu", ops.MustParse k.ManagerCPURequest)]
            [("memory", ops.MustParse k.ManagerMemoryLimit)]).2
        Requests := (applyAdvanced ops advanced (fun a => a.Manager)
            [("memory", ops.MustParse k.ManagerMemoryRequest), ("cpu", ops.MustParse k.ManagerCPURequest)]
            [("memory", ops.MustParse k.ManagerMemoryLimit)]).1 } := by
  simp only [List.nodup_cons, List.mem_cons, List.mem_singleton, not_or, List.not_mem_nil,
    not_false_eq_true, List.nodup_nil, and_true] at hk
  obtain ⟨⟨h₁₂, h₁₃, h₁₄, h₁₅, h₁₆⟩, ⟨h₂₃, h₂₄, h₂₅, h₂₆⟩, ⟨h₃₄, h₃₅, h₃₆⟩, ⟨h₄₅, h₄₆⟩, h₅₆⟩ := hk
  unfold GetResources
  simp only [Ne.symm h₁₂, Ne.symm h₁₃, Ne.symm h₁₄, Ne.symm h₁₅, Ne.symm h₁₆, Ne.symm h₂₃,
    Ne.symm h₂₄, Ne.symm h₂₅, Ne.symm h₂₆, Ne.symm h₃₄, Ne.symm h₃₅, Ne.symm h₃₆,
    Ne.symm h₄₅, Ne.symm h₄₆, Ne.symm h₅₆, if_true, if_false]
  rfl

theorem GetResources_Agent {Q : Type} (ops : QuantityOps Q) (k : ResourceConstants)
    (advanced : Option (AdvancedConfig Q))
    (hk : [k.Grafana, k.Postgres, k.Manager, k.Agent, k.Kafka, k.Zookeeper].Nodup) :
    GetResources ops k k.Agent advanced =
      { Limits := (applyAdvanced ops advanced (fun a => a.Agent)
            [("memory", ops.MustParse k.AgentMemoryRequest), ("cpu", ops.MustParse k.AgentCPURequest)]
            [("memory", ops.MustParse k.AgentMemoryLimit)]).2
        Requests := (applyAdvanced ops advanced (fun a => a.Agent)
            [("memory", ops.MustParse k.AgentMemoryRequest), ("cpu", ops.MustParse k.AgentCPURequest)]
            [("memory", ops.MustParse k.AgentMemoryLimit)]).1 } := by
  simp only [List.nodup_cons, List.mem_cons, List.mem_singleton, not_or, List.not_mem_nil,
    not_false_eq_true, List.nodup_nil, and_true] at hk
  obtain ⟨⟨h₁₂, h₁₃, h₁₄, h₁₅, h₁₆⟩, ⟨h₂₃, h₂₄, h₂₅, h₂₆⟩, ⟨h₃₄, h₃₅, h₃₆⟩, ⟨h₄₅, h₄₆⟩, h₅₆⟩ := hk
  unfold GetResources
  simp only [Ne.symm h₁₂, Ne.symm h₁₃, Ne.symm h₁₄, Ne.symm h₁₅, Ne.symm h₁₆, Ne.symm h₂₃,
    Ne.symm h₂₄, Ne.symm h₂₅, Ne.symm h₂₆, Ne.symm h₃₄, Ne.symm h₃₅, Ne.symm h₃₆,
    Ne.symm h₄₅, Ne.symm h₄₆, Ne.symm h₅₆, if_true, if_false]
  rfl

theorem GetResources_Kafka {Q : Type} (ops : QuantityOps Q) (k : ResourceConstants)
    (advanced : Option (AdvancedConfig Q))
    (hk : [k.Grafana, k.Postgres, k.Manager, k.Agent, k.Kafka, k.Zookeeper].Nodup) :
    GetResources ops k k.Kafka advanced =
      { Limits := (applyAdvanced ops advanced (fun a => a.Kafka)
            [("memory", ops.MustParse k.KafkaMemoryRequest), ("cpu", ops.MustParse k.KafkaCPURequest)]
            [("memory", ops.MustParse k.KafkaMemoryLimit)]).2
        Requests := (applyAdvanced ops advanced (fun a => a.Kafka)
            [("memory", ops.MustParse k.KafkaMemoryRequest), ("cpu", ops.MustParse k.KafkaCPURequest)]
            [("memory", ops.MustParse k.KafkaMemoryLimit)]).1 } := by
  simp only [List.nodup_cons, List.mem_cons, List.mem_singleton, not_or, List.not_mem_nil,
    not_false_eq_true, List.nodup_nil, and_true] at hk
  obtain ⟨⟨h₁₂, h₁₃, h₁₄, h₁₅, h₁₆⟩, ⟨h₂₃, h₂₄, h₂₅, h₂₆⟩, ⟨h₃₄, h₃₅, h₃₆⟩, ⟨h₄₅, h₄₆⟩, h₅₆⟩ := hk
  unfold GetResources
  simp only [Ne.symm h₁₂, Ne.symm h₁₃, Ne.symm h₁₄, Ne.symm h₁₅, Ne.symm h₁₆, Ne.symm h₂₃,
    Ne.symm h₂₄, Ne.symm h₂₅, Ne.symm h₂₆, Ne.symm h₃₄, Ne.symm h₃₅, Ne.symm h₃₆,
    Ne.symm h₄₅, Ne.symm h₄₆, Ne.symm h₅₆, if_true, if_false]
  rfl

theorem GetResources_Zookeeper {Q : Type} (ops : QuantityOps Q) (k : ResourceConstants)
    (advanced : Option (AdvancedConfig Q))
    (hk : [k.Grafana, k.Postgres, k.Manager, k.Agent, k.Kafka, k.Zookeeper].Nodup) :
    GetResources ops k k.Zookeeper advanced =
      { Limits := (applyAdvanced ops advanced (fun a => a.Zookeeper)
            [("memory", ops.MustParse k.ZookeeperMemoryRequest), ("cpu", ops.MustParse k.ZookeeperCPURequest)]
            [("memory", ops.MustParse k.ZookeeperMemoryLimit)]).2
        Requests := (applyAdvanced ops advanced (fun a => a.Zookeeper)
            [("memory", ops.MustParse k.ZookeeperMemoryRequest), ("cpu", ops.MustParse k.ZookeeperCPURequest)]
            [("memory", ops.MustParse k.ZookeeperMemoryLimit)]).1 } := by
  simp only [List.nodup_cons, List.mem_cons, List.mem_singleton, not_or, List.not_mem_nil,
    not_false_eq_true, List.nodup_nil, and_true] at hk
  obtain ⟨⟨h₁₂, h₁₃, h₁₄, h₁₅, h₁₆⟩, ⟨h₂₃, h₂₄, h₂₅, h₂₆⟩, ⟨h₃₄, h₃₅, h₃₆⟩, ⟨h₄₅, h₄₆⟩, h₅₆⟩ := hk
  unfold GetResources
  simp only [Ne.symm h₁₂, Ne.symm h₁₃, Ne.symm h₁₄, Ne.symm h₁₅, Ne.symm h₁₆, Ne.symm h₂₃,
    Ne.symm h₂₄, Ne.symm h₂₅, Ne.symm h₂₆, Ne.symm h₃₄, Ne.symm h₃₅, Ne.symm h₃₆,
    Ne.symm h₄₅, Ne.symm h₄₆, Ne.symm h₅₆, if_true, if_false]
  rfl

/-! ## Resource requirements: results -/

/-- C21: for each of the components grafana, postgres, manager, agent, kafka
and zookeeper (whose names are distinct), each of the four quantities that
`GetResources` returns (memory request, CPU request, memory limit, CPU limit)
is the value from the resources of the component in the advanced
configuration when that value is set and not zero, and the default of the
component otherwise; only grafana has a default CPU limit. When the advanced
configuration is nil or lacks the component or its resources, the result is
exactly the defaults. -/
theorem GetResources_spec {Q : Type} (ops : QuantityOps Q) (k : ResourceConstants)
    (advanced : Option (AdvancedConfig Q))
    (hk : [k.Grafana, k.Postgres, k.Manager, k.Agent, k.Kafka, k.Zookeeper].Nodup) :
    quantities (GetResources ops k k.Grafana advanced) =
      expectedQuantities ops k.GrafanaMemoryRequest k.GrafanaCPURequest k.GrafanaMemoryLimit
        (some k.GrafanaCPULimit) (advancedResources advanced (fun a => a.Grafana)) ∧
    quantities (GetResources ops k k.Postgres advanced) =
      expectedQuantities ops k.PostgresMemoryRequest k.PostgresCPURequest k.PostgresMemoryLimit
        none (advancedResources advanced (fun a => a.Postgres)) ∧
    quantities (GetResources ops k k.Manager advanced) =
      expectedQuantities ops k.ManagerMemoryRequest k.ManagerCPURequest k.ManagerMemoryLimit
        none (advancedResources advanced (fun a => a.Manager)) ∧
    quantities (GetResources ops k k.Agent advanced) =
      expectedQuantities ops k.AgentMemoryRequest k.AgentCPURequest k.AgentMemoryLimit
        none (advancedResources advanced (fun a => a.Agent)) ∧
    quantities (GetResources ops k k.Kafka advanced) =
      expectedQuantities ops k.KafkaMemoryRequest k.KafkaCPURequest k.KafkaMemoryLimit
        none (advancedResources advanced (fun a => a.Kafka)) ∧
    quantities (GetResources ops k k.Zookeeper advanced) =
      expectedQuantities ops k.ZookeeperMemoryRequest k.ZookeeperCPURequest k.ZookeeperMemoryLimit
        none (advancedResources advanced (fun a => a.Zookeeper)) ∧
    (advancedResources advanced (fun a => a.Grafana) = none →
      GetResources ops k k.Grafana advanced =
        { Limits := [("memory", ops.MustParse k.GrafanaMemoryLimit), ("cpu", ops.MustParse k.GrafanaCPULimit)]
          Requests := [("memory", ops.MustParse k.GrafanaMemoryRequest), ("cpu", ops.MustParse k.GrafanaCPURequest)] }) ∧
    (advancedResources advanced (fun a => a.Postgres) = none →
      GetResources ops k k.Postgres advanced =
        { Limits := [("memory", ops.MustParse k.PostgresMemoryLimit)]
          Requests := [("memory", ops.MustParse k.PostgresMemoryRequest), ("cpu", ops.MustParse k.PostgresCPURequest)] }) ∧
    (advancedResources advanced (fun a => a.Manager) = none →
      GetResources ops k k.Manager advanced =
        { Limits := [("memory", ops.MustParse k.ManagerMemoryLimit)]
          Requests := [("memory", ops.MustParse k.ManagerMemoryRequest), ("cpu", ops.MustParse k.ManagerCPURequest)] }) ∧
    (advancedResources advanced (fun a => a.Agent) = none →
      GetResources ops k k.Agent advanced =
        { Limits := [("memory", ops.MustParse k.AgentMemoryLimit)]
          Requests := [("memory", ops.MustParse k.AgentMemoryRequest), ("cpu", ops.MustParse k.AgentCPURequest)] }) ∧
    (advancedResources advanced (fun a => a.Kafka) = none →
      GetResources ops k k.Kafka advanced =
        { Limits := [("memory", ops.MustParse k.KafkaMemoryLimit)]
          Requests := [("memory", ops.MustParse k.KafkaMemoryRequest), ("cpu", ops.MustParse k.KafkaCPURequest)] }) ∧
    (advancedResources advanced (fun a => a.Zookeeper) = none →
      GetResources ops k k.Zookeeper advanced =
        { Limits := [("memory", ops.MustParse k.ZookeeperMemoryLimit)]
          Requests := [("memory", ops.MustParse k.ZookeeperMemoryRequest), ("cpu", ops.MustParse k.ZookeeperCPURequest)] }) := by
  refine ⟨?_, ?_, ?_, ?_, ?_, ?_, ?_, ?_, ?_, ?_, ?_, ?_⟩
  · rw [GetResources_Grafana ops k advanced hk, quantities_applyAdvanced]
    simp only [expectedQuantities, chosenQuantity_eq]
    rfl
  · rw [GetResources_Postgres ops k advanced hk, quantities_applyAdvanced]
    simp only [expectedQuantities, chosenQuantity_eq]
    rfl
  · rw [GetResources_Manager ops k advanced hk, quantities_applyAdvanced]
    simp only [expectedQuantities, chosenQuantity_eq]
    rfl
  · rw [GetResources_Agent ops k advanced hk, quantities_applyAdvanced]
    simp only [expectedQuantities, chosenQuantity_eq]
    rfl
  · rw [GetResources_Kafka ops k advanced hk, quantities_applyAdvanced]
    simp only [expectedQuantities, chosenQuantity_eq]
    rfl
  · rw [GetResources_Zookeeper ops k advanced hk, quantities_applyAdvanced]
    simp only [expectedQuantities, chosenQuantity_eq]
    rfl
  · intro h
    rw [GetResources_Grafana ops k advanced hk, applyAdvanced_none ops advanced _ _ _ h]
  · intro h
    rw [GetResources_Postgres ops k advanced hk, applyAdvanced_none ops advanced _ _ _ h]
  · intro h
    rw [GetResources_Manager ops k advanced hk, applyAdvanced_none ops advanced _ _ _ h]
  · intro h
    rw [GetResources_Agent ops k advanced hk, applyAdvanced_none ops advanced _ _ _ h]
  · intro h
    rw [GetResources_Kafka ops k advanced hk, applyAdvanced_none ops advanced _ _ _ h]
  · intro h
    rw [GetResources_Zookeeper ops k advanced hk, applyAdvanced_none ops advanced _ _ _ h]

/-- Witness of C21: the manager gets its memory request from the advanced
configuration and its other quantities from the defaults. -/
theorem GetResources_spec_witness :
    quantities (GetResources stringQuantities sampleResourceConstants "manager"
      (some { Grafana := none, Postgres := none
              Manager := some ⟨some { Limits := [("cpu", "0")], Requests := [("memory", "300Mi")] }⟩
              Agent := none, Kafka := none, Zookeeper := none })) =
      (some "300Mi", some "1m", some "600Mi", none) :=
  (GetResources_spec stringQuantities sampleResourceConstants
    (some { Grafana := none, Postgres := none
            Manager := some ⟨some { Limits := [("cpu", "0")], Requests := [("memory", "300Mi")] }⟩
            Agent := none, Kafka := none, Zookeeper := none }) (by decide)).2.2.1

/-! ## The handler with the log of its insert statements: lemmas -/

theorem runBatchesLogged_fst (g : Storage) (bs : List (List LocalClusterPolicyEvent)) :
    ∀ (i : Nat) (t : EventTable), (runBatchesLogged g i t bs).1 = runBatches g i t bs := by
  induction bs with
  | nil => intro i t; rfl
  | cons b bs ih =>
    intro i t
    unfold runBatchesLogged runBatches
    cases hE : g.stmtError i with
    | some e => rfl
    | none => exact ih (i + 1) _

theorem runBatchesLogged_initial (g : Storage) (bs : List (List LocalClusterPolicyEvent)) :
    ∀ (i : Nat) (t : EventTable), (runBatchesLogged g i t bs).2 <+: bs := by
  induction bs with
  | nil => intro i t; exact List.prefix_refl _
  | cons b bs ih =>
    intro i t
    unfold runBatchesLogged
    cases hE : g.stmtError i with
    | some e =>
      exact ⟨bs, rfl⟩
    | none =>
      obtain ⟨rest, hrest⟩ := ih (i + 1) (execInsert t b)
      exact ⟨rest, congrArg (List.cons b) hrest⟩

theorem runBatchesLogged_ok (g : Storage) (bs : List (List LocalClusterPolicyEvent)) :
    ∀ (i : Nat) (t : EventTable), (runBatches g i t bs).1 = none →
      (runBatchesLogged g i t bs).2 = bs := by
  induction bs with
  | nil => intro i t _; rfl
  | cons b bs ih =>
    intro i t hok
    unfold runBatches at hok
    unfold runBatchesLogged
    cases hE : g.stmtError i with
    | some e => rw [hE] at hok; cases hok
    | none =>
      rw [hE] at hok
      exact congrArg (List.cons b) (ih (i + 1) _ hok)

theorem runBatchesLogged_error (g : Storage) (bs : List (List LocalClusterPolicyEvent)) :
    ∀ (i : Nat) (t : EventTable) (e : String), (runBatches g i t bs).1 = some e →
      (runBatchesLogged g i t bs).2 ≠ [] ∧
      g.stmtError (i + ((runBatchesLogged g i t bs).2.length - 1)) = some e := by
  induction bs with
  | nil => intro i t e h; cases h
  | cons b bs ih =>
    intro i t e h
    unfold runBatches at h
    unfold runBatchesLogged
    cases hE : g.stmtError i with
    | some e' =>
      rw [hE] at h
      simp only [Option.some.injEq] at h
      subst h
      exact ⟨List.cons_ne_nil _ _, hE⟩
    | none =>
      rw [hE] at h
      obtain ⟨hne, herr⟩ := ih (i + 1) _ e h
      refine ⟨List.cons_ne_nil _ _, ?_⟩
      have hpos : 0 < (runBatchesLogged g (i + 1) (execInsert t b) bs).2.length :=
        List.length_pos.2 hne
      have hidx : i + ((b :: (runBatchesLogged g (i + 1) (execInsert t b) bs).2).length - 1) =
          i + 1 + ((runBatchesLogged g (i + 1) (execInsert t b) bs).2.length - 1) := by
        simp only [List.length_cons]
        omega
      rw [hidx]
      exact herr

theorem runBatchesLogged_before (g : Storage) (bs : List (List LocalClusterPolicyEvent)) :
    ∀ (i : Nat) (t : EventTable) (j : Nat), j + 1 < (runBatchesLogged g i t bs).2.length →
      g.stmtError (i + j) = none := by
  induction bs with
  | nil => intro i t j h; cases h
  | cons b bs ih =>
    intro i t j h
    unfold runBatchesLogged at h
    cases hE : g.stmtError i with
    | some e =>
      rw [hE] at h
      simp only [List.length_singleton] at h
      omega
    | none =>
      rw [hE] at h
      simp only [List.length_cons] at h
      cases j with
      | zero => exact hE
      | succ j =>
        have := ih (i + 1) (execInsert t b) j (by omega)
        have hidx : i + (j + 1) = i + 1 + j := by omega
        rw [hidx]
        exact this

theorem CreateInBatchesLogged_fst (g : Storage) (t : EventTable)
    (rows : List LocalClusterPolicyEvent) (n : Nat) :
    (CreateInBatchesLogged g t rows n).1 = CreateInBatches g t rows n := by
  unfold CreateInBatchesLogged CreateInBatches
  simp only
  rw [← runBatchesLogged_fst g (batches n rows) 0 t]
  split
  · rfl
  · cases (runBatchesLogged g 0 t (batches n rows)).1.1 <;> rfl

theorem CreateInBatchesLogged_snd (g : Storage) (t : EventTable)
    (rows : List LocalClusterPolicyEvent) (n : Nat) :
    (CreateInBatchesLogged g t rows n).2 = (runBatchesLogged g 0 t (batches n rows)).2 := by
  unfold CreateInBatchesLogged
  simp only
  split
  · rfl
  · cases (runBatchesLogged g 0 t (batches n rows)).1.1 <;> rfl

theorem CreateInBatches_fst_eq (g : Storage) (t : EventTable)
    (rows : List LocalClusterPolicyEvent) (n : Nat) :
    (CreateInBatches g t rows n).1 = (runBatches g 0 t (batches n rows)).1 := by
  rw [CreateInBatches_fst, runBatches_fst]

theorem handleLogged_fst (gdc : String → String) (g : Storage) (db : EventTable)
    (b : ManagerBundle) :
    (handleLocalObjectsBundleLogged gdc g db b).1 = handleLocalObjectsBundle gdc g db b := by
  unfold handleLocalObjectsBundleLogged handleLocalObjectsBundle
  split
  · rfl
  · simp only
    rw [← CreateInBatchesLogged_fst]
    rcases CreateInBatchesLogged g db (buildRows gdc b.LeafHubName b.Objects) 100 with
      ⟨⟨_ | e, db'⟩, statements⟩ <;> rfl

theorem handleLogged_snd (gdc : String → String) (g : Storage) (db : EventTable)
    (b : ManagerBundle) :
    (handleLocalObjectsBundleLogged gdc g db b).2 =
      (runBatchesLogged g 0 db (batches 100 (buildRows gdc b.LeafHubName b.Objects))).2 := by
  unfold handleLocalObjectsBundleLogged
  split
  · rename_i h0
    have hnil : b.Objects = [] := List.length_eq_zero.1 h0
    rw [hnil]
    rfl
  · simp only
    rw [← CreateInBatchesLogged_snd]
    rcases CreateInBatchesLogged g db (buildRows gdc b.LeafHubName b.Objects) 100 with
      ⟨⟨_ | e, db'⟩, statements⟩ <;> rfl

theorem mem_dropLast_of_initial {α : Type} (l₁ l₂ : List α) (h : l₁ <+: l₂) :
    ∀ c ∈ l₁.dropLast, c ∈ l₂.dropLast := by
  obtain ⟨s, hs⟩ := h
  intro c hc
  subst hs
  cases s with
  | nil => rw [List.append_nil]; exact hc
  | cons a s =>
    rw [List.dropLast_append_of_ne_nil _ (List.cons_ne_nil a s)]
    exact List.mem_append_left _ (List.mem_of_mem_dropLast hc)

/-! ## The handler writes in statements of at most 100 rows -/

/-- C11: the insert statements that `handleLocalObjectsBundle` executes, for
every storage behaviour, are the first of the slices
`rows[i:min(i+100,len)]`, `i = 0, 100, ...` of the row list it builds, in
order, up to and including the first one that reports an error: they are
consecutive chunks of the row list, none is empty, none has more than 100
rows, and every one but possibly the last has exactly 100 rows; the
statements before the last one reported no error; when the handler returns
nil the statements are all the slices, their concatenation is the whole row
list and the table is the result of executing them in order; when it returns
an error, that error wraps the one reported by the last statement executed.
The slices themselves concatenate to the row list and all but possibly the
last have exactly 100 rows. The logged handler returns what the handler
returns. -/
theorem handleLocalObjectsBundle_batches (gdc : String → String) (g : Storage)
    (db : EventTable) (b : ManagerBundle) :
    (handleLocalObjectsBundleLogged gdc g db b).1 = handleLocalObjectsBundle gdc g db b ∧
    (handleLocalObjectsBundleLogged gdc g db b).2 <+:
      batches 100 (buildRows gdc b.LeafHubName b.Objects) ∧
    (handleLocalObjectsBundleLogged gdc g db b).2.flatten <+:
      buildRows gdc b.LeafHubName b.Objects ∧
    (∀ c ∈ (handleLocalObjectsBundleLogged gdc g db b).2, c ≠ [] ∧ c.length ≤ 100) ∧
    (∀ c ∈ (handleLocalObjectsBundleLogged gdc g db b).2.dropLast, c.length = 100) ∧
    (∀ j, j + 1 < (handleLocalObjectsBundleLogged gdc g db b).2.length →
      g.stmtError j = none) ∧
    ((handleLocalObjectsBundle gdc g db b).1 = none →
      (handleLocalObjectsBundleLogged gdc g db b).2 =
        batches 100 (buildRows gdc b.LeafHubName b.Objects) ∧
      (handleLocalObjectsBundleLogged gdc g db b).2.flatten =
        buildRows gdc b.LeafHubName b.Objects ∧
      (handleLocalObjectsBundle gdc g db b).2 =
        (handleLocalObjectsBundleLogged gdc g db b).2.foldl execInsert db) ∧
    (∀ e, (handleLocalObjectsBundle gdc g db b).1 = some e →
      (handleLocalObjectsBundleLogged gdc g db b).2 ≠ [] ∧
      g.stmtError ((handleLocalObjectsBundleLogged gdc g db b).2.length - 1) = some e.cause ∧
      e = wrapStorageError e.cause) ∧
    (batches 100 (buildRows gdc b.LeafHubName b.Objects)).flatten =
      buildRows gdc b.LeafHubName b.Objects ∧
    (∀ c ∈ batches 100 (buildRows gdc b.LeafHubName b.Objects), c ≠ [] ∧ c.length ≤ 100) ∧
    (∀ c ∈ (batches 100 (buildRows gdc b.LeafHubName b.Objects)).dropLast, c.length = 100) := by
  have hflat := batches_flatten 100 (by decide) (buildRows gdc b.LeafHubName b.Objects)
  have hmem := batchesAux_mem 100 (by decide) (buildRows gdc b.LeafHubName b.Objects).length
    (buildRows gdc b.LeafHubName b.Objects)
  have hdrop := batchesAux_dropLast 100 (buildRows gdc b.LeafHubName b.Objects).length
    (buildRows gdc b.LeafHubName b.Objects)
  have hpre : (handleLocalObjectsBundleLogged gdc g db b).2 <+:
      batches 100 (buildRows gdc b.LeafHubName b.Objects) := by
    rw [handleLogged_snd]
    exact runBatchesLogged_initial g _ 0 db
  refine ⟨handleLogged_fst gdc g db b, hpre, ?_, ?_, ?_, ?_, ?_, ?_, hflat, hmem, hdrop⟩
  · obtain ⟨rest, hrest⟩ := hpre
    refine ⟨rest.flatten, ?_⟩
    rw [← List.flatten_append, hrest]
    exact hflat
  · intro c hc
    exact hmem c (hpre.subset hc)
  · intro c hc
    exact hdrop c (mem_dropLast_of_initial _ _ hpre c hc)
  · intro j hj
    rw [handleLogged_snd] at hj
    have := runBatchesLogged_before g _ 0 db j hj
    rw [Nat.zero_add] at this
    exact this
  · intro hok
    by_cases h0 : b.Objects.length = 0
    · have hnil : b.Objects = [] := List.length_eq_zero.1 h0
      refine ⟨?_, ?_, ?_⟩
      · rw [handleLogged_snd, hnil]
        rfl
      · rw [handleLogged_snd, hnil]
        rfl
      · rw [handle_snd, if_pos h0, handleLogged_snd, hnil]
        rfl
    · have hc : (CreateInBatches g db (buildRows gdc b.LeafHubName b.Objects) 100).1 = none := by
        rcases (handle_fst_none gdc g db b).1 hok with h | h
        · exact absurd h h0
        · exact h
      have hr := hc
      rw [CreateInBatches_fst_eq] at hr
      have hlog := runBatchesLogged_ok g _ 0 db hr
      rw [handleLogged_snd, hlog]
      refine ⟨rfl, hflat, ?_⟩
      rw [handle_snd, if_neg h0]
      exact CreateInBatches_ok g db _ 100 hc
  · intro e he
    have h0 : b.Objects.length ≠ 0 := by
      intro h0
      have : (handleLocalObjectsBundle gdc g db b).1 = none :=
        (handle_fst_none gdc g db b).2 (Or.inl h0)
      rw [this] at he
      cases he
    rw [handle_fst gdc g db b h0, CreateInBatches_fst_eq] at he
    cases hr : (runBatches g 0 db (batches 100 (buildRows gdc b.LeafHubName b.Objects))).1 with
    | none => rw [hr] at he; cases he
    | some cause =>
      rw [hr] at he
      simp only [Option.map_some', Option.some.injEq] at he
      subst he
      have := runBatchesLogged_error g _ 0 db cause hr
      rw [Nat.zero_add] at this
      rw [handleLogged_snd]
      exact ⟨this.1, this.2, rfl⟩

/-- Witness of C11: on a storage whose second statement fails, a bundle of 150
events makes the handler execute two statements, the second of which reports
the error that the handler wraps. -/
theorem handleLocalObjectsBundle_batches_witness :
    (handleLocalObjectsBundleLogged id Storage.secondFails [] (sampleBundle 150)).2 ≠ [] ∧
    Storage.secondFails.stmtError
      ((handleLocalObjectsBundleLogged id Storage.secondFails [] (sampleBundle 150)).2.length - 1) =
      some "deadlock detected" ∧
    wrapStorageError "deadlock detected" = wrapStorageError "deadlock detected" :=
  (handleLocalObjectsBundle_batches id Storage.secondFails [] (sampleBundle 150)).2.2.2.2.2.2.2.1
    (wrapStorageError "deadlock detected") (by set_option maxRecDepth 100000 in decide)

end GlobalHub
